import Mathlib

/-!
# Verification of the Simupynk execution-order, naming and property engines

This file gives a shallow embedding, in Lean 4, of the core algorithms of the
Simupynk block-diagram framework:

* the name registry `_NameManager` of
  `src/pyrunner/components/systems/diagram.py` (registration, unregistration,
  basename/index parsing);
* the component property store `_ComponentProperty` of
  `src/pyrunner/components/base_comp.py` (ordered/unordered collections,
  generated keys, left-compaction, the `_within_method` reentrancy guard);
* the execution-order organizer `BaseOrganizer` of
  `src/pyrunner/runners/base_runner.py` (depth-first traversal, trail-based
  cycle detection, feedback-loop severance).

Python dictionaries are embedded as insertion-ordered association lists,
Python lists as Lean lists with index-based iteration (so that in-place
mutation during iteration has exactly the CPython semantics: removing an
element at an index at or before the iterator position skips the following
element), and unbounded recursion / `while True` loops are embedded with
explicit fuel.  Exceptions are embedded with explicit result types that carry
the state at the moment of the raise, because the Python objects survive an
exception with their mutated state.
-/

/-! ## Decimal numerals

Python renders the registry counter and the generated-key index with `str(n)`
/ f-string formatting and parses them back with `int(s)`.  We embed decimal
rendering and parsing directly so that they compute by kernel reduction. -/

/-- The character of a single decimal digit. -/
def digitChar (d : ℕ) : Char := Char.ofNat (48 + d)

/-- Decimal digits of `n` (most significant first), with fuel; empty for 0. -/
def decChars : ℕ → ℕ → List Char
  | 0, _ => []
  | f + 1, n => if n = 0 then [] else decChars f (n / 10) ++ [digitChar (n % 10)]

/-- Decimal rendering of a natural number, as Python `str(n)` produces it. -/
def natStr (n : ℕ) : String := if n = 0 then "0" else String.mk (decChars n n)

/-- Numeric value of a decimal-digit character. -/
def digitVal (c : Char) : ℕ := c.toNat - 48

/-- Whether a character is one of the ASCII digits `0`–`9`. -/
def isDigitCh (c : Char) : Bool := 48 ≤ c.toNat && c.toNat ≤ 57

/-- Value of a most-significant-first digit string. -/
def digitsVal (cs : List Char) : ℕ := cs.foldl (fun a c => 10 * a + digitVal c) 0

/-- Python `int(s)` restricted to plain digit strings: the only shape the
embedded callers can reach (all parsed segments are produced by `str(n)` or
guarded by a digit-pattern match). `none` embeds a raised `ValueError`. -/
def parseNat (cs : List Char) : Option ℕ :=
  if cs ≠ [] && cs.all isDigitCh then some (digitsVal cs) else none

/-! ## Name parsing: `_NameManager.get_name_attrs`

`get_name_attrs` splits a name on the regex `(_[1-9][0-9]*)+$`: the basename
strips the maximal run of `_<positive int>` groups from the end of the name,
and the index is the value of the last (rightmost) such group; names with no
such suffix parse as `(name, 0)`.  We work on the reversed character list, so
one group is: a nonempty digit run whose last-taken character (the group's
first digit) is nonzero, followed by an underscore. -/

/-- On a reversed character list, strip one trailing `_[1-9][0-9]*` group,
returning the rest (still reversed) and the group's numeric value. -/
def stripGroupRev (rev : List Char) : Option (List Char × ℕ) :=
  let ds := rev.takeWhile isDigitCh
  match h : ds with
  | [] => none
  | _ :: _ =>
    if (ds.getLast (by simp [h])) = '0' then none
    else match rev.drop ds.length with
      | '_' :: rest => some (rest, digitsVal ds.reverse)
      | _ => none

/-- Whether the name ends with at least one `_[1-9][0-9]*` group, i.e. Python's
`re.search("(_[1-9][0-9]*)+$", name)` succeeds. -/
def hasIndexedSuffix (name : String) : Bool :=
  (stripGroupRev name.data.reverse).isSome

/-- Strip as many trailing groups as possible (the regex `+` is greedy through
the leftmost-match rule of `re.split`), with fuel. -/
def stripGroupsRev : ℕ → List Char → List Char
  | 0, rev => rev
  | f + 1, rev =>
    match stripGroupRev rev with
    | none => rev
    | some (rest, _) => stripGroupsRev f rest

/-- `_NameManager.get_name_attrs`: basename and index of a name.  The basename
drops the maximal trailing run of `_<positive int>` groups; the index is the
rightmost group's value, or 0 when there is no such group. -/
def getNameAttrs (name : String) : String × ℕ :=
  match stripGroupRev name.data.reverse with
  | none => (name, 0)
  | some (rest, v) => (String.mk (stripGroupsRev name.data.length rest).reverse, v)

/-! ## The name registry: `_NameManager`

The registry is a Python dict from name strings to counts; we embed it as an
insertion-ordered association list with unique keys.  `register_name`'s
`while True` loop gets explicit fuel. -/

/-- The name registry of a `_NameManager`: insertion-ordered, unique keys. -/
abbrev Registry := List (String × ℕ)

/-- Python `name in registry`. -/
def rcontains (reg : Registry) (name : String) : Bool :=
  reg.any (fun p => p.1 = name)

/-- Python `registry[name]` lookup. -/
def rlookup (reg : Registry) (name : String) : Option ℕ :=
  (reg.find? (fun p => p.1 = name)).map Prod.snd

/-- `registry[name]` where membership is already guaranteed by a guard. -/
def rget (reg : Registry) (name : String) : ℕ := (rlookup reg name).getD 0

/-- Python `registry[name] = v`: replace in place if present, else append
(CPython dicts keep insertion order; re-assignment keeps the position). -/
def rinsert (reg : Registry) (name : String) (v : ℕ) : Registry :=
  match reg with
  | [] => [(name, v)]
  | p :: rest =>
    if p.1 = name then (name, v) :: rest else p :: rinsert rest name v

/-- Python `del registry[name]`. -/
def rerase (reg : Registry) (name : String) : Registry :=
  match reg with
  | [] => []
  | p :: rest => if p.1 = name then rest else p :: rerase rest name

/-- `_NameManager._is_implicitly_registered`: the basename is a key and the
name's index is below the basename's count. -/
def isImplicitlyRegistered (reg : Registry) (name : String) : Bool :=
  let (basename, idx) := getNameAttrs name
  rcontains reg basename && idx < rget reg basename

/-- `_NameManager.get_name_count`: count of an explicit key, count of the
basename for an implicitly registered name, `none` otherwise. -/
def getNameCount (reg : Registry) (name : String) : Option ℕ :=
  if rcontains reg name then some (rget reg name)
  else if isImplicitlyRegistered reg name then
    some (rget reg (getNameAttrs name).1)
  else none

/-- `_NameManager.is_name_registered`. -/
def isNameRegistered (reg : Registry) (name : String) : Bool :=
  if rcontains reg name then true
  else if hasIndexedSuffix name then isImplicitlyRegistered reg name
  else false

/-- `_NameManager._unregister_name`: count 1 deletes the entry, a larger count
is decremented (a non-positive count is left untouched by the two guards). -/
def unregOne (reg : Registry) (name : String) : Registry :=
  let c := rget reg name
  if c = 1 then rerase reg name
  else if 1 < c then rinsert reg name (c - 1)
  else reg

/-- Errors raised by the registry (`NameError`). -/
inductive RegErr where
  | unknownName
  | duplicateIndexedName
  | fuelOut
  deriving DecidableEq, Repr

/-- `_NameManager.unregister_name`: explicit keys are decremented in place;
otherwise a name in generated format falls back to its basename when that is
a key — and is silently ignored when it is not; a name with no indexed suffix
that is not a key raises `NameError`. -/
def unregisterName (reg : Registry) (name : String) : Except RegErr Registry :=
  if rcontains reg name then .ok (unregOne reg name)
  else if hasIndexedSuffix name then
    let basename := (getNameAttrs name).1
    if rcontains reg basename then .ok (unregOne reg basename)
    else .ok reg
  else .error .unknownName

/-- The `while True` loop of `_NameManager.register_name`, with fuel: read the
count, build `name_<count>`, increment the count, and either return the new
name or unregister the clashing explicit entry and try again. -/
def registerLoop : ℕ → Registry → String → Except RegErr (String × Registry)
  | 0, _, _ => .error .fuelOut
  | fuel + 1, reg, name =>
    let c := rget reg name
    let newName := name ++ "_" ++ natStr c
    let reg1 := rinsert reg name (c + 1)
    if rcontains reg1 newName then
      match unregisterName reg1 newName with
      | .ok reg2 => registerLoop fuel reg2 name
      | .error e => .error e
    else .ok (newName, reg1)

/-- `_NameManager.register_name`: a fresh name is stored with count 1 and
returned unchanged; a name that is already a key enters the generation loop. -/
def registerName (fuel : ℕ) (reg : Registry) (name : String) :
    Except RegErr (String × Registry) :=
  if rcontains reg name then registerLoop fuel reg name
  else .ok (name, rinsert reg name 1)

/-- `_NameManager.register_custom_name`: an indexed name that is an explicit
key raises; an indexed name that is implicitly registered registers its
basename and returns the name unchanged; anything else is registered as is. -/
def registerCustomName (fuel : ℕ) (reg : Registry) (name : String) :
    Except RegErr (String × Registry) :=
  if hasIndexedSuffix name then
    if rcontains reg name then .error .duplicateIndexedName
    else if isImplicitlyRegistered reg name then
      match registerName fuel reg (getNameAttrs name).1 with
      | .ok (_, reg1) => .ok (name, reg1)
      | .error e => .error e
    else registerName fuel reg name
  else registerName fuel reg name

/-! ## The component property store: `_ComponentProperty`

`_ComponentProperty` subclasses `dict`; we embed it as an insertion-ordered
association list plus the bookkeeping attributes (`prop_name`,
`_within_method`, `_key_gen_count`, `is_order_invariant`).  Values are either
component references, Python `None`, or arbitrary other objects (only
parameters accept the last).  Exceptions carry the state at the raise, since
the Python object keeps its mutated state when a method raises. -/

/-- A value stored in a component property: a `BaseComponent` reference,
Python `None`, or any other object (tagged by a number). -/
inductive PVal where
  | compRef (id : ℕ)
  | noneVal
  | other (tag : ℕ)
  deriving DecidableEq, Repr

/-- `_ComponentProperty._ALLOWED_TYPES` membership check
(`isinstance(value, self._ALLOWED_TYPES[self.prop_name])`): inputs and
outputs accept component references and `None`; parameters accept anything. -/
def allowedValue (propName : String) (v : PVal) : Bool :=
  if propName = "inputs" ∨ propName = "outputs" then
    match v with
    | .compRef _ => true
    | .noneVal => true
    | .other _ => false
  else true

/-- Exceptions raised by `_ComponentProperty` methods, by message class.
`scopeViolation` is the `AttributeError` of `_block_outside_modification`,
`immutableSchema` the `AttributeError` of
`_non_erasable_order_dependent_method`. -/
inductive PErr where
  | typeError
  | keyError
  | scopeViolation
  | immutableSchema
  | valueError
  deriving DecidableEq, Repr

/-- The state of a `_ComponentProperty` object. -/
structure CompProp where
  propName : String
  entries : List (String × PVal)
  withinMethod : Bool
  keyGenCount : ℕ
  isOrderInvariant : Bool
  deriving DecidableEq, Repr

/-- Results of a mutating property method: the new state, or an exception
together with the state at the moment of the raise. -/
abbrev PRes (α : Type) := Except (PErr × CompProp) α

/-- Association-list lookup for the property dict. -/
def pfind (entries : List (String × PVal)) (k : String) : Option PVal :=
  (entries.find? (fun p => p.1 = k)).map Prod.snd

/-- Python `dict.__setitem__` on the raw dict (used by `dict.update` and by
the checked `__setitem__` after its checks pass). -/
def praw (entries : List (String × PVal)) (k : String) (v : PVal) :
    List (String × PVal) :=
  match entries with
  | [] => [(k, v)]
  | p :: rest => if p.1 = k then (k, v) :: rest else p :: praw rest k v

/-- Python `dict.__delitem__` on the raw dict; `none` embeds `KeyError`. -/
def pdel (entries : List (String × PVal)) (k : String) :
    Option (List (String × PVal)) :=
  match entries with
  | [] => none
  | p :: rest =>
    if p.1 = k then some rest
    else (pdel rest k).map (p :: ·)

/-- The generated key `{prop_name}_{n}`. -/
def mkKey (propName : String) (n : ℕ) : String := propName ++ "_" ++ natStr n

/-- Python `re.match(prop_name + "_[1-9][0-9]*", key)`: an (unanchored at the
right) prefix match of the generated-key pattern. -/
def matchesGenFormat (propName : String) (key : String) : Bool :=
  let pre := propName ++ "_"
  let rest := key.data.drop pre.data.length
  decide (pre.data = key.data.take pre.data.length) &&
    match rest with
    | c :: _ => isDigitCh c && c ≠ '0'
    | [] => false

/-- `int(key.rsplit('_', maxsplit=1)[1])`: parse the segment after the last
underscore; `none` embeds the uncaught `ValueError` of a non-numeric tail. -/
def keyTailIndex (key : String) : Option ℕ :=
  let segs := key.data.reverse.takeWhile (fun c => c ≠ '_')
  parseNat segs.reverse

/-- `_ComponentProperty._check_value_type`: raise `TypeError` unless the value
is acceptable for this property kind. -/
def checkValueType (st : CompProp) (v : PVal) : PRes Unit :=
  if allowedValue st.propName v then .ok () else .error (.typeError, st)

/-- `_ComponentProperty._check_for_key_generated_format` (order-invariant
collections): the key must prefix-match the generated pattern and its parsed
index must not exceed the generation counter. -/
def checkGenFormat (st : CompProp) (key : String) : PRes Unit :=
  if matchesGenFormat st.propName key then
    match keyTailIndex key with
    | some idx => if st.keyGenCount < idx then .error (.keyError, st) else .ok ()
    | none => .error (.valueError, st)
  else .error (.keyError, st)

/-- `_ComponentProperty._check_if_key_is_in_defined_variables`
(order-dependent collections): the key must already be an entry. -/
def checkDeclaredKey (st : CompProp) (key : String) : PRes Unit :=
  if (pfind st.entries key).isSome then .ok () else .error (.keyError, st)

/-- `_ComponentProperty.__setitem__`: blocked outside a method, then key and
value checks, then the raw dict write.  (The string key-type check of
`_check_key_type` is enforced by the embedding's types.) -/
def setItem (st : CompProp) (key : String) (v : PVal) : PRes CompProp :=
  if st.withinMethod then
    match checkValueType st v with
    | .error e => .error e
    | .ok _ =>
      match (if st.isOrderInvariant then checkGenFormat st key
             else checkDeclaredKey st key) with
      | .error e => .error e
      | .ok _ => .ok { st with entries := praw st.entries key v }
  else .error (.scopeViolation, st)

/-- Python `dict.update` with a list of pairs (raw writes, in order). -/
def prawAll (entries : List (String × PVal)) (kvs : List (String × PVal)) :
    List (String × PVal) :=
  kvs.foldl (fun acc kv => praw acc kv.1 kv.2) entries

/-- `_ComponentProperty._shift_values_to_the_left`: when the deleted key was
not the last generated one, build the dict `{prop_i ↦ old prop_(i+1)}` for
`i` from the deleted index up to the (already decremented) counter — the
comprehension reads every source key before any write, so a missing key
raises before mutating — then re-register the deleted key through
`self[key] = ...`, write the rest through `update` (whose `_update` checks
all target keys are registered), and raw-delete the last key. -/
def shiftLeft (st : CompProp) (keyIdx : ℕ) : PRes CompProp :=
  if keyIdx < st.keyGenCount then
    let reads := (List.range (st.keyGenCount - keyIdx)).map (fun j =>
      (mkKey st.propName (keyIdx + j),
       pfind st.entries (mkKey st.propName (keyIdx + j + 1))))
    if reads.all (fun kv => kv.2.isSome) then
      let pairs := reads.map (fun kv => (kv.1, kv.2.getD .noneVal))
      match pairs with
      | [] => .ok st
      | (k0, v0) :: _ =>
        match setItem st k0 v0 with
        | .error e => .error e
        | .ok st1 =>
          if pairs.all (fun kv => (pfind st1.entries kv.1).isSome) then
            let upd := prawAll st1.entries pairs
            match pdel upd (mkKey st.propName st.keyGenCount) with
            | some ents => .ok { st1 with entries := ents }
            | none => .error (.keyError, { st1 with entries := upd })
          else .error (.keyError, st1)
    else .error (.keyError, st)
  else .ok st

/-- `_ComponentProperty.__delitem__`: blocked outside a method and on
order-dependent collections; on a generated-format key the counter is
decremented first, then the raw delete (whose `KeyError` leaves the counter
already decremented), then the left shift. -/
def delItem (st : CompProp) (key : String) : PRes CompProp :=
  if st.withinMethod then
    if st.isOrderInvariant then
      if matchesGenFormat st.propName key then
        let st1 := { st with keyGenCount := st.keyGenCount - 1 }
        match pdel st1.entries key with
        | some ents =>
          let st2 := { st1 with entries := ents }
          match keyTailIndex key with
          | some idx => shiftLeft st2 idx
          | none => .error (.valueError, st2)
        | none => .error (.keyError, st1)
      else .error (.keyError, st)
    else .error (.immutableSchema, st)
  else .error (.scopeViolation, st)

/-- `_ComponentProperty.add` for order-invariant collections: engage the
guard, insert each positional value under the next generated key (the counter
advances only after a successful insert), and release the guard.  A failed
insert propagates with the guard still engaged and the earlier values kept. -/
def addValsLoop (st : CompProp) : List PVal → PRes CompProp
  | [] => .ok st
  | v :: rest =>
    match setItem st (mkKey st.propName st.keyGenCount) v with
    | .error e => .error e
    | .ok st1 => addValsLoop { st1 with keyGenCount := st1.keyGenCount + 1 } rest

/-- `_ComponentProperty.add` for order-dependent collections: engage the
guard and insert each named value through `__setitem__`. -/
def addKwargsLoop (st : CompProp) : List (String × PVal) → PRes CompProp
  | [] => .ok st
  | kv :: rest =>
    match setItem st kv.1 kv.2 with
    | .error e => .error e
    | .ok st1 => addKwargsLoop st1 rest

/-- `_ComponentProperty.add`. -/
def addProp (st : CompProp) (args : List PVal) (kwargs : List (String × PVal)) :
    PRes CompProp :=
  let st0 := { st with withinMethod := true }
  let res := if st0.isOrderInvariant then addValsLoop st0 args
             else addKwargsLoop st0 kwargs
  match res with
  | .ok st1 => .ok { st1 with withinMethod := false }
  | .error e => .error e

/-- `_ComponentProperty.pop`: engage the guard, read the value (a plain dict
read, so a missing key raises with the guard still engaged), delete through
`__delitem__`, release the guard and return the value. -/
def popProp (st : CompProp) (key : String) : PRes (PVal × CompProp) :=
  let st0 := { st with withinMethod := true }
  match pfind st0.entries key with
  | none => .error (.keyError, st0)
  | some v =>
    match delItem st0 key with
    | .error e => .error e
    | .ok st1 => .ok (v, { st1 with withinMethod := false })

/-- `_ComponentProperty.popitem`: pop the last generated key.  The
order-dependence guard fires before the guard flag is engaged. -/
def popItemProp (st : CompProp) : PRes ((String × PVal) × CompProp) :=
  if st.isOrderInvariant then
    let st0 := { st with withinMethod := true }
    let key := mkKey st0.propName (st0.keyGenCount - 1)
    match pfind st0.entries key with
    | none => .error (.keyError, st0)
    | some v =>
      match delItem st0 key with
      | .error e => .error e
      | .ok st1 => .ok ((key, v), { st1 with withinMethod := false })
  else .error (.immutableSchema, st)

/-- One step of `_ComponentProperty.remove`'s loop over a snapshot of the
items: delete a matching entry (order-invariant) or blank it (ordered). -/
def removeStep (st : CompProp) (value : PVal) (kv : String × PVal) :
    PRes CompProp :=
  if kv.2 = value then
    if st.isOrderInvariant then delItem st kv.1
    else setItem st kv.1 .noneVal
  else .ok st

/-- `_ComponentProperty.remove`: engage the guard and walk a copy of the
items, deleting (with compaction) or blanking every entry equal to the value.
With duplicated values the copy can mention keys that compaction has already
re-numbered, so a later step can raise `KeyError` mid-walk. -/
def removeProp (st : CompProp) (value : PVal) : PRes CompProp :=
  let st0 := { st with withinMethod := true }
  let snapshot := st0.entries
  let res := snapshot.foldl (fun (acc : PRes CompProp) kv =>
    match acc with
    | .error e => .error e
    | .ok s => removeStep s value kv) (Except.ok st0)
  match res with
  | .ok st1 => .ok { st1 with withinMethod := false }
  | .error e => .error e

/-- `_ComponentProperty._update`: if every key of the argument is already an
entry, write them all through the raw `dict.update`; otherwise `KeyError`
with nothing written.  No value-type check is performed on this path. -/
def updateRaw (st : CompProp) (kvs : List (String × PVal)) : PRes CompProp :=
  if kvs.all (fun kv => (pfind st.entries kv.1).isSome) then
    .ok { st with entries := prawAll st.entries kvs }
  else .error (.keyError, st)

/-- `_ComponentProperty.update`: `_update` on the optional dict argument,
then `_update` on the keyword arguments.  The guard flag is not touched. -/
def updateProp (st : CompProp) (updDict : Option (List (String × PVal)))
    (kwargs : List (String × PVal)) : PRes CompProp :=
  match updDict with
  | some kvs =>
    match updateRaw st kvs with
    | .error e => .error e
    | .ok st1 => updateRaw st1 kwargs
  | none => updateRaw st kwargs

/-- `_ComponentProperty.clear`: order-invariant only; raw clear and counter
reset (no guard flag involved). -/
def clearProp (st : CompProp) : PRes CompProp :=
  if st.isOrderInvariant then
    .ok { st with entries := [], keyGenCount := 1 }
  else .error (.immutableSchema, st)

/-- `_ComponentProperty.sort`: the values in ascending generated-key order,
`prop_1 … prop_(count-1)`; a missing key is a raised `KeyError`. -/
def sortProp (st : CompProp) : Except (PErr × CompProp) (List PVal) :=
  if st.isOrderInvariant then
    let reads := (List.range (st.keyGenCount - 1)).map (fun j =>
      pfind st.entries (mkKey st.propName (j + 1)))
    if reads.all Option.isSome then .ok (reads.map (fun o => o.getD .noneVal))
    else .error (.keyError, st)
  else .error (.immutableSchema, st)

/-- `_ComponentProperty.init` / `__init__` for an order-invariant collection
(`prop_info is None`): empty dict, counter 1, guard down. -/
def mkInvariantProp (propName : String) : CompProp :=
  { propName := propName, entries := [], withinMethod := false,
    keyGenCount := 1, isOrderInvariant := true }

/-- `_ComponentProperty.init` / `__init__` for an order-dependent collection:
one `None` entry per declared key, no counter. -/
def mkDependentProp (propName : String) (allKeys : List String) : CompProp :=
  { propName := propName,
    entries := allKeys.foldl (fun acc k => praw acc k .noneVal) [],
    withinMethod := false, keyGenCount := 0, isOrderInvariant := false }

/-! ## The execution-order organizer: `BaseOrganizer`

Components are numbered `0, …, n-1`.  The organizer state carries
`sys_info[comp]['inputs']` (one Python list per component, mutated in place
by severance), the trail, the ordered list built by `map_component` (the
sequential runner's organizer appends), and each component's `is_not_mapped`
flag.  `direct_feedthrough` is a per-class constant, passed separately.

`build_system_order` recurses without bound in Python; the embedding spends
one unit of fuel per recursive call *and* per loop iteration, and the `for`
loop over `comp_inputs` is embedded by index into the live list, which is
exactly CPython's list-iterator protocol (severance can shorten the list
being iterated, skipping the element after the removal point). -/

/-- The mutable state of a `BaseOrganizer` during `build_system_order`. -/
structure OrgState where
  sysInputs : List (List ℕ)
  trail : List ℕ
  ordered : List ℕ
  unmapped : List Bool
  deriving DecidableEq, Repr

/-- Results of the organizer: success, the `AlgebraicLoopError` `Exception`,
the `ValueError` of `list.remove` on a missing element, or spent fuel. -/
inductive OrgRes where
  | ok (st : OrgState)
  | algebraicLoop
  | removeMissing
  | fuelOut
  deriving DecidableEq, Repr

/-- `sys_info[comp]['inputs']`. -/
def inputsOf (st : OrgState) (comp : ℕ) : List ℕ := st.sysInputs.getD comp []

/-- Replace `sys_info[comp]['inputs']`. -/
def setInputs (st : OrgState) (comp : ℕ) (l : List ℕ) : OrgState :=
  { st with sysInputs := st.sysInputs.set comp l }

/-- `comp.is_not_mapped`. -/
def isUnmapped (st : OrgState) (comp : ℕ) : Bool := st.unmapped.getD comp false

/-- `BaseOrganizer._get_component_input_in_loop`: the next element of the
loop segment, wrapping to the first element past the end. -/
def loopInputAt (sysLoop : List ℕ) (idx : ℕ) : ℕ :=
  match sysLoop.get? (idx + 1) with
  | some c => c
  | none => sysLoop.headD 0

/-- The scan of `BaseOrganizer._get_loop_components`: the first pair
`(loop_comp, loop_input_comp)` along the loop segment whose input member is
not direct-feedthrough; `none` is the raised algebraic-loop `Exception`. -/
def findSeverPair (df : List Bool) (sysLoop : List ℕ) : Option (ℕ × ℕ) :=
  (List.range sysLoop.length).findSome? (fun j =>
    let lic := loopInputAt sysLoop j
    if df.getD lic true then none else some (sysLoop.getD j 0, lic))

/-- `BaseOrganizer._sever_system_loop`: locate the severance pair on the
trail segment starting at the repeated component, remove that input
dependency from the working data (`list.remove` raises if it is absent), and
clear the whole trail. -/
def severSystemLoop (df : List Bool) (st : OrgState) (comp : ℕ) : OrgRes :=
  let sysLoop := st.trail.drop (st.trail.indexOf comp)
  match findSeverPair df sysLoop with
  | none => .algebraicLoop
  | some (loopComp, loopInputComp) =>
    if loopInputComp ∈ inputsOf st loopComp then
      .ok { (setInputs st loopComp ((inputsOf st loopComp).erase loopInputComp))
            with trail := [] }
    else .removeMissing

mutual

/-- `BaseOrganizer.build_system_order`: push the component on the trail, walk
its live input list, then append it to the order, mark it mapped and drop it
from the trail if it is still unmapped. -/
def buildSystemOrder (df : List Bool) : ℕ → ℕ → OrgState → OrgRes
  | 0, _, _ => .fuelOut
  | fuel + 1, comp, st =>
    match procInputs df fuel comp 0 { st with trail := st.trail ++ [comp] } with
    | .ok st1 =>
      if isUnmapped st1 comp then
        .ok { st1 with
              ordered := st1.ordered ++ [comp],
              unmapped := st1.unmapped.set comp false,
              trail := if comp ∈ st1.trail then st1.trail.erase comp
                       else st1.trail }
      else .ok st1
    | e => e

/-- The `for input_comp in comp_inputs` loop of `build_system_order`,
iterating by index into the live list: severance on a trail hit, then
recursion into a still-unmapped input. -/
def procInputs (df : List Bool) : ℕ → ℕ → ℕ → OrgState → OrgRes
  | 0, _, _, _ => .fuelOut
  | fuel + 1, comp, i, st =>
    match (inputsOf st comp).get? i with
    | none => .ok st
    | some inputComp =>
      match (if inputComp ∈ st.trail then severSystemLoop df st inputComp
             else .ok st) with
      | .ok st1 =>
        match (if isUnmapped st1 inputComp
               then buildSystemOrder df fuel inputComp st1
               else .ok st1) with
        | .ok st2 => procInputs df fuel comp (i + 1) st2
        | e => e
      | e => e

end

/-- `BaseOrganizer.define_sys_info`: the working input lists are fresh copies
of each component's non-empty input slots. -/
def initOrgState (inputsData : List (List ℕ)) : OrgState :=
  { sysInputs := inputsData, trail := [], ordered := [],
    unmapped := inputsData.map (fun _ => true) }

/-- Modelled from the spec: `BaseSystem.organize` (the diagram method that
drives the organizer) is not part of the sources; per the spec's §4.4 the
build step runs the Order Resolver over all contained components, and per its
data model every component reachable in the build appears exactly once, so
the driver visits each component in order and enters `build_system_order`
only for components that are still unmapped. -/
def organizeAll (df : List Bool) (fuel : ℕ) : List ℕ → OrgState → OrgRes
  | [], st => .ok st
  | comp :: rest, st =>
    if isUnmapped st comp then
      match buildSystemOrder df fuel comp st with
      | .ok st1 => organizeAll df fuel rest st1
      | e => e
    else organizeAll df fuel rest st

/-- Run a whole diagram: components `0, …, n-1` with the given working input
lists and feedthrough flags. -/
def runDiagram (df : List Bool) (inputsData : List (List ℕ)) (fuel : ℕ) :
    OrgRes :=
  organizeAll df fuel (List.range inputsData.length) (initOrgState inputsData)

/-! ## Derived notions used in the statements about the organizer -/

/-- Total number of working input-dependency edges (with multiplicity). -/
def totalEdges (st : OrgState) : ℕ :=
  (st.sysInputs.map List.length).sum

/-- A cycle of the input-dependency data: a nonempty component list in which
every member's successor (cyclically) is one of its input dependencies. -/
def CycleIn (inputsData : List (List ℕ)) (l : List ℕ) : Prop :=
  l ≠ [] ∧ ∀ j, j < l.length →
    l.getD ((j + 1) % l.length) 0 ∈ inputsData.getD (l.getD j 0) []

/-- All members of the list are direct-feedthrough components. -/
def AllDf (df : List Bool) (l : List ℕ) : Prop :=
  ∀ m ∈ l, df.getD m false = true

/-- Reachability along the working edges through components that are neither
mapped nor on the trail: the paths along which a `build_system_order` call is
guaranteed to traverse (severance re-entries reach exactly these). -/
inductive ReachUT (st : OrgState) : ℕ → ℕ → Prop where
  | refl (x : ℕ) (hu : isUnmapped st x = true) (ht : x ∉ st.trail) :
      ReachUT st x x
  | tail (x y z : ℕ) (h : ReachUT st x y) (hz : z ∈ inputsOf st y)
      (hu : isUnmapped st z = true) (ht : z ∉ st.trail) : ReachUT st x z

/-- Well-formedness of an organizer state for an `n`-component diagram. -/
def WfSt (n : ℕ) (st : OrgState) : Prop :=
  st.sysInputs.length = n ∧ st.unmapped.length = n ∧
  (∀ l ∈ st.sysInputs, ∀ x ∈ l, x < n) ∧
  (∀ t ∈ st.trail, t < n) ∧ (∀ c ∈ st.ordered, c < n)

/-- The trail invariant: no duplicates, every member unmapped, and every
member's successor on the trail is one of its current input dependencies. -/
def TrailInv (st : OrgState) : Prop :=
  st.trail.Nodup ∧ (∀ t ∈ st.trail, isUnmapped st t = true) ∧
  (∀ j, j + 1 < st.trail.length →
    st.trail.getD (j + 1) 0 ∈ inputsOf st (st.trail.getD j 0))

/-- The ordered list is exactly the mapped components, in mapping order. -/
def OrderedInv (n : ℕ) (st : OrgState) : Prop :=
  st.ordered.Nodup ∧ ∀ c, c < n → (c ∈ st.ordered ↔ isUnmapped st c = false)

/-- Every mapped component's current (non-severed) input dependencies are
mapped and appear before it in the ordered list. -/
def DoneInv (n : ℕ) (st : OrgState) : Prop :=
  ∀ m, m < n → isUnmapped st m = false → ∀ v ∈ inputsOf st m,
    isUnmapped st v = false ∧ st.ordered.indexOf v < st.ordered.indexOf m

/-- The first `i` entries of the component's working input list are mapped
(the loop of `build_system_order` has dealt with the iterator's past). -/
def PrefixMapped (st : OrgState) (comp i : ℕ) : Prop :=
  ∀ x ∈ (inputsOf st comp).take i, isUnmapped st x = false

/-- Every entry of the component's working input list is mapped. -/
def AllInputsMapped (st : OrgState) (comp : ℕ) : Prop :=
  ∀ x ∈ inputsOf st comp, isUnmapped st x = false

/-! ## Operation sequences on a property collection

The compaction claims quantify over finite sequences of `add`/`delete`
operations; the invariant claims over the other mutators as well. -/

/-- One public operation on a property collection. -/
inductive COp where
  | add (v : PVal)
  | del (key : String)
  | setOp (key : String) (v : PVal)
  | removeOp (v : PVal)
  deriving DecidableEq, Repr

/-- Apply one operation: `add` with one positional value, `delete` through
`pop` (the public deletion entry point), `set` through the guarded
`__setitem__`, `remove` through `remove`. -/
def applyOp (st : CompProp) : COp → PRes CompProp
  | .add v => addProp st [v] []
  | .del k =>
    match popProp st k with
    | .ok (_, st1) => .ok st1
    | .error e => .error e
  | .setOp k v => setItem st k v
  | .removeOp v => removeProp st v

/-- Apply a sequence of operations, stopping at the first raised exception. -/
def applyOps (st : CompProp) : List COp → PRes CompProp
  | [] => .ok st
  | op :: rest =>
    match applyOp st op with
    | .ok st1 => applyOps st1 rest
    | .error e => .error e

/-- The generated-keys invariant of an unordered collection: the entries are
exactly the generated keys `1 … count` (as a set), the generation counter is
one past the number of entries, and the guard is down. -/
def Compact (st : CompProp) : Prop :=
  st.isOrderInvariant = true ∧ st.withinMethod = false ∧
  st.keyGenCount = st.entries.length + 1 ∧
  (st.entries.map Prod.fst).Nodup ∧
  ∀ k, (pfind st.entries k).isSome ↔
    ∃ j, 1 ≤ j ∧ j ≤ st.entries.length ∧ k = mkKey st.propName j

/-- Every stored value satisfies the collection's kind constraint. -/
def TypeSafe (st : CompProp) : Prop :=
  ∀ kv ∈ st.entries, allowedValue st.propName kv.2 = true

/-! ## Registry sequences (for the round-trip property) -/

/-- Register each name of the sequence in order (the per-call fuel
`reg.length + 1` always suffices, see `registerLoop_fuel_enough`). -/
def regAll : List String → Registry → Except RegErr Registry
  | [], reg => .ok reg
  | nm :: rest, reg =>
    match registerName (reg.length + 1) reg nm with
    | .ok (_, reg1) => regAll rest reg1
    | .error e => .error e

/-- Unregister each name of the sequence in order. -/
def unregAll : List String → Registry → Except RegErr Registry
  | [], reg => .ok reg
  | nm :: rest, reg =>
    match unregisterName reg nm with
    | .ok reg1 => unregAll rest reg1
    | .error e => .error e

/-- The generated name a `register_name` call would produce first. -/
def genOf (reg : Registry) (nm : String) : String :=
  nm ++ "_" ++ natStr (rget reg nm)

/-- No `register_name` call of the sequence hits the collision branch (its
first generated name is not an explicit key). -/
def NoCollisionSeq : List String → Registry → Prop
  | [], _ => True
  | nm :: rest, reg =>
    (rcontains reg nm = true → rcontains reg (genOf reg nm) = false) ∧
    NoCollisionSeq rest
      (if rcontains reg nm then rinsert reg nm (rget reg nm + 1)
       else rinsert reg nm 1)

/-- Well-formed registry: unique keys, every count at least 1 (the data
model's positive registration counts). -/
def RegWf (reg : Registry) : Prop :=
  (reg.map Prod.fst).Nodup ∧ ∀ p ∈ reg, 1 ≤ p.2

/-- The count a registry state stores for a key, 0 when absent. -/
def cnt (reg : Registry) (name : String) : ℕ := rget reg name

/-- Occurrences of a name in a sequence. -/
def occ (names : List String) (nm : String) : ℕ := names.count nm

/-- Count of the working edge `c → x` (multiplicity of `x` in the working
input list of `c`). -/
def edgeCnt (st : OrgState) (c x : ℕ) : ℕ := (inputsOf st c).count x

/-- A cycle of the *current* working edges of an organizer state. -/
def CycleSt (st : OrgState) (l : List ℕ) : Prop :=
  l ≠ [] ∧ ∀ j, j < l.length →
    l.getD ((j + 1) % l.length) 0 ∈ inputsOf st (l.getD j 0)

/-- Number of components that are unmapped and off the trail (the middle
coordinate of the organizer's termination measure). -/
def utCount (n : ℕ) (st : OrgState) : ℕ :=
  (List.range n).countP (fun c => isUnmapped st c && !(st.trail.contains c))

/-- The postcondition package of a successful organizer run from `st` to
`st'` (one `build_system_order` call or one suffix of its input loop): the
four state invariants at `st\'`, monotonicity of the mapped set and of the
edge multiset, preservation of direct-feedthrough edges, the trail either
untouched or cleared by an edge-removing severance, severed-edge endpoints
mapped or on the entry trail, every component whose working input list
changed mapped by the end, and the ordered list extended by appending. -/
structure OrgCore (df : List Bool) (n : ℕ) (st st' : OrgState) : Prop where
  wf : WfSt n st'
  tinv : TrailInv st'
  oinv : OrderedInv n st'
  dinv : DoneInv n st'
  mono : ∀ c, isUnmapped st c = false → isUnmapped st' c = false
  emono : ∀ c x, edgeCnt st' c x ≤ edgeCnt st c x
  dfpres : ∀ c x, df.getD x true = true → edgeCnt st' c x = edgeCnt st c x
  tshape : st'.trail = st.trail ∨ (st'.trail = [] ∧ totalEdges st' < totalEdges st)
  seve : ∀ c x, edgeCnt st' c x < edgeCnt st c x →
    (isUnmapped st' c = false ∨ c ∈ st.trail) ∧
    (isUnmapped st' x = false ∨ x ∈ st.trail)
  oext : ∃ app, st'.ordered = st.ordered ++ app
  slen : st'.sysInputs.length = st.sysInputs.length
  lmono : ∀ c, (inputsOf st' c).length ≤ (inputsOf st c).length

/-- `OrgCore` plus: every component whose working input list changed over the
run is mapped by its end. -/
structure OrgPost (df : List Bool) (n : ℕ) (st st' : OrgState)
    extends OrgCore df n st st' : Prop where
  chg : ∀ c, inputsOf st' c ≠ inputsOf st c → isUnmapped st' c = false

/-- Scalar termination measure of a `build_system_order` call: the base-
`E0 + 1` encoding of the lexicographic tuple (working edges, unmapped
off-trail components, phase 0, 0). -/
def measB (n E0 : ℕ) (st : OrgState) : ℕ :=
  (totalEdges st * (n + 1) + utCount n st) * 2 * (E0 + 1)

/-- Scalar termination measure of an input-loop call: the same encoding with
phase 1 and the remaining iteration count as last digit. -/
def measP (n E0 : ℕ) (st : OrgState) (comp i : ℕ) : ℕ :=
  ((totalEdges st * (n + 1) + utCount n st) * 2 + 1) * (E0 + 1) +
    ((inputsOf st comp).length - i)


/-! # Theorems

## Toolkit: decimal numerals -/

theorem digitsVal_append (xs : List Char) (c : Char) :
    digitsVal (xs ++ [c]) = 10 * digitsVal xs + digitVal c := by
  simp [digitsVal, List.foldl_append]

theorem digitVal_digitChar (d : ℕ) (hd : d < 10) :
    digitVal (digitChar d) = d := by
  interval_cases d <;> rfl

theorem isDigitCh_digitChar (d : ℕ) (hd : d < 10) :
    isDigitCh (digitChar d) = true := by
  interval_cases d <;> rfl

theorem decChars_val : ∀ f n, n ≤ f → digitsVal (decChars f n) = n := by
  intro f
  induction f with
  | zero => intro n hn; interval_cases n; rfl
  | succ f ih =>
    intro n hn
    by_cases h0 : n = 0
    · subst h0; simp [decChars, digitsVal]
    · have hdiv : n / 10 ≤ f := by
        have : n / 10 < n := Nat.div_lt_self (by omega) (by omega)
        omega
      have hmod : n % 10 < 10 := Nat.mod_lt _ (by omega)
      simp only [decChars, if_neg h0]
      rw [digitsVal_append, ih _ hdiv, digitVal_digitChar _ hmod]
      omega

theorem decChars_digits : ∀ f n, ∀ c ∈ decChars f n, isDigitCh c = true := by
  intro f
  induction f with
  | zero => intro n c hc; simp [decChars] at hc
  | succ f ih =>
    intro n c hc
    by_cases h0 : n = 0
    · subst h0; simp [decChars] at hc
    · simp only [decChars, if_neg h0, List.mem_append, List.mem_singleton] at hc
      rcases hc with hc | hc
      · exact ih _ _ hc
      · subst hc; exact isDigitCh_digitChar _ (Nat.mod_lt _ (by omega))

theorem natStr_val (n : ℕ) : digitsVal (natStr n).data = n := by
  by_cases h0 : n = 0
  · subst h0; rfl
  · simp only [natStr, if_neg h0]
    exact decChars_val n n le_rfl

theorem natStr_digits (n : ℕ) : ∀ c ∈ (natStr n).data, isDigitCh c = true := by
  by_cases h0 : n = 0
  · subst h0; intro c hc; simp [natStr] at hc; subst hc; rfl
  · simp only [natStr, if_neg h0]
    exact decChars_digits n n

theorem isDigitCh_ne_underscore (c : Char) (h : isDigitCh c = true) :
    c ≠ '_' := by
  intro hc; subst hc; simp [isDigitCh] at h

theorem natStr_injective : Function.Injective natStr := by
  intro m n h
  have := natStr_val m
  rw [h, natStr_val] at this
  omega

theorem decChars_head_nonzero : ∀ f n, 1 ≤ n → n ≤ f →
    ∃ c cs, decChars f n = c :: cs ∧ isDigitCh c = true ∧ c ≠ '0' := by
  intro f
  induction f with
  | zero => intro n h1 h2; omega
  | succ f ih =>
    intro n h1 h2
    simp only [decChars, if_neg (by omega : ¬ n = 0)]
    by_cases hsmall : n < 10
    · have hdiv : n / 10 = 0 := Nat.div_eq_of_lt hsmall
      rw [hdiv]
      have hz : decChars f 0 = [] := by cases f <;> simp [decChars]
      rw [hz]
      refine ⟨digitChar (n % 10), [], by simp, isDigitCh_digitChar _ (by omega), ?_⟩
      have hmod : n % 10 = n := Nat.mod_eq_of_lt hsmall
      rw [hmod]
      interval_cases n <;> decide
    · have hd1 : 1 ≤ n / 10 := by
        have := Nat.div_le_div_right (c := 10) (by omega : 10 ≤ n)
        simpa using this
      have hd2 : n / 10 ≤ f := by
        have : n / 10 < n := Nat.div_lt_self (by omega) (by omega)
        omega
      obtain ⟨c, cs, hdc, hdig, hne⟩ := ih (n / 10) hd1 hd2
      exact ⟨c, cs ++ [digitChar (n % 10)], by rw [hdc]; simp, hdig, hne⟩

theorem natStr_head (n : ℕ) (h : 1 ≤ n) :
    ∃ c cs, (natStr n).data = c :: cs ∧ isDigitCh c = true ∧ c ≠ '0' := by
  simp only [natStr, if_neg (by omega : ¬ n = 0)]
  exact decChars_head_nonzero n n h le_rfl

theorem natStr_ne_nil (n : ℕ) : (natStr n).data ≠ [] := by
  by_cases h0 : n = 0
  · subst h0; simp [natStr]
  · obtain ⟨c, cs, hc, _, _⟩ := natStr_head n (by omega)
    simp [hc]

theorem takeWhile_all_append (p : Char → Bool) (l1 l2 : List Char) (d : Char)
    (h1 : ∀ c ∈ l1, p c = true) (hd : p d = false) :
    (l1 ++ d :: l2).takeWhile p = l1 := by
  induction l1 with
  | nil => simp [List.takeWhile, hd]
  | cons a l ih =>
    have ha : p a = true := h1 a (by simp)
    simp only [List.cons_append, List.takeWhile, ha]
    simpa using ih (fun c hc => h1 c (by simp [hc]))

theorem mkKey_data (p : String) (n : ℕ) :
    (mkKey p n).data = p.data ++ '_' :: (natStr n).data := by
  simp [mkKey, String.data_append]

theorem keyTailIndex_mkKey (p : String) (n : ℕ) :
    keyTailIndex (mkKey p n) = some n := by
  unfold keyTailIndex
  rw [mkKey_data]
  have hrev : (p.data ++ '_' :: (natStr n).data).reverse
      = (natStr n).data.reverse ++ '_' :: p.data.reverse := by
    simp
  rw [hrev]
  rw [takeWhile_all_append _ _ _ _
      (fun c hc => by
        have hdig : isDigitCh c = true := natStr_digits n c (by
          exact List.mem_reverse.mp hc)
        have := isDigitCh_ne_underscore c hdig
        simpa using this)
      (by simp)]
  show parseNat (natStr n).data.reverse.reverse = some n
  rw [List.reverse_reverse]
  unfold parseNat
  rw [if_pos]
  · rw [natStr_val]
  · refine (Bool.and_eq_true _ _).mpr ⟨?_, ?_⟩
    · simpa using natStr_ne_nil n
    · exact List.all_eq_true.mpr (natStr_digits n)

theorem mkKey_inj (p : String) (m n : ℕ) (h : mkKey p m = mkKey p n) : m = n := by
  have hm := keyTailIndex_mkKey p m
  rw [h, keyTailIndex_mkKey] at hm
  exact (Option.some_inj.mp hm).symm

theorem matchesGenFormat_mkKey (p : String) (n : ℕ) (h : 1 ≤ n) :
    matchesGenFormat p (mkKey p n) = true := by
  unfold matchesGenFormat
  have hdata : (mkKey p n).data = (p ++ "_").data ++ (natStr n).data := by
    rw [mkKey_data]; simp [String.data_append]
  obtain ⟨c, cs, hc, hdig, hne⟩ := natStr_head n h
  rw [hdata, hc]
  show (decide ((p ++ "_").data = List.take (p ++ "_").data.length ((p ++ "_").data ++ c :: cs)) &&
      match List.drop (p ++ "_").data.length ((p ++ "_").data ++ c :: cs) with
      | c :: _ => isDigitCh c && decide (c ≠ '0')
      | [] => false) = true
  rw [List.take_left, List.drop_left]
  simp [hdig, hne]

/-! ## Toolkit: the embedded property dict -/

theorem pfind_nil (k : String) : pfind [] k = none := rfl

theorem pfind_cons (p : String × PVal) (rest : List (String × PVal)) (k : String) :
    pfind (p :: rest) k = if p.1 = k then some p.2 else pfind rest k := by
  by_cases h : p.1 = k
  · simp [pfind, List.find?_cons_of_pos, h]
  · simp [pfind, List.find?_cons_of_neg, h]

theorem pfind_praw_self (l : List (String × PVal)) (k : String) (v : PVal) :
    pfind (praw l k v) k = some v := by
  induction l with
  | nil => simp [praw, pfind_cons]
  | cons p rest ih =>
    by_cases h : p.1 = k
    · simp [praw, h, pfind_cons]
    · simp [praw, h, pfind_cons, ih]

theorem pfind_praw_ne (l : List (String × PVal)) (k k2 : String) (v : PVal)
    (h : k2 ≠ k) : pfind (praw l k v) k2 = pfind l k2 := by
  induction l with
  | nil => simp [praw, pfind_cons, pfind_nil, Ne.symm h]
  | cons p rest ih =>
    by_cases hp : p.1 = k
    · subst hp
      simp [praw, pfind_cons, Ne.symm h, h]
    · simp [praw, hp, pfind_cons, ih]

theorem praw_keys (l : List (String × PVal)) (k : String) (v : PVal) :
    (praw l k v).map Prod.fst =
      if (pfind l k).isSome then l.map Prod.fst else l.map Prod.fst ++ [k] := by
  induction l with
  | nil => simp [praw, pfind_nil]
  | cons p rest ih =>
    by_cases h : p.1 = k
    · simp [praw, h, pfind_cons]
    · simp only [praw, if_neg h, List.map_cons, ih, pfind_cons]
      by_cases h2 : (pfind rest k).isSome <;> simp [h, h2]

theorem praw_append_of_absent (l : List (String × PVal)) (k : String) (v : PVal)
    (h : pfind l k = none) : praw l k v = l ++ [(k, v)] := by
  induction l with
  | nil => simp [praw]
  | cons p rest ih =>
    rw [pfind_cons] at h
    by_cases hp : p.1 = k
    · simp [hp] at h
    · simp only [if_neg hp] at h
      simp [praw, hp, ih h]

theorem pdel_none (l : List (String × PVal)) (k : String)
    (h : pfind l k = none) : pdel l k = none := by
  induction l with
  | nil => rfl
  | cons p rest ih =>
    rw [pfind_cons] at h
    by_cases hp : p.1 = k
    · simp [hp] at h
    · simp only [if_neg hp] at h
      simp [pdel, hp, ih h]

theorem pdel_some (l : List (String × PVal)) (k : String) (v : PVal)
    (h : pfind l k = some v) : ∃ l', pdel l k = some l' := by
  induction l with
  | nil => simp [pfind_nil] at h
  | cons p rest ih =>
    rw [pfind_cons] at h
    by_cases hp : p.1 = k
    · exact ⟨rest, by simp [pdel, hp]⟩
    · simp only [if_neg hp] at h
      obtain ⟨l', hl'⟩ := ih h
      exact ⟨p :: l', by simp [pdel, hp, hl']⟩

theorem pdel_keys (l : List (String × PVal)) (k : String) (l' : List (String × PVal))
    (h : pdel l k = some l') :
    l'.map Prod.fst = (l.map Prod.fst).erase k := by
  induction l generalizing l' with
  | nil => simp [pdel] at h
  | cons p rest ih =>
    by_cases hp : p.1 = k
    · simp only [pdel, if_pos hp] at h
      cases h
      simp [List.erase_cons, hp]
    · simp only [pdel, if_neg hp] at h
      cases hres : pdel rest k with
      | none => simp [hres] at h
      | some r =>
        simp only [hres, Option.map_some'] at h
        cases h
        simp [List.erase_cons, hp, ih r hres]

theorem pfind_not_mem (l : List (String × PVal)) (k : String)
    (h : k ∉ l.map Prod.fst) : pfind l k = none := by
  induction l with
  | nil => rfl
  | cons p rest ih =>
    simp only [List.map_cons, List.mem_cons, not_or] at h
    rw [pfind_cons, if_neg (fun hc => h.1 hc.symm)]
    exact ih h.2

theorem pfind_pdel_self (l : List (String × PVal)) (k : String)
    (l' : List (String × PVal)) (hnd : (l.map Prod.fst).Nodup)
    (h : pdel l k = some l') : pfind l' k = none := by
  induction l generalizing l' with
  | nil => simp [pdel] at h
  | cons p rest ih =>
    simp only [List.map_cons, List.nodup_cons] at hnd
    by_cases hp : p.1 = k
    · simp only [pdel, if_pos hp] at h
      obtain rfl : rest = l' := by injection h
      subst hp
      exact pfind_not_mem _ _ hnd.1
    · simp only [pdel, if_neg hp] at h
      cases hres : pdel rest k with
      | none => simp [hres] at h
      | some r =>
        simp only [hres, Option.map_some'] at h
        obtain rfl : p :: r = l' := by injection h
        rw [pfind_cons, if_neg hp]
        exact ih r hnd.2 hres

theorem pfind_pdel_ne (l : List (String × PVal)) (k k2 : String)
    (l' : List (String × PVal)) (h : pdel l k = some l') (hne : k2 ≠ k) :
    pfind l' k2 = pfind l k2 := by
  induction l generalizing l' with
  | nil => simp [pdel] at h
  | cons p rest ih =>
    by_cases hp : p.1 = k
    · simp only [pdel, if_pos hp] at h
      cases h
      rw [pfind_cons, if_neg (by rw [hp]; exact Ne.symm hne)]
    · simp only [pdel, if_neg hp] at h
      cases hres : pdel rest k with
      | none => simp [hres] at h
      | some r =>
        simp only [hres, Option.map_some'] at h
        obtain rfl : p :: r = l' := by injection h
        rw [pfind_cons, pfind_cons, ih r hres]

/-! ## The reentrancy guard (claims about `_block_outside_modification`) -/

theorem checkValueType_err (st : CompProp) (v : PVal) (e : PErr) (stE : CompProp)
    (h : checkValueType st v = .error (e, stE)) : e = .typeError := by
  unfold checkValueType at h
  split at h
  · cases h
  · injection h with h'
    cases h'
    rfl

theorem checkGenFormat_err (st : CompProp) (k : String) (e : PErr) (stE : CompProp)
    (h : checkGenFormat st k = .error (e, stE)) :
    e = .keyError ∨ e = .valueError := by
  unfold checkGenFormat at h
  repeat' split at h
  all_goals cases h <;> simp

theorem checkDeclaredKey_err (st : CompProp) (k : String) (e : PErr) (stE : CompProp)
    (h : checkDeclaredKey st k = .error (e, stE)) : e = .keyError := by
  unfold checkDeclaredKey at h
  split at h
  · cases h
  · injection h with h'
    cases h'
    rfl

theorem setItem_no_scope (st : CompProp) (k : String) (v : PVal)
    (hw : st.withinMethod = true) :
    ∀ e stE, setItem st k v = .error (e, stE) → e ≠ .scopeViolation := by
  intro e stE h
  unfold setItem at h
  rw [if_pos hw] at h
  cases hcv : checkValueType st v with
  | error e2 =>
    simp only [hcv] at h
    injection h with h'
    cases h'
    have := checkValueType_err st v e stE hcv
    simp [this]
  | ok u =>
    simp only [hcv] at h
    cases hck : (if st.isOrderInvariant = true then checkGenFormat st k
                 else checkDeclaredKey st k) with
    | error e2 =>
      simp only [hck] at h
      injection h with h'
      cases h'
      by_cases hoi : st.isOrderInvariant = true
      · rw [if_pos hoi] at hck
        rcases checkGenFormat_err st k e stE hck with h1 | h1 <;> simp [h1]
      · rw [if_neg hoi] at hck
        simp [checkDeclaredKey_err st k e stE hck]
    | ok u2 => simp only [hck] at h; cases h

theorem shiftLeft_no_scope (st : CompProp) (keyIdx : ℕ)
    (hw : st.withinMethod = true) :
    ∀ e stE, shiftLeft st keyIdx = .error (e, stE) → e ≠ .scopeViolation := by
  intro e stE h
  unfold shiftLeft at h
  split at h
  case isTrue hlt =>
    dsimp only [] at h
    split at h
    case isTrue hall =>
      split at h
      case h_1 => cases h
      case h_2 k0 v0 tail hp =>
        cases hset : setItem st k0 v0 with
        | error e2 =>
          simp only [hset] at h
          injection h with h'
          cases h'
          exact setItem_no_scope st k0 v0 hw e stE hset
        | ok st1 =>
          simp only [hset] at h
          split at h
          · split at h
            · cases h
            · injection h with h'
              cases h'
              simp
          · injection h with h'
            cases h'
            simp
    case isFalse =>
      injection h with h'
      cases h'
      simp
  case isFalse => cases h

theorem delItem_no_scope (st : CompProp) (k : String)
    (hw : st.withinMethod = true) :
    ∀ e stE, delItem st k = .error (e, stE) → e ≠ .scopeViolation := by
  intro e stE h
  unfold delItem at h
  rw [if_pos hw] at h
  split at h
  case isTrue hoi =>
    split at h
    case isTrue hm =>
      cases hdel : pdel { st with keyGenCount := st.keyGenCount - 1 }.entries k with
      | some ents =>
        simp only [hdel] at h
        cases hidx : keyTailIndex k with
        | some idx =>
          simp only [hidx] at h
          exact shiftLeft_no_scope _ _ (by simpa using hw) _ _ h
        | none =>
          simp only [hidx] at h
          injection h with h'
          cases h'
          simp
      | none =>
        simp only [hdel] at h
        injection h with h'
        cases h'
        simp
    case isFalse =>
      injection h with h'
      cases h'
      simp
  case isFalse =>
    injection h with h'
    cases h'
    simp

/-- C9: item assignment and item deletion attempted while no public method of
the collection is executing (the `_within_method` guard is down) are rejected
with the *ScopeViolation* `AttributeError` and leave the collection
unchanged; conversely a mutation that goes through only does so while the
guard is up, i.e. while one of the collection's own public methods is
running. -/
theorem scope_violation_guard :
    (∀ st k v, st.withinMethod = false →
      setItem st k v = .error (.scopeViolation, st)) ∧
    (∀ st k, st.withinMethod = false →
      delItem st k = .error (.scopeViolation, st)) ∧
    (∀ st k v st', setItem st k v = .ok st' → st.withinMethod = true) ∧
    (∀ st k st', delItem st k = .ok st' → st.withinMethod = true) := by
  refine ⟨?_, ?_, ?_, ?_⟩
  · intro st k v hw
    unfold setItem
    rw [if_neg (by simp [hw])]
  · intro st k hw
    unfold delItem
    rw [if_neg (by simp [hw])]
  · intro st k v st' h
    by_cases hw : st.withinMethod = true
    · exact hw
    · exfalso
      unfold setItem at h
      rw [if_neg hw] at h
      cases h
  · intro st k st' h
    by_cases hw : st.withinMethod = true
    · exact hw
    · exfalso
      unfold delItem at h
      rw [if_neg hw] at h
      cases h

/-- Witness for C9 at a concrete collection. -/
theorem scope_violation_guard_witness :
    setItem (mkDependentProp "inputs" ["a"]) "a" (.compRef 1)
      = .error (.scopeViolation, mkDependentProp "inputs" ["a"]) ∧
    delItem (mkInvariantProp "inputs") "inputs_1"
      = .error (.scopeViolation, mkInvariantProp "inputs") :=
  ⟨scope_violation_guard.1 _ _ _ rfl, scope_violation_guard.2.1 _ _ rfl⟩

/-! ## `add` on unordered collections -/

theorem pfind_append_none (l1 l2 : List (String × PVal)) (k : String)
    (h1 : pfind l1 k = none) (h2 : pfind l2 k = none) :
    pfind (l1 ++ l2) k = none := by
  induction l1 with
  | nil => simpa using h2
  | cons p rest ih =>
    rw [pfind_cons] at h1
    by_cases hp : p.1 = k
    · simp [hp] at h1
    · simp only [if_neg hp] at h1
      rw [List.cons_append, pfind_cons, if_neg hp]
      exact ih h1

theorem setItem_gen_ok (st : CompProp) (v : PVal)
    (hw : st.withinMethod = true) (hoi : st.isOrderInvariant = true)
    (hcnt : 1 ≤ st.keyGenCount) (hv : allowedValue st.propName v = true) :
    setItem st (mkKey st.propName st.keyGenCount) v =
      .ok { st with entries := praw st.entries (mkKey st.propName st.keyGenCount) v } := by
  unfold setItem checkValueType checkGenFormat
  rw [if_pos hw, if_pos hv]
  rw [hoi]
  simp [matchesGenFormat_mkKey _ _ hcnt, keyTailIndex_mkKey]

theorem setItem_bad_value (st : CompProp) (k : String) (v : PVal)
    (hw : st.withinMethod = true) (hv : allowedValue st.propName v = false) :
    setItem st k v = .error (.typeError, st) := by
  unfold setItem checkValueType
  rw [if_pos hw, if_neg (by simp [hv])]

theorem addValsLoop_comp (xs ys : List PVal) : ∀ st : CompProp,
    addValsLoop st (xs ++ ys) =
      match addValsLoop st xs with
      | .ok st1 => addValsLoop st1 ys
      | .error e => .error e := by
  induction xs with
  | nil => intro st; rfl
  | cons x xs ih =>
    intro st
    rw [List.cons_append]
    conv_lhs => rw [addValsLoop]
    conv_rhs => rw [addValsLoop]
    cases setItem st (mkKey st.propName st.keyGenCount) x with
    | error e => rfl
    | ok st1 => exact ih _

theorem addValsLoop_head_bad (st : CompProp) (bad : PVal) (rest : List PVal)
    (hw : st.withinMethod = true)
    (hbad : allowedValue st.propName bad = false) :
    addValsLoop st (bad :: rest) = .error (.typeError, st) := by
  conv_lhs => rw [addValsLoop]
  rw [setItem_bad_value st _ bad hw hbad]

theorem addValsLoop_ok (vs : List PVal) : ∀ (st : CompProp),
    st.withinMethod = true → st.isOrderInvariant = true → 1 ≤ st.keyGenCount →
    (∀ v ∈ vs, allowedValue st.propName v = true) →
    (∀ j, pfind st.entries (mkKey st.propName (st.keyGenCount + j)) = none) →
    addValsLoop st vs = .ok { st with
      entries := st.entries ++ (List.range vs.length).map (fun j =>
        (mkKey st.propName (st.keyGenCount + j), vs.getD j PVal.noneVal)),
      keyGenCount := st.keyGenCount + vs.length } := by
  induction vs with
  | nil => intro st _ _ _ _ _; simp [addValsLoop]
  | cons g gs ih =>
    intro st hw hoi hcnt hvs hfresh
    have hfr0 : pfind st.entries (mkKey st.propName st.keyGenCount) = none := by
      simpa using hfresh 0
    conv_lhs => rw [addValsLoop]
    rw [setItem_gen_ok st g hw hoi hcnt (hvs g (by simp))]
    show addValsLoop
      { st with
        entries := praw st.entries (mkKey st.propName st.keyGenCount) g,
        keyGenCount := st.keyGenCount + 1 } gs = _
    rw [praw_append_of_absent _ _ _ hfr0]
    have hrec := ih
      { st with
        entries := st.entries ++ [(mkKey st.propName st.keyGenCount, g)],
        keyGenCount := st.keyGenCount + 1 }
      hw hoi (by show 1 ≤ st.keyGenCount + 1; omega)
      (fun v hv => hvs v (by simp [hv]))
      (fun j => by
        show pfind (st.entries ++ [(mkKey st.propName st.keyGenCount, g)])
          (mkKey st.propName (st.keyGenCount + 1 + j)) = none
        refine pfind_append_none _ _ _ ?_ ?_
        · have := hfresh (1 + j)
          rwa [show st.keyGenCount + (1 + j) = st.keyGenCount + 1 + j from by omega]
            at this
        · rw [pfind_cons, if_neg (fun hc => by
            have := mkKey_inj _ _ _ hc
            omega)]
          rfl)
    rw [hrec]
    simp only [Except.ok.injEq, CompProp.mk.injEq, true_and, and_true]
    constructor
    · rw [List.append_assoc]
      congr 1
      rw [List.length_cons, List.range_succ_eq_map]
      simp only [List.map_cons, List.map_map, List.cons_append, List.nil_append]
      refine List.cons_eq_cons.mpr ⟨by simp, ?_⟩
      refine List.map_congr_left (fun a ha => ?_)
      simp only [Function.comp_apply, List.getD_cons_succ]
      rw [show st.keyGenCount + 1 + a = st.keyGenCount + (a + 1) from by omega]
    · rw [List.length_cons]
      omega

theorem addValsLoop_err (st : CompProp) (goods : List PVal) (bad : PVal)
    (rest : List PVal)
    (hw : st.withinMethod = true) (hoi : st.isOrderInvariant = true)
    (hcnt : 1 ≤ st.keyGenCount)
    (hgs : ∀ v ∈ goods, allowedValue st.propName v = true)
    (hbad : allowedValue st.propName bad = false)
    (hfresh : ∀ j, pfind st.entries (mkKey st.propName (st.keyGenCount + j)) = none) :
    addValsLoop st (goods ++ bad :: rest) = .error (.typeError, { st with
      entries := st.entries ++ (List.range goods.length).map (fun j =>
        (mkKey st.propName (st.keyGenCount + j), goods.getD j PVal.noneVal)),
      keyGenCount := st.keyGenCount + goods.length }) := by
  rw [addValsLoop_comp]
  rw [addValsLoop_ok goods st hw hoi hcnt hgs hfresh]
  exact addValsLoop_head_bad _ bad rest hw hbad

theorem compact_fresh_keys (st : CompProp) (hC : Compact st) :
    ∀ j, pfind st.entries (mkKey st.propName (st.keyGenCount + j)) = none := by
  intro j
  obtain ⟨_, _, hcnt, _, hmem⟩ := hC
  cases hf : pfind st.entries (mkKey st.propName (st.keyGenCount + j)) with
  | none => rfl
  | some v =>
    exfalso
    obtain ⟨jj, h1, h2, h3⟩ := (hmem _).mp (by rw [hf]; rfl)
    have := mkKey_inj _ _ _ h3
    omega

theorem compact_mkInvariantProp (p : String) : Compact (mkInvariantProp p) := by
  refine ⟨rfl, rfl, rfl, List.nodup_nil, ?_⟩
  intro k
  constructor
  · intro h
    simp [mkInvariantProp, pfind] at h
  · rintro ⟨j, h1, h2, _⟩
    simp [mkInvariantProp] at h2
    omega

theorem addProp_err_of_loop (st : CompProp) (args : List PVal)
    (kwargs : List (String × PVal)) (e : PErr × CompProp)
    (hoi : st.isOrderInvariant = true)
    (h : addValsLoop { st with withinMethod := true } args = .error e) :
    addProp st args kwargs = .error e := by
  unfold addProp
  dsimp only []
  rw [if_pos hoi, h]

/-- C10: when `add` on an unordered collection is given several positional
values and one of them violates the kind's type constraint, the call raises
`TypeError` after the preceding values were already inserted (they remain as
entries, under their generated keys, with the counter advanced), and the
`_within_method` guard is left engaged, so a subsequent direct external item
assignment or deletion on the collection is no longer rejected with the
*ScopeViolation* error. -/
theorem add_midfail_partial_insert_and_guard_leak (st : CompProp)
    (goods rest : List PVal) (bad : PVal) (hC : Compact st)
    (hg : ∀ v ∈ goods, allowedValue st.propName v = true)
    (hb : allowedValue st.propName bad = false) :
    ∃ stG, addProp st (goods ++ bad :: rest) [] = .error (.typeError, stG) ∧
      stG.withinMethod = true ∧
      stG.entries = st.entries ++ (List.range goods.length).map (fun j =>
        (mkKey st.propName (st.keyGenCount + j), goods.getD j PVal.noneVal)) ∧
      stG.keyGenCount = st.keyGenCount + goods.length ∧
      (∀ k v e stE, setItem stG k v = .error (e, stE) → e ≠ .scopeViolation) ∧
      (∀ k e stE, delItem stG k = .error (e, stE) → e ≠ .scopeViolation) := by
  have hoi := hC.1
  have hcnt : 1 ≤ st.keyGenCount := by rw [hC.2.2.1]; omega
  have hfresh := compact_fresh_keys st hC
  refine ⟨{ { st with withinMethod := true } with
    entries := st.entries ++ (List.range goods.length).map (fun j =>
      (mkKey st.propName (st.keyGenCount + j), goods.getD j PVal.noneVal)),
    keyGenCount := st.keyGenCount + goods.length }, ?_, rfl, rfl, rfl, ?_, ?_⟩
  · exact addProp_err_of_loop st _ [] _ hoi
      (addValsLoop_err { st with withinMethod := true } goods bad rest rfl hoi
        hcnt hg hb hfresh)
  · exact fun k v e stE h => setItem_no_scope _ k v rfl e stE h
  · exact fun k e stE h => delItem_no_scope _ k rfl e stE h

/-- Witness for C10 at a concrete inputs collection. -/
theorem add_midfail_witness :
    ∃ stG, addProp (mkInvariantProp "inputs")
        ([PVal.compRef 1] ++ PVal.other 5 :: [PVal.compRef 2]) []
        = .error (.typeError, stG) ∧
      stG.withinMethod = true ∧
      stG.entries = (mkInvariantProp "inputs").entries ++
        (List.range [PVal.compRef 1].length).map (fun j =>
          (mkKey "inputs" ((mkInvariantProp "inputs").keyGenCount + j),
           [PVal.compRef 1].getD j PVal.noneVal)) ∧
      stG.keyGenCount = (mkInvariantProp "inputs").keyGenCount
        + [PVal.compRef 1].length ∧
      (∀ k v e stE, setItem stG k v = .error (e, stE) → e ≠ .scopeViolation) ∧
      (∀ k e stE, delItem stG k = .error (e, stE) → e ≠ .scopeViolation) :=
  add_midfail_partial_insert_and_guard_leak (mkInvariantProp "inputs")
    [PVal.compRef 1] [PVal.compRef 2] (PVal.other 5)
    (compact_mkInvariantProp "inputs")
    (by intro v hv; simp at hv; subst hv; rfl) rfl

/-! ## Membership and type-safety plumbing for the property dict -/

theorem pfind_some_mem (l : List (String × PVal)) (k : String) (v : PVal)
    (h : pfind l k = some v) : (k, v) ∈ l := by
  induction l with
  | nil => simp [pfind_nil] at h
  | cons p rest ih =>
    rw [pfind_cons] at h
    by_cases hp : p.1 = k
    · rw [if_pos hp] at h
      injection h with h'
      subst h'
      subst hp
      exact List.mem_cons_self _ _
    · rw [if_neg hp] at h
      exact List.mem_cons_of_mem _ (ih h)

theorem praw_mem (l : List (String × PVal)) (k : String) (v : PVal)
    (kv : String × PVal) (h : kv ∈ praw l k v) : kv ∈ l ∨ kv = (k, v) := by
  induction l with
  | nil => simp [praw] at h; simp [h]
  | cons p rest ih =>
    by_cases hp : p.1 = k
    · simp only [praw, if_pos hp] at h
      rcases List.mem_cons.mp h with h | h
      · right; exact h
      · left; exact List.mem_cons_of_mem _ h
    · simp only [praw, if_neg hp] at h
      rcases List.mem_cons.mp h with h | h
      · left; exact h ▸ List.mem_cons_self _ _
      · rcases ih h with h | h
        · left; exact List.mem_cons_of_mem _ h
        · right; exact h

theorem pdel_mem (l : List (String × PVal)) (k : String)
    (l' : List (String × PVal)) (h : pdel l k = some l')
    (kv : String × PVal) (hm : kv ∈ l') : kv ∈ l := by
  induction l generalizing l' with
  | nil => simp [pdel] at h
  | cons p rest ih =>
    by_cases hp : p.1 = k
    · simp only [pdel, if_pos hp] at h
      obtain rfl : rest = l' := by injection h
      exact List.mem_cons_of_mem _ hm
    · simp only [pdel, if_neg hp] at h
      cases hres : pdel rest k with
      | none => simp [hres] at h
      | some r =>
        simp only [hres, Option.map_some'] at h
        obtain rfl : p :: r = l' := by injection h
        rcases List.mem_cons.mp hm with h2 | h2
        · exact h2 ▸ List.mem_cons_self _ _
        · exact List.mem_cons_of_mem _ (ih r hres h2)

theorem prawAll_mem (kvs : List (String × PVal)) :
    ∀ (l : List (String × PVal)) (kv : String × PVal),
    kv ∈ prawAll l kvs → kv ∈ l ∨ kv ∈ kvs := by
  induction kvs with
  | nil => intro l kv h; left; exact h
  | cons q qs ih =>
    intro l kv h
    rcases ih (praw l q.1 q.2) kv h with h2 | h2
    · rcases praw_mem l q.1 q.2 kv h2 with h3 | h3
      · left; exact h3
      · right; exact h3 ▸ List.mem_cons_self _ _
    · right; exact List.mem_cons_of_mem _ h2

theorem pfind_isSome_praw (l : List (String × PVal)) (k k2 : String) (v : PVal) :
    (pfind (praw l k v) k2).isSome = ((pfind l k2).isSome || k2 = k) := by
  by_cases h : k2 = k
  · subst h
    rw [pfind_praw_self]
    simp
  · rw [pfind_praw_ne _ _ _ _ h]
    simp [h]

theorem pfind_isSome_prawAll (kvs : List (String × PVal)) :
    ∀ (l : List (String × PVal)) (k : String),
    (pfind (prawAll l kvs) k).isSome =
      ((pfind l k).isSome || k ∈ kvs.map Prod.fst) := by
  induction kvs with
  | nil => intro l k; simp [prawAll]
  | cons q qs ih =>
    intro l k
    show (pfind (prawAll (praw l q.1 q.2) qs) k).isSome = _
    rw [ih, pfind_isSome_praw]
    by_cases h : k = q.1
    · simp [h]
    · simp only [List.map_cons, List.mem_cons, h, false_or, decide_eq_true_eq]
      congr 1
      simp [h]

theorem prawAll_keys_of_present (kvs : List (String × PVal)) :
    ∀ (l : List (String × PVal)),
    (∀ kv ∈ kvs, (pfind l kv.1).isSome = true) →
    (prawAll l kvs).map Prod.fst = l.map Prod.fst := by
  induction kvs with
  | nil => intro l _; rfl
  | cons q qs ih =>
    intro l hall
    show (prawAll (praw l q.1 q.2) qs).map Prod.fst = _
    rw [ih]
    · rw [praw_keys, if_pos (hall q (by simp))]
    · intro kv hkv
      rw [pfind_isSome_praw]
      rw [hall kv (by simp [hkv])]
      rfl

theorem prawAll_length_of_present (kvs : List (String × PVal))
    (l : List (String × PVal))
    (h : ∀ kv ∈ kvs, (pfind l kv.1).isSome = true) :
    (prawAll l kvs).length = l.length := by
  have := prawAll_keys_of_present kvs l h
  have h1 := congrArg List.length this
  simpa using h1

theorem pdel_length (l : List (String × PVal)) (k : String)
    (l' : List (String × PVal)) (h : pdel l k = some l') :
    l.length = l'.length + 1 := by
  induction l generalizing l' with
  | nil => simp [pdel] at h
  | cons p rest ih =>
    by_cases hp : p.1 = k
    · simp only [pdel, if_pos hp] at h
      obtain rfl : rest = l' := by injection h
      simp
    · simp only [pdel, if_neg hp] at h
      cases hres : pdel rest k with
      | none => simp [hres] at h
      | some r =>
        simp only [hres, Option.map_some'] at h
        obtain rfl : p :: r = l' := by injection h
        simp [ih r hres]

theorem pfind_isSome_pdel (l : List (String × PVal)) (k k2 : String)
    (l' : List (String × PVal)) (hnd : (l.map Prod.fst).Nodup)
    (h : pdel l k = some l') :
    (pfind l' k2).isSome = ((pfind l k2).isSome && !(k2 = k)) := by
  by_cases hk : k2 = k
  · subst hk
    rw [pfind_pdel_self l k2 l' hnd h]
    simp
  · rw [pfind_pdel_ne l k k2 l' h hk]
    simp [hk]

theorem setItem_ok_inv (st : CompProp) (k : String) (v : PVal) (st' : CompProp)
    (h : setItem st k v = .ok st') :
    st.withinMethod = true ∧ allowedValue st.propName v = true ∧
    st' = { st with entries := praw st.entries k v } := by
  unfold setItem at h
  by_cases hw : st.withinMethod = true
  · rw [if_pos hw] at h
    refine ⟨hw, ?_⟩
    unfold checkValueType at h
    by_cases hv : allowedValue st.propName v = true
    · rw [if_pos hv] at h
      refine ⟨hv, ?_⟩
      cases hck : (if st.isOrderInvariant = true then checkGenFormat st k
                   else checkDeclaredKey st k) with
      | error e => simp only [hck] at h; cases h
      | ok u =>
        simp only [hck] at h
        injection h with h'
        exact h'.symm
    · rw [if_neg (by simpa using hv)] at h
      cases h
  · rw [if_neg hw] at h
    cases h

theorem typeSafe_entries_praw (p : String) (l : List (String × PVal))
    (k : String) (v : PVal)
    (hl : ∀ kv ∈ l, allowedValue p kv.2 = true) (hv : allowedValue p v = true) :
    ∀ kv ∈ praw l k v, allowedValue p kv.2 = true := by
  intro kv hkv
  rcases praw_mem l k v kv hkv with h | h
  · exact hl kv h
  · rw [h]
    exact hv

theorem setItem_typeSafe (st : CompProp) (k : String) (v : PVal) (st' : CompProp)
    (hT : TypeSafe st) (h : setItem st k v = .ok st') : TypeSafe st' := by
  obtain ⟨_, hv, hst⟩ := setItem_ok_inv st k v st' h
  subst hst
  exact typeSafe_entries_praw st.propName st.entries k v hT hv

theorem shiftLeft_fields (st : CompProp) (j : ℕ) (st' : CompProp)
    (h : shiftLeft st j = .ok st') :
    st'.propName = st.propName ∧ st'.withinMethod = st.withinMethod ∧
    st'.keyGenCount = st.keyGenCount ∧ st'.isOrderInvariant = st.isOrderInvariant := by
  unfold shiftLeft at h
  split at h
  case isTrue hlt =>
    dsimp only [] at h
    split at h
    case isTrue hall =>
      split at h
      case h_1 =>
        injection h with h'
        subst h'
        exact ⟨rfl, rfl, rfl, rfl⟩
      case h_2 k0 v0 tail hp =>
        cases hset : setItem st k0 v0 with
        | error e => simp only [hset] at h; cases h
        | ok st1 =>
          simp only [hset] at h
          obtain ⟨_, _, hst1⟩ := setItem_ok_inv st k0 v0 st1 hset
          subst hst1
          split at h
          · split at h
            · injection h with h'
              subst h'
              exact ⟨rfl, rfl, rfl, rfl⟩
            · cases h
          · cases h
    case isFalse => cases h
  case isFalse =>
    injection h with h'
    subst h'
    exact ⟨rfl, rfl, rfl, rfl⟩

theorem pairs_typeSafe (st : CompProp) (j : ℕ)
    (hT : TypeSafe st)
    (hall : (((List.range (st.keyGenCount - j)).map (fun jj =>
      (mkKey st.propName (j + jj),
       pfind st.entries (mkKey st.propName (j + jj + 1))))).all
        (fun kv => kv.2.isSome)) = true) :
    ∀ kv ∈ ((List.range (st.keyGenCount - j)).map (fun jj =>
      (mkKey st.propName (j + jj),
       pfind st.entries (mkKey st.propName (j + jj + 1))))).map
        (fun kv => (kv.1, kv.2.getD PVal.noneVal)),
      allowedValue st.propName kv.2 = true := by
  intro kv hkv
  obtain ⟨rd, hrd, hrd2⟩ := List.mem_map.mp hkv
  obtain ⟨jj, hjj, hjj2⟩ := List.mem_map.mp hrd
  rw [List.all_eq_true] at hall
  have hSome := hall rd hrd
  obtain ⟨w, hw⟩ := Option.isSome_iff_exists.mp (by simpa using hSome)
  have hv : kv.2 = w := by
    rw [← hrd2]
    simp [hw]
  rw [hv]
  have hfind : pfind st.entries (mkKey st.propName (j + jj + 1)) = some w := by
    rw [← hjj2] at hw
    simpa using hw
  exact hT _ (pfind_some_mem _ _ _ hfind)

theorem shiftLeft_typeSafe (st : CompProp) (j : ℕ) (st' : CompProp)
    (hT : TypeSafe st) (h : shiftLeft st j = .ok st') : TypeSafe st' := by
  unfold shiftLeft at h
  split at h
  case isTrue hlt =>
    dsimp only [] at h
    split at h
    case isTrue hall =>
      split at h
      case h_1 =>
        injection h with h'
        subst h'
        exact hT
      case h_2 k0 v0 tail hp =>
        cases hset : setItem st k0 v0 with
        | error e => simp only [hset] at h; cases h
        | ok st1 =>
          simp only [hset] at h
          have hT1 : TypeSafe st1 := setItem_typeSafe st k0 v0 st1 hT hset
          obtain ⟨_, _, hst1⟩ := setItem_ok_inv st k0 v0 st1 hset
          have hPairs := pairs_typeSafe st j hT hall
          have hpn1 : st1.propName = st.propName := by rw [hst1]
          split at h
          · split at h
            case h_1 ents hdel =>
              injection h with h'
              subst h'
              intro kv hkv
              show allowedValue st1.propName kv.2 = true
              have h1 := pdel_mem _ _ _ hdel kv hkv
              rcases prawAll_mem _ _ _ h1 with h2 | h2
              · exact hT1 kv h2
              · rw [hpn1]
                exact hPairs kv h2
            case h_2 => cases h
          · cases h
    case isFalse => cases h
  case isFalse =>
    injection h with h'
    subst h'
    exact hT

theorem delItem_fields (st : CompProp) (k : String) (st' : CompProp)
    (h : delItem st k = .ok st') :
    st'.propName = st.propName ∧ st'.withinMethod = st.withinMethod ∧
    st'.isOrderInvariant = st.isOrderInvariant := by
  unfold delItem at h
  split at h
  case isTrue hw =>
    split at h
    case isTrue hoi =>
      split at h
      case isTrue hm =>
        dsimp only [] at h
        split at h
        case h_1 ents hdel =>
          split at h
          case h_1 idx hidx =>
            have := shiftLeft_fields _ _ _ h
            exact ⟨this.1, this.2.1, this.2.2.2⟩
          case h_2 => cases h
        case h_2 => cases h
      case isFalse => cases h
    case isFalse => cases h
  case isFalse => cases h

theorem delItem_typeSafe (st : CompProp) (k : String) (st' : CompProp)
    (hT : TypeSafe st) (h : delItem st k = .ok st') : TypeSafe st' := by
  unfold delItem at h
  split at h
  case isTrue hw =>
    split at h
    case isTrue hoi =>
      split at h
      case isTrue hm =>
        dsimp only [] at h
        split at h
        case h_1 ents hdel =>
          split at h
          case h_1 idx hidx =>
            refine shiftLeft_typeSafe _ _ _ ?_ h
            intro kv hkv
            exact hT kv (pdel_mem _ _ _ hdel kv hkv)
          case h_2 => cases h
        case h_2 => cases h
      case isFalse => cases h
    case isFalse => cases h
  case isFalse => cases h

theorem popProp_typeSafe (st : CompProp) (k : String) (v : PVal) (st' : CompProp)
    (hT : TypeSafe st) (h : popProp st k = .ok (v, st')) : TypeSafe st' := by
  unfold popProp at h
  dsimp only [] at h
  split at h
  case h_1 => cases h
  case h_2 w hfind =>
    cases hdel : delItem { st with withinMethod := true } k with
    | error e => simp only [hdel] at h; cases h
    | ok st1 =>
      simp only [hdel] at h
      injection h with h'
      injection h' with h1 h2
      subst h2
      have : TypeSafe st1 :=
        delItem_typeSafe { st with withinMethod := true } k st1
          (fun kv hkv => hT kv hkv) hdel
      exact fun kv hkv => this kv hkv

theorem addValsLoop_typeSafe (vs : List PVal) : ∀ (st st' : CompProp),
    TypeSafe st → addValsLoop st vs = .ok st' → TypeSafe st' := by
  induction vs with
  | nil =>
    intro st st' hT h
    injection h with h'
    exact h' ▸ hT
  | cons v vs ih =>
    intro st st' hT h
    conv_lhs at h => rw [addValsLoop]
    cases hset : setItem st (mkKey st.propName st.keyGenCount) v with
    | error e => simp only [hset] at h; cases h
    | ok st1 =>
      simp only [hset] at h
      refine ih { st1 with keyGenCount := st1.keyGenCount + 1 } st' ?_ h
      exact fun kv hkv => setItem_typeSafe st _ v st1 hT hset kv hkv

theorem addKwargsLoop_typeSafe (kvs : List (String × PVal)) :
    ∀ (st st' : CompProp),
    TypeSafe st → addKwargsLoop st kvs = .ok st' → TypeSafe st' := by
  induction kvs with
  | nil =>
    intro st st' hT h
    injection h with h'
    exact h' ▸ hT
  | cons kv kvs ih =>
    intro st st' hT h
    conv_lhs at h => rw [addKwargsLoop]
    cases hset : setItem st kv.1 kv.2 with
    | error e => simp only [hset] at h; cases h
    | ok st1 =>
      simp only [hset] at h
      exact ih _ _ (setItem_typeSafe st _ _ st1 hT hset) h

theorem addProp_typeSafe (st : CompProp) (args : List PVal)
    (kwargs : List (String × PVal)) (st' : CompProp)
    (hT : TypeSafe st) (h : addProp st args kwargs = .ok st') : TypeSafe st' := by
  unfold addProp at h
  dsimp only [] at h
  by_cases hoi : st.isOrderInvariant = true
  · rw [if_pos hoi] at h
    cases hl : addValsLoop { st with withinMethod := true } args with
    | error e => simp only [hl] at h; cases h
    | ok st1 =>
      simp only [hl] at h
      injection h with h'
      subst h'
      exact fun kv hkv =>
        addValsLoop_typeSafe args { st with withinMethod := true } st1
          (fun kv hkv => hT kv hkv) hl kv hkv
  · rw [if_neg hoi] at h
    cases hl : addKwargsLoop { st with withinMethod := true } kwargs with
    | error e => simp only [hl] at h; cases h
    | ok st1 =>
      simp only [hl] at h
      injection h with h'
      subst h'
      exact fun kv hkv =>
        addKwargsLoop_typeSafe kwargs { st with withinMethod := true } st1
          (fun kv hkv => hT kv hkv) hl kv hkv

theorem removeStep_typeSafe (st : CompProp) (value : PVal) (kv : String × PVal)
    (st' : CompProp) (hT : TypeSafe st) (h : removeStep st value kv = .ok st') :
    TypeSafe st' := by
  unfold removeStep at h
  split at h
  · split at h
    · exact delItem_typeSafe st kv.1 st' hT h
    · have hv : allowedValue st.propName PVal.noneVal = true := by
        unfold allowedValue
        split <;> rfl
      exact setItem_typeSafe st kv.1 PVal.noneVal st' hT h
  · injection h with h'
    exact h' ▸ hT

theorem removeFold_typeSafe (snapshot : List (String × PVal)) (value : PVal) :
    ∀ (acc : PRes CompProp) (st' : CompProp),
    (∀ s, acc = .ok s → TypeSafe s) →
    snapshot.foldl (fun (acc : PRes CompProp) kv =>
      match acc with
      | .error e => .error e
      | .ok s => removeStep s value kv) acc = .ok st' →
    TypeSafe st' := by
  induction snapshot with
  | nil =>
    intro acc st' hacc h
    exact hacc st' h
  | cons kv rest ih =>
    intro acc st' hacc h
    rw [List.foldl_cons] at h
    refine ih _ st' ?_ h
    intro s hs
    cases acc with
    | error e => simp at hs
    | ok s0 =>
      simp only at hs
      exact removeStep_typeSafe s0 value kv s (hacc s0 rfl) hs

theorem removeProp_typeSafe (st : CompProp) (value : PVal) (st' : CompProp)
    (hT : TypeSafe st) (h : removeProp st value = .ok st') : TypeSafe st' := by
  unfold removeProp at h
  dsimp only [] at h
  cases hfold : ({ st with withinMethod := true } : CompProp).entries.foldl
      (fun (acc : PRes CompProp) kv =>
        match acc with
        | .error e => .error e
        | .ok s => removeStep s value kv)
      (Except.ok { st with withinMethod := true }) with
  | error e => rw [hfold] at h; cases h
  | ok st1 =>
    rw [hfold] at h
    injection h with h'
    subst h'
    have : TypeSafe st1 := by
      refine removeFold_typeSafe _ value _ st1 ?_ hfold
      intro s hs
      injection hs with h2
      subst h2
      exact fun kv hkv => hT kv hkv
    exact fun kv hkv => this kv hkv

/-- Type safety is preserved by every operation of the claim's list except
`update`: `add`, `set`, `delete` (through `pop`), and `remove`. -/
theorem applyOp_typeSafe (st : CompProp) (op : COp) (st' : CompProp)
    (hT : TypeSafe st) (h : applyOp st op = .ok st') : TypeSafe st' := by
  cases op with
  | add v => exact addProp_typeSafe st [v] [] st' hT h
  | del k =>
    have hd : applyOp st (.del k) =
        match popProp st k with
        | .ok (_, st1) => .ok st1
        | .error e => .error e := rfl
    rw [hd] at h
    cases hp : popProp st k with
    | error e => simp only [hp] at h; cases h
    | ok p =>
      simp only [hp] at h
      injection h with h'
      subst h'
      exact popProp_typeSafe st k p.1 p.2 hT (by rw [hp])
  | setOp k v => exact setItem_typeSafe st k v st' hT h
  | removeOp v => exact removeProp_typeSafe st v st' hT h

theorem applyOps_typeSafe (ops : List COp) : ∀ (st st' : CompProp),
    TypeSafe st → applyOps st ops = .ok st' → TypeSafe st' := by
  induction ops with
  | nil =>
    intro st st' hT h
    injection h with h'
    exact h' ▸ hT
  | cons op rest ih =>
    intro st st' hT h
    conv_lhs at h => rw [applyOps]
    cases hop : applyOp st op with
    | error e => simp only [hop] at h; cases h
    | ok st1 =>
      simp only [hop] at h
      exact ih st1 st' (applyOp_typeSafe st op st1 hT hop) h

/-- C8, counterexample: the claim's operation list includes `update`, but
`_ComponentProperty.update` goes through `_update` to the raw `dict.update`
without calling `_check_value_type`, so it can plant a non-component value in
an `inputs` collection.  Starting from an empty inputs collection, one `add`
of a component reference keeps the collection type-safe, and a subsequent
`update` of the generated key with a non-component value succeeds and leaves
an entry that violates the kind-specific constraint. -/
theorem type_invariant_update_counterexample :
    ∃ st0 st1 : CompProp,
      applyOps (mkInvariantProp "inputs") [COp.add (PVal.compRef 0)] = .ok st0 ∧
      TypeSafe st0 ∧
      updateProp st0 none [(mkKey "inputs" 1, PVal.other 42)] = .ok st1 ∧
      (mkKey "inputs" 1, PVal.other 42) ∈ st1.entries ∧
      allowedValue st1.propName (PVal.other 42) = false ∧
      ¬ TypeSafe st1 := by
  refine ⟨{ propName := "inputs", entries := [(mkKey "inputs" 1, PVal.compRef 0)], withinMethod := false, keyGenCount := 2, isOrderInvariant := true },
    { propName := "inputs", entries := [(mkKey "inputs" 1, PVal.other 42)], withinMethod := false, keyGenCount := 2, isOrderInvariant := true },
    ?_, ?_, ?_, ?_, ?_, ?_⟩
  · rfl
  · intro kv hkv
    rw [List.mem_singleton] at hkv
    subst hkv
    rfl
  · rfl
  · exact List.mem_singleton.mpr rfl
  · rfl
  · intro h
    have := h (mkKey "inputs" 1, PVal.other 42) (List.mem_singleton.mpr rfl)
    exact absurd this (by decide)

/-- C8, amended: for every property collection whose entries all satisfy the
kind-specific type constraint (`TypeSafe`: every inputs/outputs value is a
component reference or `None`, parameters unconstrained), every completed
sequence of mutating operations drawn from `add`, `set` (the guarded
`__setitem__`), `delete` (through `pop`) and `remove` preserves the
constraint.  The claim's original list also included `update`, which is
excluded here: `_update` writes through the raw `dict.update` with no
`_check_value_type`, so it does not preserve the constraint. -/
theorem type_invariant_preserved (st : CompProp) (ops : List COp)
    (st' : CompProp) (hT : TypeSafe st) (h : applyOps st ops = .ok st') :
    TypeSafe st' :=
  applyOps_typeSafe ops st st' hT h

/-- Witness for the amended C8 at a concrete run: add two component
references to an empty inputs collection, then delete the first generated
key; the resulting collection is type-safe. -/
theorem type_invariant_preserved_witness :
    TypeSafe { propName := "inputs", entries := [(mkKey "inputs" 1, PVal.compRef 1)], withinMethod := false, keyGenCount := 2, isOrderInvariant := true } :=
  type_invariant_preserved (mkInvariantProp "inputs")
    [COp.add (PVal.compRef 0), COp.add (PVal.compRef 1),
     COp.del (mkKey "inputs" 1)]
    { propName := "inputs", entries := [(mkKey "inputs" 1, PVal.compRef 1)], withinMethod := false, keyGenCount := 2, isOrderInvariant := true }
    (fun kv hkv => absurd hkv (by simp [mkInvariantProp]))
    (by rfl)

theorem pfind_mem_keys (l : List (String × PVal)) (k : String)
    (h : k ∈ l.map Prod.fst) : (pfind l k).isSome = true := by
  induction l with
  | nil => simp at h
  | cons p rest ih =>
    rw [pfind_cons]
    by_cases hp : p.1 = k
    · rw [if_pos hp]; rfl
    · rw [if_neg hp]
      simp only [List.map_cons, List.mem_cons] at h
      rcases h with h | h
      · exact absurd h.symm hp
      · exact ih h

theorem setItem_gen_key_ok (st : CompProp) (m : ℕ) (v : PVal)
    (hw : st.withinMethod = true) (hoi : st.isOrderInvariant = true)
    (hm1 : 1 ≤ m) (hm2 : m ≤ st.keyGenCount)
    (hv : allowedValue st.propName v = true) :
    setItem st (mkKey st.propName m) v =
      .ok { st with entries := praw st.entries (mkKey st.propName m) v } := by
  unfold setItem checkValueType checkGenFormat
  rw [if_pos hw, if_pos hv]
  rw [hoi]
  simp only [if_true, matchesGenFormat_mkKey _ _ hm1, keyTailIndex_mkKey]
  rw [if_neg (by omega : ¬ st.keyGenCount < m)]

/-- `_shift_values_to_the_left` on a collection holding exactly the generated
keys `1 … count` except `j` (the key just deleted, counter already
decremented): it succeeds, and the remaining keys are exactly `1 … count−1`,
with the counter, the guard and the kind flags untouched and all stored
values still drawn from the old collection. -/
theorem shiftLeft_ok_keys (st : CompProp) (j : ℕ)
    (hw : st.withinMethod = true) (hoi : st.isOrderInvariant = true)
    (hT : TypeSafe st) (hnd : (st.entries.map Prod.fst).Nodup)
    (hj1 : 1 ≤ j) (hj2 : j ≤ st.keyGenCount)
    (hkeys : ∀ kk, (pfind st.entries kk).isSome = true ↔
      ∃ jj, 1 ≤ jj ∧ jj ≤ st.keyGenCount ∧ jj ≠ j ∧ kk = mkKey st.propName jj) :
    ∃ st', shiftLeft st j = .ok st' ∧
      st'.propName = st.propName ∧ st'.withinMethod = true ∧
      st'.isOrderInvariant = true ∧ st'.keyGenCount = st.keyGenCount ∧
      st'.entries.length = st.entries.length ∧
      (st'.entries.map Prod.fst).Nodup ∧ TypeSafe st' ∧
      (∀ kk, (pfind st'.entries kk).isSome = true ↔
        ∃ jj, 1 ≤ jj ∧ jj ≤ st.keyGenCount - 1 ∧ kk = mkKey st.propName jj) := by
  by_cases hcase : j < st.keyGenCount
  · -- the shifting branch
    have hpresent : ∀ m, 1 ≤ m → m ≤ st.keyGenCount → m ≠ j →
        (pfind st.entries (mkKey st.propName m)).isSome = true := by
      intro m h1 h2 h3
      exact (hkeys _).mpr ⟨m, h1, h2, h3, rfl⟩
    have hnone : pfind st.entries (mkKey st.propName j) = none := by
      cases hf : pfind st.entries (mkKey st.propName j) with
      | none => rfl
      | some w =>
        exfalso
        obtain ⟨jj, _, _, h3, hkk⟩ := (hkeys _).mp (by rw [hf]; rfl)
        exact h3 (mkKey_inj _ _ _ hkk).symm
    have hv1 : (pfind st.entries (mkKey st.propName (j + 1))).isSome = true :=
      hpresent (j + 1) (by omega) (by omega) (by omega)
    obtain ⟨w0, hw0⟩ := Option.isSome_iff_exists.mp hv1
    have hw0allowed : allowedValue st.propName w0 = true :=
      hT _ (pfind_some_mem _ _ _ hw0)
    have hv0 : (pfind st.entries (mkKey st.propName (j + 1))).getD PVal.noneVal
        = w0 := by rw [hw0]; rfl
    have hfind1 : ∀ kk,
        (pfind (praw st.entries (mkKey st.propName j) w0) kk).isSome =
          ((pfind st.entries kk).isSome || kk = mkKey st.propName j) :=
      fun kk => pfind_isSome_praw _ _ _ _
    have hall : ((List.range (st.keyGenCount - j)).map (fun jj =>
        (mkKey st.propName (j + jj),
         pfind st.entries (mkKey st.propName (j + jj + 1))))).all
        (fun kv => kv.2.isSome) = true := by
      rw [List.all_eq_true]
      intro kv hkv
      obtain ⟨jj, hjj, rfl⟩ := List.mem_map.mp hkv
      rw [List.mem_range] at hjj
      exact hpresent (j + jj + 1) (by omega) (by omega) (by omega)
    -- the tail of the shift dictionary, then the dictionary with the head
    -- value evaluated
    set T := (((List.range (st.keyGenCount - j - 1)).map Nat.succ).map (fun jj =>
        (mkKey st.propName (j + jj),
         pfind st.entries (mkKey st.propName (j + jj + 1))))).map
        (fun kv => (kv.1, kv.2.getD PVal.noneVal)) with hTdef
    have hpairs : ((List.range (st.keyGenCount - j)).map (fun jj =>
          (mkKey st.propName (j + jj),
           pfind st.entries (mkKey st.propName (j + jj + 1))))).map
          (fun kv => (kv.1, kv.2.getD PVal.noneVal)) =
        (mkKey st.propName j,
         (pfind st.entries (mkKey st.propName (j + 1))).getD PVal.noneVal) :: T := by
      rw [show st.keyGenCount - j = (st.keyGenCount - j - 1) + 1 from by omega,
        List.range_succ_eq_map]
      rfl
    have hkeysT : ∀ kk, kk ∈ T.map Prod.fst ↔
        ∃ a, a < st.keyGenCount - j - 1 ∧ kk = mkKey st.propName (j + (a + 1)) := by
      intro kk
      rw [hTdef]
      constructor
      · intro hmem
        obtain ⟨kv, hkv, rfl⟩ := List.mem_map.mp hmem
        obtain ⟨q, hq, rfl⟩ := List.mem_map.mp hkv
        obtain ⟨b, hb, rfl⟩ := List.mem_map.mp hq
        obtain ⟨a, ha, rfl⟩ := List.mem_map.mp hb
        rw [List.mem_range] at ha
        exact ⟨a, ha, rfl⟩
      · rintro ⟨a, ha, rfl⟩
        refine List.mem_map.mpr ⟨_, List.mem_map.mpr ⟨_, List.mem_map.mpr
          ⟨_, List.mem_map.mpr ⟨a, List.mem_range.mpr ha, rfl⟩, rfl⟩, rfl⟩, rfl⟩
    have hmemT : ∀ kv ∈ T, ∃ a, a < st.keyGenCount - j - 1 ∧
        kv = (mkKey st.propName (j + (a + 1)),
          (pfind st.entries (mkKey st.propName (j + (a + 1) + 1))).getD
            PVal.noneVal) := by
      intro kv hkv
      rw [hTdef] at hkv
      obtain ⟨q, hq, rfl⟩ := List.mem_map.mp hkv
      obtain ⟨b, hb, rfl⟩ := List.mem_map.mp hq
      obtain ⟨a, ha, rfl⟩ := List.mem_map.mp hb
      rw [List.mem_range] at ha
      exact ⟨a, ha, rfl⟩
    have hall2 : (((mkKey st.propName j, w0) :: T).all (fun kv =>
        (pfind (praw st.entries (mkKey st.propName j) w0) kv.1).isSome)) = true := by
      rw [List.all_eq_true]
      intro kv hkv
      rcases List.mem_cons.mp hkv with rfl | hkv
      · show (pfind (praw st.entries (mkKey st.propName j) w0)
          (mkKey st.propName j)).isSome = true
        rw [hfind1]
        simp
      · obtain ⟨a, ha, rfl⟩ := hmemT kv hkv
        show (pfind (praw st.entries (mkKey st.propName j) w0)
          (mkKey st.propName (j + (a + 1)))).isSome = true
        rw [hfind1]
        rw [hpresent (j + (a + 1)) (by omega) (by omega) (by omega)]
        rfl
    have hallp : ∀ kv ∈ (mkKey st.propName j, w0) :: T,
        (pfind (praw st.entries (mkKey st.propName j) w0) kv.1).isSome = true :=
      List.all_eq_true.mp hall2
    have hkeysU : (prawAll (praw st.entries (mkKey st.propName j) w0)
        ((mkKey st.propName j, w0) :: T)).map Prod.fst =
        st.entries.map Prod.fst ++ [mkKey st.propName j] := by
      rw [prawAll_keys_of_present _ _ hallp]
      rw [praw_keys]
      rw [hnone]
      rfl
    have hjnotmem : mkKey st.propName j ∉ st.entries.map Prod.fst := by
      intro hmem
      have := pfind_mem_keys _ _ hmem
      rw [hnone] at this
      cases this
    have hndU : ((prawAll (praw st.entries (mkKey st.propName j) w0)
        ((mkKey st.propName j, w0) :: T)).map Prod.fst).Nodup := by
      rw [hkeysU]
      simp [List.nodup_append, hnd, hjnotmem]
    have hcnt1 : 1 ≤ st.keyGenCount := by omega
    have hUtop : (pfind (prawAll (praw st.entries (mkKey st.propName j) w0)
        ((mkKey st.propName j, w0) :: T))
        (mkKey st.propName st.keyGenCount)).isSome = true := by
      rw [pfind_isSome_prawAll]
      rw [hfind1]
      rw [hpresent st.keyGenCount hcnt1 le_rfl (by omega)]
      rfl
    obtain ⟨w1, hw1⟩ := Option.isSome_iff_exists.mp hUtop
    obtain ⟨entsW, hdel⟩ := pdel_some _ _ _ hw1
    have hrun : shiftLeft st j = .ok { st with entries := entsW } := by
      unfold shiftLeft
      rw [if_pos hcase]
      dsimp only []
      rw [if_pos hall]
      rw [hpairs]
      simp only []
      rw [hv0]
      rw [setItem_gen_key_ok st j w0 hw hoi hj1 (Nat.le_of_lt hcase) hw0allowed]
      simp only []
      rw [if_pos hall2]
      rw [hdel]
    have hlenU : (prawAll (praw st.entries (mkKey st.propName j) w0)
        ((mkKey st.propName j, w0) :: T)).length = st.entries.length + 1 := by
      rw [prawAll_length_of_present _ _ hallp]
      rw [praw_append_of_absent _ _ _ hnone]
      simp
    have hlen := pdel_length _ _ _ hdel
    refine ⟨{ st with entries := entsW }, hrun, rfl, hw, hoi, rfl, ?_, ?_, ?_, ?_⟩
    · show entsW.length = st.entries.length
      omega
    · show (entsW.map Prod.fst).Nodup
      rw [pdel_keys _ _ _ hdel]
      exact hndU.erase _
    · -- type safety of the shifted collection
      intro kv hkv
      have hkv1 := pdel_mem _ _ _ hdel kv hkv
      rcases prawAll_mem _ _ _ hkv1 with h1 | h1
      · rcases praw_mem _ _ _ _ h1 with h2 | h2
        · exact hT _ h2
        · rw [h2]; exact hw0allowed
      · rcases List.mem_cons.mp h1 with rfl | h2
        · exact hw0allowed
        · obtain ⟨a, ha, rfl⟩ := hmemT kv h2
          have hsome := hpresent (j + (a + 1) + 1) (by omega) (by omega) (by omega)
          obtain ⟨w2, hw2⟩ := Option.isSome_iff_exists.mp hsome
          show allowedValue st.propName
            ((pfind st.entries (mkKey st.propName (j + (a + 1) + 1))).getD
              PVal.noneVal) = true
          rw [hw2]
          exact hT _ (pfind_some_mem _ _ _ hw2)
    · -- the remaining keys are exactly 1 … count−1
      intro kk
      have h1 := pfind_isSome_pdel _ (mkKey st.propName st.keyGenCount) kk _ hndU hdel
      have h2 := pfind_isSome_prawAll ((mkKey st.propName j, w0) :: T)
        (praw st.entries (mkKey st.propName j) w0) kk
      constructor
      · intro hs
        rw [h1, Bool.and_eq_true] at hs
        obtain ⟨hupd, hne⟩ := hs
        have hnotn : kk ≠ mkKey st.propName st.keyGenCount := by
          intro hc
          rw [decide_eq_true hc] at hne
          cases hne
        rw [h2, Bool.or_eq_true] at hupd
        rcases hupd with hupd | hmem
        · rw [hfind1, Bool.or_eq_true] at hupd
          rcases hupd with hL | hj
          · obtain ⟨jj, g1, g2, g3, rfl⟩ := (hkeys kk).mp hL
            refine ⟨jj, g1, ?_, rfl⟩
            have : jj ≠ st.keyGenCount := fun hc =>
              hnotn (by rw [hc])
            omega
          · have hkkj : kk = mkKey st.propName j := of_decide_eq_true hj
            exact ⟨j, hj1, by omega, hkkj⟩
        · have hmem2 : kk ∈ ((mkKey st.propName j, w0) :: T).map Prod.fst :=
            of_decide_eq_true hmem
          simp only [List.map_cons, List.mem_cons] at hmem2
          rcases hmem2 with rfl | hmem2
          · exact ⟨j, hj1, by omega, rfl⟩
          · obtain ⟨a, ha, rfl⟩ := (hkeysT kk).mp hmem2
            exact ⟨j + (a + 1), by omega, by omega, rfl⟩
      · rintro ⟨jj, g1, g2, rfl⟩
        rw [h1, Bool.and_eq_true]
        constructor
        · rw [h2, Bool.or_eq_true]
          left
          rw [hfind1, Bool.or_eq_true]
          by_cases hjj : jj = j
          · right
            subst hjj
            exact decide_eq_true rfl
          · left
            exact hpresent jj g1 (by omega) hjj
        · rw [decide_eq_false (fun hc : mkKey st.propName jj
            = mkKey st.propName st.keyGenCount => by
              have := mkKey_inj _ _ _ hc
              omega)]
          rfl
  · -- j equals the counter: nothing to shift
    refine ⟨st, ?_, rfl, hw, hoi, rfl, rfl, hnd, hT, ?_⟩
    · unfold shiftLeft
      rw [if_neg hcase]
    · intro kk
      rw [hkeys kk]
      constructor
      · rintro ⟨jj, h1, h2, h3, rfl⟩
        exact ⟨jj, h1, by omega, rfl⟩
      · rintro ⟨jj, h1, h2, rfl⟩
        exact ⟨jj, h1, by omega, by omega, rfl⟩

/-- `pop` on a compacted, type-safe unordered collection: the counter is
decremented and the surviving keys are re-compacted to `1 … count−1`, so the
collection stays compacted and type-safe. -/
theorem popProp_compact (st : CompProp) (k : String) (v : PVal) (st' : CompProp)
    (hC : Compact st) (hT : TypeSafe st) (h : popProp st k = .ok (v, st')) :
    Compact st' ∧ TypeSafe st' ∧ st'.propName = st.propName ∧
    st'.keyGenCount + 1 = st.keyGenCount := by
  obtain ⟨hoi, hwm, hcnt, hnd, hchar⟩ := hC
  unfold popProp at h
  dsimp only [] at h
  cases hf : pfind st.entries k with
  | none =>
    rw [hf] at h
    simp only [] at h
    exact Except.noConfusion h
  | some v2 =>
    rw [hf] at h
    simp only [] at h
    obtain ⟨j, hjj1, hjj2, hkk⟩ := (hchar k).mp (by rw [hf]; rfl)
    subst hkk
    obtain ⟨ents, hpdel⟩ := pdel_some st.entries (mkKey st.propName j) v2 hf
    have hlen0 := pdel_length _ _ _ hpdel
    have hndE : (ents.map Prod.fst).Nodup := by
      rw [pdel_keys _ _ _ hpdel]
      exact hnd.erase _
    obtain ⟨stS, hrunS, hprop, hwS, hoiS, hcntS, hlenS, hndS, hTS, hcharS⟩ :=
      shiftLeft_ok_keys
        { st with withinMethod := true, entries := ents, keyGenCount := st.keyGenCount - 1 }
        j rfl hoi
        (fun kv hkv => hT kv (pdel_mem _ _ _ hpdel kv hkv)) hndE hjj1
        (by show j ≤ st.keyGenCount - 1; omega)
        (by
          intro kk
          have h1 := pfind_isSome_pdel st.entries (mkKey st.propName j) kk ents
            hnd hpdel
          show (pfind ents kk).isSome = true ↔ _
          constructor
          · intro hs
            rw [h1, Bool.and_eq_true] at hs
            obtain ⟨ha, hb⟩ := hs
            obtain ⟨jj, g1, g2, rfl⟩ := (hchar kk).mp ha
            refine ⟨jj, g1, ?_, ?_, rfl⟩
            · show jj ≤ st.keyGenCount - 1
              omega
            · intro hjeq
              subst hjeq
              rw [decide_eq_true (rfl : mkKey st.propName jj
                = mkKey st.propName jj)] at hb
              cases hb
          · rintro ⟨jj, g1, g2, g3, rfl⟩
            have g2a : jj ≤ st.keyGenCount - 1 := g2
            rw [h1, Bool.and_eq_true]
            refine ⟨(hchar _).mpr ⟨jj, g1, by omega, rfl⟩, ?_⟩
            rw [decide_eq_false (fun hc : mkKey st.propName jj
              = mkKey st.propName j => g3 (mkKey_inj _ _ _ hc))]
            rfl)
    have hdelrun : delItem { st with withinMethod := true }
        (mkKey st.propName j) = shiftLeft
        { st with withinMethod := true, entries := ents, keyGenCount := st.keyGenCount - 1 }
        j := by
      unfold delItem
      rw [if_pos (rfl : ({ st with withinMethod := true } : CompProp).withinMethod
        = true)]
      rw [if_pos (hoi : ({ st with withinMethod := true } : CompProp).isOrderInvariant
        = true)]
      rw [if_pos (matchesGenFormat_mkKey st.propName j hjj1 :
        matchesGenFormat ({ st with withinMethod := true } : CompProp).propName
          (mkKey st.propName j) = true)]
      dsimp only []
      rw [hpdel]
      simp only []
      rw [keyTailIndex_mkKey]
    rw [hdelrun, hrunS] at h
    simp only [] at h
    injection h with h12
    injection h12 with h1 h2
    subst h2
    have e1 : stS.entries.length = ents.length := hlenS
    have e2 : stS.keyGenCount = st.keyGenCount - 1 := hcntS
    have e3 : stS.propName = st.propName := hprop
    refine ⟨⟨hoiS, rfl, ?_, hndS, ?_⟩, ?_, e3, ?_⟩
    · show stS.keyGenCount = stS.entries.length + 1
      omega
    · intro kk
      show (pfind stS.entries kk).isSome = true ↔
        ∃ jj, 1 ≤ jj ∧ jj ≤ stS.entries.length ∧ kk = mkKey stS.propName jj
      rw [hcharS kk]
      constructor
      · rintro ⟨jj, g1, g2, rfl⟩
        refine ⟨jj, g1, by omega, ?_⟩
        rw [e3]
      · rintro ⟨jj, g1, g2, hkk⟩
        rw [e3] at hkk
        exact ⟨jj, g1, by omega, hkk⟩
    · exact fun kv hkv => hTS kv hkv
    · show stS.keyGenCount + 1 = st.keyGenCount
      omega

/-- `add` of one value on a compacted collection: the value goes in under the
next generated key and the counter advances, so compaction is preserved. -/
theorem addProp_compact (st : CompProp) (v : PVal) (st' : CompProp)
    (hC : Compact st) (h : addProp st [v] [] = .ok st') :
    Compact st' ∧ (TypeSafe st → TypeSafe st') ∧ st'.propName = st.propName ∧
    st'.keyGenCount = st.keyGenCount + 1 := by
  have hfresh := compact_fresh_keys st hC
  obtain ⟨hoi, hwm, hcnt, hnd, hchar⟩ := hC
  by_cases hv : allowedValue st.propName v = true
  · have hloop := addValsLoop_ok [v] { st with withinMethod := true } rfl hoi
      (by show 1 ≤ st.keyGenCount; omega)
      (fun w hw => by rw [List.mem_singleton] at hw; rw [hw]; exact hv)
      (fun j => hfresh j)
    unfold addProp at h
    dsimp only [] at h
    rw [if_pos (hoi : ({ st with withinMethod := true } : CompProp).isOrderInvariant
      = true)] at h
    rw [hloop] at h
    simp only [] at h
    injection h with h2
    subst h2
    have hone : (List.range [v].length).map (fun j =>
        (mkKey ({ st with withinMethod := true } : CompProp).propName
          (({ st with withinMethod := true } : CompProp).keyGenCount + j),
         [v].getD j PVal.noneVal)) = [(mkKey st.propName st.keyGenCount, v)] := rfl
    have hnewfresh : pfind st.entries (mkKey st.propName st.keyGenCount)
        = none := by
      have := hfresh 0
      rwa [Nat.add_zero] at this
    have hkeynotmem : mkKey st.propName st.keyGenCount ∉ st.entries.map Prod.fst := by
      intro hmem
      have := pfind_mem_keys _ _ hmem
      rw [hnewfresh] at this
      cases this
    have hlenE : (praw st.entries (mkKey st.propName st.keyGenCount) v).length
        = st.entries.length + 1 := by
      rw [praw_append_of_absent _ _ _ hnewfresh]
      simp
    refine ⟨⟨hoi, rfl, ?_, ?_, ?_⟩, ?_, rfl, rfl⟩
    · show st.keyGenCount + [v].length =
        (st.entries ++ (List.range [v].length).map _).length + 1
      rw [hone]
      simp
      omega
    · show ((st.entries ++ (List.range [v].length).map _).map Prod.fst).Nodup
      rw [hone]
      simp [List.nodup_append, hnd, hkeynotmem]
    · intro kk
      show (pfind (st.entries ++ (List.range [v].length).map _) kk).isSome
          = true ↔ _
      rw [hone]
      rw [← praw_append_of_absent _ _ _ hnewfresh]
      rw [pfind_isSome_praw]
      rw [Bool.or_eq_true]
      constructor
      · intro hs
        rcases hs with hs | hs
        · obtain ⟨jj, g1, g2, rfl⟩ := (hchar kk).mp hs
          refine ⟨jj, g1, ?_, rfl⟩
          show jj ≤ (praw st.entries (mkKey st.propName st.keyGenCount) v).length
          omega
        · have : kk = mkKey st.propName st.keyGenCount := of_decide_eq_true hs
          refine ⟨st.keyGenCount, by omega, ?_, this⟩
          show st.keyGenCount
            ≤ (praw st.entries (mkKey st.propName st.keyGenCount) v).length
          omega
      · rintro ⟨jj, g1, g2, rfl⟩
        have g2a : jj ≤ st.entries.length + 1 := by
          have g2b : jj
              ≤ (praw st.entries (mkKey st.propName st.keyGenCount) v).length := g2
          omega
        by_cases hj : jj = st.keyGenCount
        · right
          subst hj
          exact decide_eq_true rfl
        · left
          exact (hchar _).mpr ⟨jj, g1, by omega, rfl⟩
    · intro hT kv hkv
      show allowedValue st.propName kv.2 = true
      have : kv ∈ st.entries ++ [(mkKey st.propName st.keyGenCount, v)] := by
        have h2 := hkv
        rw [show ((st.entries ++ (List.range [v].length).map (fun j =>
          (mkKey ({ st with withinMethod := true } : CompProp).propName
            (({ st with withinMethod := true } : CompProp).keyGenCount + j),
           [v].getD j PVal.noneVal)))) = st.entries
            ++ [(mkKey st.propName st.keyGenCount, v)] from by rw [hone]] at h2
        exact h2
      rcases List.mem_append.mp this with h2 | h2
      · exact hT kv h2
      · rw [List.mem_singleton] at h2
        rw [h2]
        exact hv
  · exfalso
    have hv' : allowedValue st.propName v = false := by
      cases hb : allowedValue st.propName v
      · rfl
      · exact absurd hb hv
    have hbad := addValsLoop_head_bad { st with withinMethod := true } v [] rfl hv'
    rw [addProp_err_of_loop st [v] [] _ hoi hbad] at h
    cases h

theorem applyOp_compact_addDel (st : CompProp) (op : COp) (st' : CompProp)
    (hC : Compact st) (hT : TypeSafe st)
    (hop : (∃ v, op = COp.add v) ∨ (∃ k, op = COp.del k))
    (h : applyOp st op = .ok st') : Compact st' ∧ TypeSafe st' := by
  rcases hop with ⟨v, rfl⟩ | ⟨k, rfl⟩
  · obtain ⟨h1, h2, _, _⟩ := addProp_compact st v st' hC h
    exact ⟨h1, h2 hT⟩
  · have hd : applyOp st (.del k) =
        match popProp st k with
        | .ok (_, st1) => .ok st1
        | .error e => .error e := rfl
    rw [hd] at h
    cases hp : popProp st k with
    | error e => simp only [hp] at h; cases h
    | ok p =>
      simp only [hp] at h
      injection h with h2
      subst h2
      obtain ⟨c1, c2, _, _⟩ := popProp_compact st k p.1 p.2 hC hT (by rw [hp])
      exact ⟨c1, c2⟩

theorem applyOps_compact_addDel (ops : List COp) : ∀ (st st' : CompProp),
    Compact st → TypeSafe st →
    (∀ op ∈ ops, (∃ v, op = COp.add v) ∨ (∃ k, op = COp.del k)) →
    applyOps st ops = .ok st' → Compact st' ∧ TypeSafe st' := by
  induction ops with
  | nil =>
    intro st st' hC hT _ h
    injection h with h2
    exact h2 ▸ ⟨hC, hT⟩
  | cons op rest ih =>
    intro st st' hC hT hops h
    conv_lhs at h => rw [applyOps]
    cases hop : applyOp st op with
    | error e => simp only [hop] at h; cases h
    | ok st1 =>
      simp only [hop] at h
      obtain ⟨c1, c2⟩ := applyOp_compact_addDel st op st1 hC hT
        (hops op (by simp)) hop
      exact ih st1 st' c1 c2 (fun o ho => hops o (by simp [ho])) h

/-- C7: for every finite sequence of `add` (one value) and `delete` (through
`pop`) operations on a compacted, type-safe unordered collection, any state
they reach is still compacted: the remaining generated keys are exactly the
contiguous range `1 … count` of the entry count, with no gaps, and the
generation counter sits one past that count (so the next `add` reuses the
first free index rather than skipping one). -/
theorem compaction_invariant (st : CompProp) (ops : List COp) (st' : CompProp)
    (hC : Compact st) (hT : TypeSafe st)
    (hops : ∀ op ∈ ops, (∃ v, op = COp.add v) ∨ (∃ k, op = COp.del k))
    (h : applyOps st ops = .ok st') :
    Compact st' ∧ st'.keyGenCount = st'.entries.length + 1 ∧
    (∀ k, (pfind st'.entries k).isSome = true ↔
      ∃ j, 1 ≤ j ∧ j ≤ st'.entries.length ∧ k = mkKey st'.propName j) := by
  obtain ⟨c1, _⟩ := applyOps_compact_addDel ops st st' hC hT hops h
  exact ⟨c1, c1.2.2.1, c1.2.2.2.2⟩

/-- Witness for C7 at the claim's example: three `add`s to an empty inputs
collection (keys `inputs_1 inputs_2 inputs_3`), then deleting `inputs_2`,
leaves `inputs_1` unchanged, moves the old `inputs_3` value into `inputs_2`,
and puts the counter at `3`, so the next `add` generates `inputs_3` again,
not `inputs_4`; the resulting collection is compacted. -/
theorem compaction_invariant_witness :
    applyOps (mkInvariantProp "inputs")
      [COp.add (PVal.compRef 1), COp.add (PVal.compRef 2),
       COp.add (PVal.compRef 3), COp.del (mkKey "inputs" 2)] = .ok
      { propName := "inputs", entries := [(mkKey "inputs" 1, PVal.compRef 1), (mkKey "inputs" 2, PVal.compRef 3)], withinMethod := false, keyGenCount := 3, isOrderInvariant := true } ∧
    Compact { propName := "inputs", entries := [(mkKey "inputs" 1, PVal.compRef 1), (mkKey "inputs" 2, PVal.compRef 3)], withinMethod := false, keyGenCount := 3, isOrderInvariant := true } ∧
    applyOp { propName := "inputs", entries := [(mkKey "inputs" 1, PVal.compRef 1), (mkKey "inputs" 2, PVal.compRef 3)], withinMethod := false, keyGenCount := 3, isOrderInvariant := true }
      (COp.add (PVal.compRef 4)) = .ok
      { propName := "inputs", entries := [(mkKey "inputs" 1, PVal.compRef 1), (mkKey "inputs" 2, PVal.compRef 3), (mkKey "inputs" 3, PVal.compRef 4)], withinMethod := false, keyGenCount := 4, isOrderInvariant := true } := by
  refine ⟨rfl, ?_, rfl⟩
  exact (compaction_invariant (mkInvariantProp "inputs")
    [COp.add (PVal.compRef 1), COp.add (PVal.compRef 2),
     COp.add (PVal.compRef 3), COp.del (mkKey "inputs" 2)]
    { propName := "inputs", entries := [(mkKey "inputs" 1, PVal.compRef 1), (mkKey "inputs" 2, PVal.compRef 3)], withinMethod := false, keyGenCount := 3, isOrderInvariant := true }
    (compact_mkInvariantProp "inputs")
    (fun kv hkv => absurd hkv (by simp [mkInvariantProp]))
    (by
      intro op hop
      simp only [List.mem_cons, List.not_mem_nil, or_false] at hop
      rcases hop with rfl | rfl | rfl | rfl
      · exact Or.inl ⟨_, rfl⟩
      · exact Or.inl ⟨_, rfl⟩
      · exact Or.inl ⟨_, rfl⟩
      · exact Or.inr ⟨_, rfl⟩)
    rfl).1

/-! ## Registry toolkit -/

theorem rlookup_nil (k : String) : rlookup [] k = none := rfl

theorem rlookup_cons (p : String × ℕ) (rest : Registry) (k : String) :
    rlookup (p :: rest) k = if p.1 = k then some p.2 else rlookup rest k := by
  by_cases h : p.1 = k
  · simp [rlookup, List.find?_cons_of_pos, h]
  · simp [rlookup, List.find?_cons_of_neg, h]

theorem rcontains_eq_isSome (reg : Registry) (k : String) :
    rcontains reg k = (rlookup reg k).isSome := by
  induction reg with
  | nil => rfl
  | cons p rest ih =>
    rw [rlookup_cons]
    by_cases h : p.1 = k
    · simp [rcontains, h]
    · simp only [rcontains, List.any_cons] at *
      simp [h, ih]

theorem rget_eq_zero_of_not_contains (reg : Registry) (k : String)
    (h : rcontains reg k = false) : rget reg k = 0 := by
  rw [rcontains_eq_isSome] at h
  unfold rget
  cases hl : rlookup reg k with
  | none => rfl
  | some v => rw [hl] at h; cases h

theorem rlookup_rinsert_self (reg : Registry) (k : String) (v : ℕ) :
    rlookup (rinsert reg k v) k = some v := by
  induction reg with
  | nil => simp [rinsert, rlookup_cons]
  | cons p rest ih =>
    by_cases h : p.1 = k
    · simp [rinsert, h, rlookup_cons]
    · simp [rinsert, h, rlookup_cons, ih]

theorem rlookup_rinsert_ne (reg : Registry) (k m : String) (v : ℕ)
    (h : m ≠ k) : rlookup (rinsert reg k v) m = rlookup reg m := by
  induction reg with
  | nil => simp [rinsert, rlookup_cons, rlookup_nil, Ne.symm h]
  | cons p rest ih =>
    by_cases hp : p.1 = k
    · subst hp
      simp [rinsert, rlookup_cons, Ne.symm h, h]
    · simp [rinsert, hp, rlookup_cons, ih]

theorem rget_rinsert_self (reg : Registry) (k : String) (v : ℕ) :
    rget (rinsert reg k v) k = v := by
  unfold rget
  rw [rlookup_rinsert_self]
  rfl

theorem rget_rinsert_ne (reg : Registry) (k m : String) (v : ℕ) (h : m ≠ k) :
    rget (rinsert reg k v) m = rget reg m := by
  unfold rget
  rw [rlookup_rinsert_ne _ _ _ _ h]

theorem rinsert_keys (reg : Registry) (k : String) (v : ℕ) :
    (rinsert reg k v).map Prod.fst =
      if rcontains reg k then reg.map Prod.fst else reg.map Prod.fst ++ [k] := by
  induction reg with
  | nil => simp [rinsert, rcontains]
  | cons p rest ih =>
    by_cases h : p.1 = k
    · simp [rinsert, h, rcontains]
    · simp only [rinsert, if_neg h, List.map_cons, ih]
      simp only [rcontains, List.any_cons] at *
      by_cases h2 : rcontains rest k
      · simp only [rcontains] at h2
        simp [h, h2]
      · simp only [rcontains] at h2
        simp [h, h2]

theorem rlookup_not_mem (reg : Registry) (k : String)
    (h : k ∉ reg.map Prod.fst) : rlookup reg k = none := by
  induction reg with
  | nil => rfl
  | cons p rest ih =>
    simp only [List.map_cons, List.mem_cons, not_or] at h
    rw [rlookup_cons, if_neg (fun hc => h.1 hc.symm)]
    exact ih h.2

theorem rlookup_rerase_self (reg : Registry) (k : String)
    (hnd : (reg.map Prod.fst).Nodup) : rlookup (rerase reg k) k = none := by
  induction reg with
  | nil => rfl
  | cons p rest ih =>
    simp only [List.map_cons, List.nodup_cons] at hnd
    by_cases h : p.1 = k
    · simp only [rerase, if_pos h]
      subst h
      exact rlookup_not_mem _ _ hnd.1
    · simp only [rerase, if_neg h]
      rw [rlookup_cons, if_neg h]
      exact ih hnd.2

theorem rlookup_rerase_ne (reg : Registry) (k m : String) (h : m ≠ k) :
    rlookup (rerase reg k) m = rlookup reg m := by
  induction reg with
  | nil => rfl
  | cons p rest ih =>
    by_cases hp : p.1 = k
    · simp only [rerase, if_pos hp]
      rw [rlookup_cons, if_neg (by rw [hp]; exact Ne.symm h)]
    · simp only [rerase, if_neg hp]
      rw [rlookup_cons, rlookup_cons, ih]

theorem rerase_keys (reg : Registry) (k : String) :
    (rerase reg k).map Prod.fst = (reg.map Prod.fst).erase k := by
  induction reg with
  | nil => rfl
  | cons p rest ih =>
    by_cases h : p.1 = k
    · simp [rerase, h, List.erase_cons]
    · simp [rerase, h, List.erase_cons, ih]

theorem rerase_mem (reg : Registry) (k : String) (p : String × ℕ)
    (h : p ∈ rerase reg k) : p ∈ reg := by
  induction reg with
  | nil => cases h
  | cons q rest ih =>
    by_cases hq : q.1 = k
    · simp only [rerase, if_pos hq] at h
      exact List.mem_cons_of_mem _ h
    · simp only [rerase, if_neg hq] at h
      rcases List.mem_cons.mp h with h2 | h2
      · exact h2 ▸ List.mem_cons_self _ _
      · exact List.mem_cons_of_mem _ (ih h2)

theorem rinsert_mem (reg : Registry) (k : String) (v : ℕ) (p : String × ℕ)
    (h : p ∈ rinsert reg k v) : p ∈ reg ∨ p = (k, v) := by
  induction reg with
  | nil => simp [rinsert] at h; simp [h]
  | cons q rest ih =>
    by_cases hq : q.1 = k
    · simp only [rinsert, if_pos hq] at h
      rcases List.mem_cons.mp h with h2 | h2
      · right; exact h2
      · left; exact List.mem_cons_of_mem _ h2
    · simp only [rinsert, if_neg hq] at h
      rcases List.mem_cons.mp h with h2 | h2
      · left; exact h2 ▸ List.mem_cons_self _ _
      · rcases ih h2 with h3 | h3
        · left; exact List.mem_cons_of_mem _ h3
        · right; exact h3

theorem rlookup_mem_keys (reg : Registry) (k : String)
    (h : k ∈ reg.map Prod.fst) : (rlookup reg k).isSome = true := by
  induction reg with
  | nil => simp at h
  | cons p rest ih =>
    rw [rlookup_cons]
    by_cases hp : p.1 = k
    · rw [if_pos hp]; rfl
    · rw [if_neg hp]
      simp only [List.map_cons, List.mem_cons] at h
      rcases h with h | h
      · exact absurd h.symm hp
      · exact ih h

theorem regWf_rinsert (reg : Registry) (k : String) (v : ℕ)
    (hwf : RegWf reg) (hv : 1 ≤ v) : RegWf (rinsert reg k v) := by
  constructor
  · rw [rinsert_keys]
    by_cases h : rcontains reg k
    · rw [if_pos h]; exact hwf.1
    · rw [if_neg h]
      have : k ∉ reg.map Prod.fst := by
        intro hmem
        rw [rcontains_eq_isSome, rlookup_mem_keys reg k hmem] at h
        exact h rfl
      simp [List.nodup_append, hwf.1, this]
  · intro p hp
    rcases rinsert_mem _ _ _ _ hp with h2 | h2
    · exact hwf.2 p h2
    · rw [h2]; exact hv

theorem regWf_rerase (reg : Registry) (k : String) (hwf : RegWf reg) :
    RegWf (rerase reg k) := by
  constructor
  · rw [rerase_keys]
    exact hwf.1.erase _
  · exact fun p hp => hwf.2 p (rerase_mem _ _ _ hp)

theorem cnt_pos_of_contains (reg : Registry) (k : String)
    (hwf : RegWf reg) (hc : rcontains reg k = true) : 1 ≤ cnt reg k := by
  rw [rcontains_eq_isSome] at hc
  obtain ⟨v, hv⟩ := Option.isSome_iff_exists.mp hc
  obtain ⟨p, hp, hpv⟩ := Option.map_eq_some'.mp hv
  have hmem := List.mem_of_find?_eq_some hp
  have hge := hwf.2 p hmem
  show 1 ≤ rget reg k
  unfold rget rlookup
  rw [hp]
  simpa [hpv] using hge

theorem unregOne_cnt (reg : Registry) (k : String)
    (hwf : RegWf reg) (hc : rcontains reg k = true) :
    cnt (unregOne reg k) k = cnt reg k - 1 ∧
    (∀ m, m ≠ k → cnt (unregOne reg k) m = cnt reg m) ∧
    RegWf (unregOne reg k) := by
  have hpos := cnt_pos_of_contains reg k hwf hc
  unfold unregOne
  dsimp only []
  by_cases h1 : rget reg k = 1
  · rw [if_pos h1]
    refine ⟨?_, ?_, regWf_rerase reg k hwf⟩
    · show rget (rerase reg k) k = rget reg k - 1
      unfold rget
      rw [rlookup_rerase_self reg k hwf.1,
        show (rlookup reg k).getD 0 = 1 from h1]
      rfl
    · intro m hm
      show rget (rerase reg k) m = rget reg m
      unfold rget
      rw [rlookup_rerase_ne reg k m hm]
  · rw [if_neg h1]
    have h2 : 1 < rget reg k := by
      have hpos2 : 1 ≤ rget reg k := hpos
      have hne : rget reg k ≠ 1 := h1
      omega
    rw [if_pos h2]
    refine ⟨?_, ?_, regWf_rinsert reg k _ hwf (by omega)⟩
    · show rget (rinsert reg k (rget reg k - 1)) k = rget reg k - 1
      rw [rget_rinsert_self]
    · intro m hm
      show rget (rinsert reg k (rget reg k - 1)) m = rget reg m
      rw [rget_rinsert_ne _ _ _ _ hm]

/-- C6, counterexample: unregistering an indexed name whose basename is not a
registry key is a silent no-op, not a `NameError`.  `unregister_name("y_1")`
on an empty registry matches the generated-format branch, finds no `y`
entry, and returns with the registry unchanged; the claim's "otherwise the
operation fails with UnknownName" does not hold. -/
theorem unregister_silent_noop_counterexample :
    hasIndexedSuffix "y_1" = true ∧
    rcontains ([] : Registry) "y_1" = false ∧
    rcontains ([] : Registry) (getNameAttrs "y_1").1 = false ∧
    unregisterName ([] : Registry) "y_1" = .ok [] :=
  ⟨rfl, rfl, rfl, rfl⟩

/-- C6, amended: `unregister_name` has four cases, not three.  An explicit
key is decremented (the entry is erased when its count is 1); a
non-explicit name in the generated format whose basename is an explicit key
decrements the basename; a non-explicit name in the generated format whose
basename is not a key is silently ignored (the registry is returned
unchanged, with no error); only a name without an indexed suffix that is not
a key raises `NameError`. -/
theorem unregister_cases (reg : Registry) (name : String) (hwf : RegWf reg) :
    (rcontains reg name = true →
      unregisterName reg name = .ok (unregOne reg name) ∧
      cnt (unregOne reg name) name = cnt reg name - 1 ∧
      (∀ m, m ≠ name → cnt (unregOne reg name) m = cnt reg m)) ∧
    (rcontains reg name = false → hasIndexedSuffix name = true →
      rcontains reg (getNameAttrs name).1 = true →
      unregisterName reg name = .ok (unregOne reg (getNameAttrs name).1) ∧
      cnt (unregOne reg (getNameAttrs name).1) (getNameAttrs name).1
        = cnt reg (getNameAttrs name).1 - 1) ∧
    (rcontains reg name = false → hasIndexedSuffix name = true →
      rcontains reg (getNameAttrs name).1 = false →
      unregisterName reg name = .ok reg) ∧
    (rcontains reg name = false → hasIndexedSuffix name = false →
      unregisterName reg name = .error RegErr.unknownName) := by
  refine ⟨?_, ?_, ?_, ?_⟩
  · intro hc
    obtain ⟨c1, c2, _⟩ := unregOne_cnt reg name hwf hc
    refine ⟨?_, c1, c2⟩
    unfold unregisterName
    rw [if_pos hc]
  · intro hc hsuf hb
    obtain ⟨c1, _, _⟩ := unregOne_cnt reg (getNameAttrs name).1 hwf hb
    refine ⟨?_, c1⟩
    unfold unregisterName
    rw [if_neg (by rw [hc]; exact Bool.false_ne_true), if_pos hsuf]
    dsimp only []
    rw [if_pos hb]
  · intro hc hsuf hb
    unfold unregisterName
    rw [if_neg (by rw [hc]; exact Bool.false_ne_true), if_pos hsuf]
    dsimp only []
    rw [if_neg (by rw [hb]; exact Bool.false_ne_true)]
  · intro hc hsuf
    unfold unregisterName
    rw [if_neg (by rw [hc]; exact Bool.false_ne_true),
      if_neg (by rw [hsuf]; exact Bool.false_ne_true)]

/-- Witness for the amended C6: decrementing the explicit key `x` with
count 2 yields count 1. -/
theorem unregister_cases_witness :
    unregisterName [("x", 2)] "x" = .ok [("x", 1)] ∧
    cnt [("x", 1)] "x" = cnt [("x", 2)] "x" - 1 := by
  have h := (unregister_cases [("x", 2)] "x"
    ⟨by decide, by decide⟩).1 rfl
  refine ⟨?_, by decide⟩
  rw [h.1]
  rfl

theorem registerName_fresh (fuel : ℕ) (reg : Registry) (name : String)
    (h : rcontains reg name = false) :
    registerName fuel reg name = .ok (name, rinsert reg name 1) := by
  unfold registerName
  rw [if_neg (by rw [h]; exact Bool.false_ne_true)]

theorem registerName_no_collision (fuel : ℕ) (reg : Registry) (name : String)
    (hc : rcontains reg name = true)
    (hnc : rcontains (rinsert reg name (rget reg name + 1)) (genOf reg name)
      = false) :
    registerName (fuel + 1) reg name =
      .ok (genOf reg name, rinsert reg name (rget reg name + 1)) := by
  unfold registerName
  rw [if_pos hc]
  conv_lhs => rw [registerLoop]
  rw [if_neg (by
    rw [show rcontains (rinsert reg name (rget reg name + 1))
      (name ++ "_" ++ natStr (rget reg name)) = false from hnc]
    exact Bool.false_ne_true)]
  rfl

theorem registerName_collision_step (fuel : ℕ) (reg : Registry) (name : String)
    (hc : rcontains reg name = true)
    (hcol : rcontains (rinsert reg name (rget reg name + 1)) (genOf reg name)
      = true) :
    registerName (fuel + 1) reg name = registerLoop fuel
      (unregOne (rinsert reg name (rget reg name + 1)) (genOf reg name))
      name := by
  unfold registerName
  rw [if_pos hc]
  conv_lhs => rw [registerLoop]
  rw [if_pos (show rcontains (rinsert reg name (rget reg name + 1))
    (name ++ "_" ++ natStr (rget reg name)) = true from hcol)]
  rw [show unregisterName (rinsert reg name (rget reg name + 1))
      (name ++ "_" ++ natStr (rget reg name))
      = .ok (unregOne (rinsert reg name (rget reg name + 1))
        (name ++ "_" ++ natStr (rget reg name))) from by
    unfold unregisterName
    rw [if_pos (show rcontains (rinsert reg name (rget reg name + 1))
      (name ++ "_" ++ natStr (rget reg name)) = true from hcol)]]
  rfl

/-- C4, counterexample: in the collision branch `register_name` does not
return the generated name it collided on.  With registry
`{x: 1, x_1: 1}`, registering `x` first generates `x_1`, which collides
with the explicit `x_1` entry; the code unregisters that entry and then
*continues the loop*, returning `x_2` with the count bumped twice — not the
generated name `x_1` the claim describes. -/
theorem register_collision_counterexample :
    genOf [("x", 1), ("x_1", 1)] "x" = "x_1" ∧
    rcontains [("x", 1), ("x_1", 1)] "x" = true ∧
    registerName 3 [("x", 1), ("x_1", 1)] "x" = .ok ("x_2", [("x", 3)]) ∧
    ("x_2" : String) ≠ "x_1" :=
  ⟨rfl, rfl, rfl, by decide⟩

/-- C4, amended: `register_name` on a fresh basename stores count 1 and
returns the name unchanged; on an explicit key with current count `k` and no
collision it returns `name_k` with the count incremented; when `name_k`
collides with an existing explicit entry it unregisters that entry and
*re-enters the generation loop* on the updated registry (so the name finally
returned is a later `name_k'`, not `name_k`). -/
theorem register_cases (fuel : ℕ) (reg : Registry) (name : String) :
    (rcontains reg name = false →
      registerName fuel reg name = .ok (name, rinsert reg name 1) ∧
      cnt (rinsert reg name 1) name = 1) ∧
    (rcontains reg name = true →
      rcontains (rinsert reg name (rget reg name + 1)) (genOf reg name)
        = false →
      registerName (fuel + 1) reg name
        = .ok (genOf reg name, rinsert reg name (rget reg name + 1)) ∧
      cnt (rinsert reg name (rget reg name + 1)) name = cnt reg name + 1) ∧
    (rcontains reg name = true →
      rcontains (rinsert reg name (rget reg name + 1)) (genOf reg name)
        = true →
      registerName (fuel + 1) reg name = registerLoop fuel
        (unregOne (rinsert reg name (rget reg name + 1)) (genOf reg name))
        name) := by
  refine ⟨?_, ?_, ?_⟩
  · intro h
    exact ⟨registerName_fresh fuel reg name h, rget_rinsert_self reg name 1⟩
  · intro hc hnc
    exact ⟨registerName_no_collision fuel reg name hc hnc,
      rget_rinsert_self reg name _⟩
  · intro hc hcol
    exact registerName_collision_step fuel reg name hc hcol

/-- Witness for the amended C4 at a fresh name. -/
theorem register_cases_witness :
    registerName 1 ([] : Registry) "b" = .ok ("b", [("b", 1)]) ∧
    cnt [("b", 1)] "b" = 1 := by
  have h := (register_cases 1 ([] : Registry) "b").1 rfl
  exact ⟨h.1.trans rfl, h.2⟩

theorem rcontains_eq_mem (reg : Registry) (x : String) :
    rcontains reg x = decide (x ∈ reg.map Prod.fst) := by
  rw [rcontains_eq_isSome]
  by_cases h : x ∈ reg.map Prod.fst
  · rw [rlookup_mem_keys reg x h, decide_eq_true h]
  · rw [rlookup_not_mem reg x h, decide_eq_false h]
    rfl

theorem contains_of_cnt_pos (reg : Registry) (k : String)
    (h : 1 ≤ cnt reg k) : rcontains reg k = true := by
  rw [rcontains_eq_isSome]
  cases hl : rlookup reg k with
  | none =>
    exfalso
    have : cnt reg k = 0 := by
      show rget reg k = 0
      unfold rget
      rw [hl]
      rfl
    omega
  | some v => rfl

/-- Counts after registering a whole sequence, provided no call of the
sequence hits the collision branch: each name's count goes up by its number
of occurrences, and well-formedness is preserved. -/
theorem regAll_counts (names : List String) : ∀ (reg reg1 : Registry),
    RegWf reg → NoCollisionSeq names reg → regAll names reg = .ok reg1 →
    RegWf reg1 ∧ ∀ nm, cnt reg1 nm = cnt reg nm + occ names nm := by
  induction names with
  | nil =>
    intro reg reg1 hwf _ h
    injection h with h'
    subst h'
    exact ⟨hwf, fun nm => by simp [occ]⟩
  | cons nm rest ih =>
    intro reg reg1 hwf hnc h
    obtain ⟨hnc1, hnc2⟩ := hnc
    conv_lhs at h => rw [regAll]
    by_cases hc : rcontains reg nm = true
    · have hgen : rcontains (rinsert reg nm (rget reg nm + 1)) (genOf reg nm)
          = false := by
        rw [rcontains_eq_mem, rinsert_keys, if_pos hc, ← rcontains_eq_mem]
        exact hnc1 hc
      rw [registerName_no_collision reg.length reg nm hc hgen] at h
      simp only [] at h
      rw [if_pos hc] at hnc2
      obtain ⟨hwf1, hcnt1⟩ := ih (rinsert reg nm (rget reg nm + 1)) reg1
        (regWf_rinsert reg nm _ hwf (by omega)) hnc2 h
      refine ⟨hwf1, fun x => ?_⟩
      rw [hcnt1 x]
      by_cases hx : x = nm
      · subst hx
        have e1 : cnt (rinsert reg x (rget reg x + 1)) x = cnt reg x + 1 :=
          rget_rinsert_self reg x _
        have e2 : occ (x :: rest) x = occ rest x + 1 := by
          simp [occ, List.count_cons]
        omega
      · have e1 : cnt (rinsert reg nm (rget reg nm + 1)) x = cnt reg x :=
          rget_rinsert_ne reg nm x _ hx
        have e2 : occ (nm :: rest) x = occ rest x := by
          simp [occ, List.count_cons, hx]
        omega
    · have hc' : rcontains reg nm = false := by
        cases hb : rcontains reg nm
        · rfl
        · exact absurd hb hc
      rw [registerName_fresh (reg.length + 1) reg nm hc'] at h
      simp only [] at h
      rw [if_neg hc] at hnc2
      have hcnt0 : cnt reg nm = 0 := rget_eq_zero_of_not_contains reg nm hc'
      obtain ⟨hwf1, hcnt1⟩ := ih (rinsert reg nm 1) reg1
        (regWf_rinsert reg nm 1 hwf le_rfl) hnc2 h
      refine ⟨hwf1, fun x => ?_⟩
      rw [hcnt1 x]
      by_cases hx : x = nm
      · subst hx
        have e1 : cnt (rinsert reg x 1) x = 1 := rget_rinsert_self reg x 1
        have e2 : occ (x :: rest) x = occ rest x + 1 := by
          simp [occ, List.count_cons]
        omega
      · have e1 : cnt (rinsert reg nm 1) x = cnt reg x :=
          rget_rinsert_ne reg nm x 1 hx
        have e2 : occ (nm :: rest) x = occ rest x := by
          simp [occ, List.count_cons, hx]
        omega

/-- Counts after unregistering a whole sequence, provided each name occurs no
more often than its current count: every unregistration takes the explicit
branch and decrements, so each name's count goes down by its number of
occurrences. -/
theorem unregAll_counts (names : List String) : ∀ (reg : Registry),
    RegWf reg → (∀ nm, occ names nm ≤ cnt reg nm) →
    ∃ reg2, unregAll names reg = .ok reg2 ∧ RegWf reg2 ∧
      ∀ nm, cnt reg2 nm = cnt reg nm - occ names nm := by
  induction names with
  | nil =>
    intro reg hwf _
    exact ⟨reg, rfl, hwf, fun nm => by simp [occ]⟩
  | cons nm rest ih =>
    intro reg hwf hocc
    have hocc1 : occ (nm :: rest) nm = occ rest nm + 1 := by
      simp [occ, List.count_cons]
    have h1 : 1 ≤ cnt reg nm := by
      have := hocc nm
      omega
    have hc : rcontains reg nm = true := contains_of_cnt_pos reg nm h1
    obtain ⟨e1, e2, hwf1⟩ := unregOne_cnt reg nm hwf hc
    obtain ⟨reg2, h2, hwf2, hcnt2⟩ := ih (unregOne reg nm) hwf1
      (by
        intro x
        by_cases hx : x = nm
        · subst hx
          rw [e1]
          have := hocc x
          omega
        · rw [e2 x hx]
          have := hocc x
          have e3 : occ (nm :: rest) x = occ rest x := by
            simp [occ, List.count_cons, hx]
          omega)
    refine ⟨reg2, ?_, hwf2, ?_⟩
    · conv_lhs => rw [unregAll]
      rw [show unregisterName reg nm = .ok (unregOne reg nm) from by
        unfold unregisterName
        rw [if_pos hc]]
      exact h2
    · intro x
      rw [hcnt2 x]
      by_cases hx : x = nm
      · subst hx
        rw [e1]
        have := hocc x
        omega
      · rw [e2 x hx]
        have e3 : occ (nm :: rest) x = occ rest x := by
          simp [occ, List.count_cons, hx]
        omega

/-- C5, counterexample: the round trip does not restore the registry.  With
registry `{x: 1, x_1: 1}` and sequence `[x]`, registering `x` collides on
the generated `x_1`, unregisters the `x_1` entry and continues, leaving
`{x: 3}`; the subsequent unregistration of `x` leaves `{x: 2}` — the `x_1`
entry's count went from 1 to 0, and `x`'s from 1 to 2. -/
theorem roundtrip_counterexample :
    regAll ["x"] [("x", 1), ("x_1", 1)] = .ok [("x", 3)] ∧
    unregAll ["x"] [("x", 3)] = .ok [("x", 2)] ∧
    cnt [("x", 1), ("x_1", 1)] "x_1" = 1 ∧ cnt [("x", 2)] "x_1" = 0 ∧
    cnt [("x", 1), ("x_1", 1)] "x" = 1 ∧ cnt [("x", 2)] "x" = 2 :=
  ⟨rfl, rfl, rfl, rfl, rfl, rfl⟩

/-- C5, amended: on a well-formed registry, registering a finite name
sequence in order and then unregistering the same sequence restores every
name's registration count, provided no register call of the sequence hits
the collision branch (a collision unregisters an unrelated explicit entry
and skips an index, which is not reversed by the unregistrations). -/
theorem roundtrip_counts (names : List String) (reg reg1 : Registry)
    (hwf : RegWf reg) (hnc : NoCollisionSeq names reg)
    (hreg : regAll names reg = .ok reg1) :
    ∃ reg2, unregAll names reg1 = .ok reg2 ∧
      ∀ nm, cnt reg2 nm = cnt reg nm := by
  obtain ⟨hwf1, hcnt1⟩ := regAll_counts names reg reg1 hwf hnc hreg
  obtain ⟨reg2, h2, hwf2, hcnt2⟩ := unregAll_counts names reg1 hwf1
    (fun nm => by rw [hcnt1 nm]; omega)
  refine ⟨reg2, h2, fun nm => ?_⟩
  rw [hcnt2 nm, hcnt1 nm]
  omega

/-- Witness for the amended C5: registering `a` twice on the empty registry
gives `{a: 2}`; unregistering the same sequence empties the registry,
count-for-count. -/
theorem roundtrip_counts_witness :
    ∃ reg2, unregAll ["a", "a"] [("a", 2)] = .ok reg2 ∧
      ∀ nm, cnt reg2 nm = cnt ([] : Registry) nm := by
  refine roundtrip_counts ["a", "a"] [] [("a", 2)] ⟨by decide, by decide⟩
    ⟨fun _ => rfl, fun _ => rfl, trivial⟩ rfl

/-! ## Organizer toolkit: list facts -/

theorem take_succ_of_get? {α : Type} (l : List α) (i : ℕ) (x : α)
    (h : l.get? i = some x) : l.take (i + 1) = l.take i ++ [x] := by
  induction l generalizing i with
  | nil => simp at h
  | cons a rest ih =>
    cases i with
    | zero =>
      injection h with h'
      subst h'
      simp
    | succ i =>
      simp only [List.get?_cons_succ] at h
      simp [List.take_succ_cons, ih i h]

theorem take_of_get?_none {α : Type} (l : List α) (i : ℕ)
    (h : l.get? i = none) : l.take i = l := by
  rw [List.get?_eq_none] at h
  exact List.take_of_length_le h

theorem getD_set_self (l : List Bool) (i : ℕ) (b : Bool) (h : i < l.length) :
    (l.set i b).getD i false = b := by
  rw [List.getD_eq_getElem?_getD]
  rw [List.getElem?_set_self' ]
  simp [List.getElem?_eq_getElem h]

theorem getD_set_ne (l : List Bool) (i j : ℕ) (b : Bool) (h : j ≠ i) :
    (l.set i b).getD j false = l.getD j false := by
  rw [List.getD_eq_getElem?_getD, List.getD_eq_getElem?_getD]
  rw [List.getElem?_set_ne (fun hc => h hc.symm)]

theorem listGetD_set_self (ll : List (List ℕ)) (i : ℕ) (l : List ℕ)
    (h : i < ll.length) : (ll.set i l).getD i [] = l := by
  rw [List.getD_eq_getElem?_getD]
  rw [List.getElem?_set_self']
  simp [List.getElem?_eq_getElem h]

theorem listGetD_set_ne (ll : List (List ℕ)) (i j : ℕ) (l : List ℕ)
    (h : j ≠ i) : (ll.set i l).getD j [] = ll.getD j [] := by
  rw [List.getD_eq_getElem?_getD, List.getD_eq_getElem?_getD]
  rw [List.getElem?_set_ne (fun hc => h hc.symm)]

theorem count_erase_self_nat (l : List ℕ) (x : ℕ) (h : x ∈ l) :
    (l.erase x).count x + 1 = l.count x := by
  rw [List.count_erase_self]
  have := List.count_pos_iff_mem.mpr h
  omega

theorem count_erase_ne_nat (l : List ℕ) (x y : ℕ) (h : y ≠ x) :
    (l.erase x).count y = l.count y := by
  rw [List.count_erase_of_ne h]

theorem mem_of_count_pos_nat (l : List ℕ) (x : ℕ) (h : 1 ≤ l.count x) :
    x ∈ l := List.count_pos_iff_mem.mp h

theorem erase_append_last {α : Type} [DecidableEq α] (l : List α) (x : α)
    (h : x ∉ l) : (l ++ [x]).erase x = l := by
  induction l with
  | nil => simp
  | cons a rest ih =>
    simp only [List.mem_cons, not_or] at h
    rw [List.cons_append, List.erase_cons]
    rw [if_neg (fun hc => h.1 (eq_of_beq hc).symm)]
    rw [ih h.2]

theorem totalEdges_eq_sum (ll : List (List ℕ)) :
    (ll.map List.length).sum =
      ((List.range ll.length).map (fun c => (ll.getD c []).length)).sum := by
  induction ll with
  | nil => rfl
  | cons l rest ih =>
    simp only [List.map_cons, List.sum_cons, List.length_cons,
      List.range_succ_eq_map, List.map_map]
    rw [ih]
    rfl

theorem totalEdges_mono (st st' : OrgState)
    (hlen : st'.sysInputs.length = st.sysInputs.length)
    (hm : ∀ c, (inputsOf st' c).length ≤ (inputsOf st c).length) :
    totalEdges st' ≤ totalEdges st := by
  unfold totalEdges
  rw [totalEdges_eq_sum, totalEdges_eq_sum, hlen]
  refine List.sum_le_sum ?_
  intro c hc
  exact hm c

theorem orgPost_refl (df : List Bool) (n : ℕ) (st : OrgState)
    (hw : WfSt n st) (ht : TrailInv st) (ho : OrderedInv n st)
    (hd : DoneInv n st) : OrgPost df n st st where
  wf := hw
  tinv := ht
  oinv := ho
  dinv := hd
  mono := fun c h => h
  emono := fun c x => le_rfl
  dfpres := fun c x _ => rfl
  tshape := Or.inl rfl
  seve := fun c x h => absurd h (lt_irrefl _)
  chg := fun c h => absurd rfl h
  oext := ⟨[], (List.append_nil _).symm⟩
  slen := rfl
  lmono := fun c => le_rfl

theorem orgPost_trans (df : List Bool) (n : ℕ) (st st1 st2 : OrgState)
    (a : OrgPost df n st st1) (b : OrgPost df n st1 st2) :
    OrgPost df n st st2 where
  wf := b.wf
  tinv := b.tinv
  oinv := b.oinv
  dinv := b.dinv
  mono := fun c h => b.mono c (a.mono c h)
  emono := fun c x => le_trans (b.emono c x) (a.emono c x)
  dfpres := fun c x h => (b.dfpres c x h).trans (a.dfpres c x h)
  tshape := by
    have hE := totalEdges_mono st1 st2 b.slen b.lmono
    have hE0 := totalEdges_mono st st1 a.slen a.lmono
    rcases b.tshape with h2 | ⟨h2, h2e⟩
    · rcases a.tshape with h1 | ⟨h1, h1e⟩
      · exact Or.inl (h2.trans h1)
      · exact Or.inr ⟨h2.trans h1, by omega⟩
    · exact Or.inr ⟨h2, by omega⟩
  seve := by
    intro c x h
    by_cases h1 : edgeCnt st1 c x < edgeCnt st c x
    · obtain ⟨p1, p2⟩ := a.seve c x h1
      constructor
      · rcases p1 with p1 | p1
        · exact Or.inl (b.mono c p1)
        · exact Or.inr p1
      · rcases p2 with p2 | p2
        · exact Or.inl (b.mono x p2)
        · exact Or.inr p2
    · have heq : edgeCnt st1 c x = edgeCnt st c x := by
        have := a.emono c x
        omega
      have h2 : edgeCnt st2 c x < edgeCnt st1 c x := by omega
      obtain ⟨p1, p2⟩ := b.seve c x h2
      have htr : st1.trail = st.trail ∨ st1.trail = [] := by
        rcases a.tshape with h | ⟨h, _⟩
        · exact Or.inl h
        · exact Or.inr h
      constructor
      · rcases p1 with p1 | p1
        · exact Or.inl p1
        · rcases htr with htr | htr
          · exact Or.inr (htr ▸ p1)
          · rw [htr] at p1; cases p1
      · rcases p2 with p2 | p2
        · exact Or.inl p2
        · rcases htr with htr | htr
          · exact Or.inr (htr ▸ p2)
          · rw [htr] at p2; cases p2
  chg := by
    intro c h
    by_cases h2 : inputsOf st2 c = inputsOf st1 c
    · have h1 : inputsOf st1 c ≠ inputsOf st c := fun he => h (h2.trans he)
      exact b.mono c (a.chg c h1)
    · exact b.chg c h2
  oext := by
    obtain ⟨a1, ha1⟩ := a.oext
    obtain ⟨a2, ha2⟩ := b.oext
    exact ⟨a1 ++ a2, by rw [ha2, ha1, List.append_assoc]⟩
  slen := b.slen.trans a.slen
  lmono := fun c => le_trans (b.lmono c) (a.lmono c)

theorem findSome?_none_all {α β : Type} (f : α → Option β) (l : List α)
    (h : l.findSome? f = none) : ∀ x ∈ l, f x = none := by
  induction l with
  | nil => intro x hx; cases hx
  | cons a rest ih =>
    rw [List.findSome?_cons] at h
    intro x hx
    cases hfa : f a with
    | some b => rw [hfa] at h; cases h
    | none =>
      rw [hfa] at h
      rcases List.mem_cons.mp hx with rfl | hx
      · exact hfa
      · exact ih h x hx

theorem findSome?_some_ex {α β : Type} (f : α → Option β) (l : List α)
    (b : β) (h : l.findSome? f = some b) : ∃ x ∈ l, f x = some b := by
  induction l with
  | nil => cases h
  | cons a rest ih =>
    rw [List.findSome?_cons] at h
    cases hfa : f a with
    | some b2 =>
      rw [hfa] at h
      injection h with h'
      subst h'
      exact ⟨a, List.mem_cons_self _ _, hfa⟩
    | none =>
      rw [hfa] at h
      obtain ⟨x, hx, hfx⟩ := ih h
      exact ⟨x, List.mem_cons_of_mem _ hx, hfx⟩

theorem getD_drop (l : List ℕ) (k j : ℕ) :
    (l.drop k).getD j 0 = l.getD (k + j) 0 := by
  rw [List.getD_eq_getElem?_getD, List.getD_eq_getElem?_getD,
    List.getElem?_drop]

theorem get?_drop_nat (l : List ℕ) (k j : ℕ) :
    (l.drop k).get? j = l.get? (k + j) := by
  rw [List.get?_eq_getElem?, List.get?_eq_getElem?, List.getElem?_drop]

theorem sum_set_nat (l : List ℕ) : ∀ (i a : ℕ), i < l.length →
    (l.set i a).sum + l.getD i 0 = l.sum + a := by
  induction l with
  | nil => intro i a h; cases h
  | cons b rest ih =>
    intro i a h
    cases i with
    | zero =>
      simp only [List.set_cons_zero, List.sum_cons, List.getD_cons_zero]
      omega
    | succ i =>
      simp only [List.set_cons_succ, List.sum_cons, List.getD_cons_succ]
      have := ih i a (by simpa using Nat.lt_of_succ_lt_succ h)
      omega

theorem getD_map_length (ll : List (List ℕ)) (i : ℕ) :
    (ll.map List.length).getD i 0 = (ll.getD i []).length := by
  rw [List.getD_eq_getElem?_getD, List.getD_eq_getElem?_getD,
    List.getElem?_map]
  cases ll[i]? with
  | none => rfl
  | some l => rfl

theorem totalEdges_set (st : OrgState) (lc : ℕ) (l2 : List ℕ)
    (h : lc < st.sysInputs.length) :
    totalEdges { st with sysInputs := st.sysInputs.set lc l2, trail := [] }
      + (inputsOf st lc).length = totalEdges st + l2.length := by
  show ((st.sysInputs.set lc l2).map List.length).sum + _ = _
  rw [List.map_set]
  have hs := sum_set_nat (st.sysInputs.map List.length) lc l2.length
    (by simpa using h)
  rw [getD_map_length] at hs
  exact hs

theorem inputsOf_set_self (st : OrgState) (lc : ℕ) (l2 : List ℕ)
    (h : lc < st.sysInputs.length) :
    inputsOf { st with sysInputs := st.sysInputs.set lc l2, trail := [] } lc
      = l2 := by
  show (st.sysInputs.set lc l2).getD lc [] = l2
  exact listGetD_set_self _ _ _ h

theorem inputsOf_set_ne (st : OrgState) (lc c : ℕ) (l2 : List ℕ)
    (h : c ≠ lc) :
    inputsOf { st with sysInputs := st.sysInputs.set lc l2, trail := [] } c
      = inputsOf st c := by
  show (st.sysInputs.set lc l2).getD c [] = st.sysInputs.getD c []
  exact listGetD_set_ne _ _ _ _ h

theorem nodup_getD_inj (l : List ℕ) (hnd : l.Nodup) (a b : ℕ)
    (ha : a < l.length) (hb : b < l.length) (h : l.getD a 0 = l.getD b 0) :
    a = b := by
  rw [List.getD_eq_getElem?_getD, List.getElem?_eq_getElem ha,
    List.getD_eq_getElem?_getD, List.getElem?_eq_getElem hb] at h
  have h2 : l[a] = l[b] := h
  exact (List.Nodup.getElem_inj_iff hnd).mp h2

/-- `_sever_system_loop` from a trail hit: the trail segment from the
repeated component is scanned; if every member's successor is
direct-feedthrough the `Exception` is raised and the segment is an all-DF
cycle of the current edges; otherwise the first non-DF pair is an existing
edge inside the trail, it is removed, and the trail is cleared.  The
`list.remove` `ValueError` is unreachable. -/
theorem sever_char (df : List Bool) (st : OrgState) (ic comp : ℕ)
    (ht : TrailInv st) (hic : ic ∈ st.trail)
    (hlast : st.trail.getLast? = some comp)
    (hwrap : ic ∈ inputsOf st comp) :
    (severSystemLoop df st ic = .algebraicLoop →
      ∃ l, CycleSt st l ∧ (∀ m ∈ l, df.getD m true = true) ∧
        (∀ m ∈ l, m ∈ st.trail)) ∧
    severSystemLoop df st ic ≠ .removeMissing ∧
    (∀ st1, severSystemLoop df st ic = .ok st1 →
      ∃ lc lic, lc ∈ st.trail ∧ lic ∈ st.trail ∧
        df.getD lic true = false ∧ lic ∈ inputsOf st lc ∧
        st1 = { st with
                sysInputs := st.sysInputs.set lc ((inputsOf st lc).erase lic),
                trail := [] } ∧
        ReachUT st1 ic lc) := by
  have hk : st.trail.indexOf ic < st.trail.length :=
    List.indexOf_lt_length.mpr hic
  have hgetk : st.trail.getD (st.trail.indexOf ic) 0 = ic := by
    rw [List.getD_eq_getElem?_getD, List.getElem?_eq_getElem hk,
      List.getElem_indexOf hk]
    rfl
  have hlenL : 0 < (st.trail.drop (st.trail.indexOf ic)).length := by
    rw [List.length_drop]
    omega
  have hlenL2 : (st.trail.drop (st.trail.indexOf ic)).length
      = st.trail.length - st.trail.indexOf ic := List.length_drop _ _
  have hL0 : (st.trail.drop (st.trail.indexOf ic)).getD 0 0 = ic := by
    rw [getD_drop, Nat.add_zero, hgetk]
  have hmemL : ∀ j, j < (st.trail.drop (st.trail.indexOf ic)).length →
      (st.trail.drop (st.trail.indexOf ic)).getD j 0 ∈ st.trail := by
    intro j hj
    rw [List.getD_eq_getElem?_getD, List.getElem?_eq_getElem hj]
    exact List.drop_subset _ _ (List.getElem_mem _)
  have hpair : ∀ j, j + 1 < (st.trail.drop (st.trail.indexOf ic)).length →
      (st.trail.drop (st.trail.indexOf ic)).getD (j + 1) 0
        ∈ inputsOf st ((st.trail.drop (st.trail.indexOf ic)).getD j 0) := by
    intro j hj
    rw [getD_drop, getD_drop]
    rw [show st.trail.indexOf ic + (j + 1) = (st.trail.indexOf ic + j) + 1
      from by omega]
    refine ht.2.2 _ ?_
    omega
  have hlastD : (st.trail.drop (st.trail.indexOf ic)).getD
      ((st.trail.drop (st.trail.indexOf ic)).length - 1) 0 = comp := by
    rw [getD_drop]
    rw [List.getLast?_eq_getElem?] at hlast
    rw [List.getD_eq_getElem?_getD]
    rw [show st.trail.indexOf ic +
      ((st.trail.drop (st.trail.indexOf ic)).length - 1)
      = st.trail.length - 1 from by omega]
    rw [hlast]
    rfl
  have hLIA : ∀ j, j + 1 < (st.trail.drop (st.trail.indexOf ic)).length →
      loopInputAt (st.trail.drop (st.trail.indexOf ic)) j
        = (st.trail.drop (st.trail.indexOf ic)).getD (j + 1) 0 := by
    intro j hj
    unfold loopInputAt
    rw [List.get?_eq_getElem?, List.getElem?_eq_getElem hj]
    rw [List.getD_eq_getElem?_getD, List.getElem?_eq_getElem hj]
    rfl
  have hhead : (st.trail.drop (st.trail.indexOf ic)).headD 0
      = (st.trail.drop (st.trail.indexOf ic)).getD 0 0 := by
    cases hL : st.trail.drop (st.trail.indexOf ic) with
    | nil => rfl
    | cons a rest => rfl
  have hLIAlast : loopInputAt (st.trail.drop (st.trail.indexOf ic))
      ((st.trail.drop (st.trail.indexOf ic)).length - 1) = ic := by
    unfold loopInputAt
    rw [List.get?_eq_getElem?]
    rw [show (st.trail.drop (st.trail.indexOf ic)).length - 1 + 1
      = (st.trail.drop (st.trail.indexOf ic)).length from by omega]
    rw [List.getElem?_len_le le_rfl]
    show (st.trail.drop (st.trail.indexOf ic)).headD 0 = ic
    rw [hhead, hL0]
  have hedge : ∀ j, j < (st.trail.drop (st.trail.indexOf ic)).length →
      loopInputAt (st.trail.drop (st.trail.indexOf ic)) j
        ∈ inputsOf st ((st.trail.drop (st.trail.indexOf ic)).getD j 0) := by
    intro j hj
    by_cases hj2 : j + 1 < (st.trail.drop (st.trail.indexOf ic)).length
    · rw [hLIA j hj2]
      exact hpair j hj2
    · have hj3 : j = (st.trail.drop (st.trail.indexOf ic)).length - 1 := by
        omega
      subst hj3
      rw [hLIAlast, hlastD]
      exact hwrap
  have hmemLIA : ∀ j, j < (st.trail.drop (st.trail.indexOf ic)).length →
      loopInputAt (st.trail.drop (st.trail.indexOf ic)) j ∈ st.trail := by
    intro j hj
    by_cases hj2 : j + 1 < (st.trail.drop (st.trail.indexOf ic)).length
    · rw [hLIA j hj2]
      exact hmemL _ hj2
    · have hj3 : j = (st.trail.drop (st.trail.indexOf ic)).length - 1 := by
        omega
      subst hj3
      rw [hLIAlast]
      exact hic
  cases hfs : findSeverPair df (st.trail.drop (st.trail.indexOf ic)) with
  | none =>
    have hsev : severSystemLoop df st ic = .algebraicLoop := by
      unfold severSystemLoop
      dsimp only []
      rw [hfs]
    have hall := findSome?_none_all _ _ hfs
    refine ⟨?_, ?_, ?_⟩
    case _ =>
      intro _
      refine ⟨st.trail.drop (st.trail.indexOf ic), ⟨?_, ?_⟩, ?_, ?_⟩
      · intro hnil
        rw [hnil] at hlenL
        cases hlenL
      · intro j hj
        by_cases hj2 : j + 1 < (st.trail.drop (st.trail.indexOf ic)).length
        · rw [Nat.mod_eq_of_lt hj2]
          exact hpair j hj2
        · have hj3 : j + 1 = (st.trail.drop (st.trail.indexOf ic)).length := by
            omega
          rw [show (j + 1) % (st.trail.drop (st.trail.indexOf ic)).length = 0
            from by rw [hj3]; exact Nat.mod_self _]
          rw [hL0]
          have hj4 : j = (st.trail.drop (st.trail.indexOf ic)).length - 1 := by
            omega
          rw [hj4, hlastD]
          exact hwrap
      · intro m hm
        obtain ⟨jm, hjm, hjme⟩ := List.mem_iff_getElem.mp hm
        have hDXj : ∀ j, j < (st.trail.drop (st.trail.indexOf ic)).length →
            df.getD (loopInputAt (st.trail.drop (st.trail.indexOf ic)) j) true
              = true := by
          intro j hj
          have := hall j (List.mem_range.mpr hj)
          by_cases hdf : df.getD
            (loopInputAt (st.trail.drop (st.trail.indexOf ic)) j) true = true
          · exact hdf
          · exfalso
            rw [if_neg hdf] at this
            cases this
        have hconv : (st.trail.drop (st.trail.indexOf ic))[jm]
            = (st.trail.drop (st.trail.indexOf ic)).getD jm 0 := by
          rw [List.getD_eq_getElem?_getD, List.getElem?_eq_getElem hjm]
          rfl
        cases hjmz : jm with
        | zero =>
          have : m = ic := by
            rw [← hjme, hconv, hjmz, hL0]
          rw [this, ← hLIAlast]
          exact hDXj _ (by omega)
        | succ jp =>
          have : m = (st.trail.drop (st.trail.indexOf ic)).getD (jp + 1) 0 := by
            rw [← hjme, hconv, hjmz]
          rw [this, ← hLIA jp (hjmz ▸ hjm)]
          exact hDXj _ (by omega)
      · intro m hm
        obtain ⟨jm, hjm, hjme⟩ := List.mem_iff_getElem.mp hm
        rw [← hjme]
        have : (st.trail.drop (st.trail.indexOf ic)).getD jm 0
            = (st.trail.drop (st.trail.indexOf ic))[jm] := by
          rw [List.getD_eq_getElem?_getD, List.getElem?_eq_getElem hjm]
          rfl
        rw [← this]
        exact hmemL _ hjm
    · rw [hsev]
      intro hcon
      cases hcon
    · intro st1 h
      rw [hsev] at h
      cases h
  | some p =>
    obtain ⟨lc, lic⟩ := p
    obtain ⟨j, hjr, hfj⟩ := findSome?_some_ex _ _ _ hfs
    rw [List.mem_range] at hjr
    have hdf : df.getD (loopInputAt (st.trail.drop (st.trail.indexOf ic)) j)
        true = false := by
      by_cases hdf : df.getD
        (loopInputAt (st.trail.drop (st.trail.indexOf ic)) j) true = true
      · rw [if_pos hdf] at hfj
        cases hfj
      · cases hb : df.getD
          (loopInputAt (st.trail.drop (st.trail.indexOf ic)) j) true
        · rfl
        · exact absurd hb hdf
    rw [if_neg (by rw [hdf]; exact Bool.false_ne_true)] at hfj
    injection hfj with hfj
    have hlc : lc = (st.trail.drop (st.trail.indexOf ic)).getD j 0 := by
      have := congrArg Prod.fst hfj
      exact this.symm
    have hlic : lic = loopInputAt (st.trail.drop (st.trail.indexOf ic)) j := by
      have := congrArg Prod.snd hfj
      exact this.symm
    have hlicmem : lic ∈ inputsOf st lc := by
      rw [hlc, hlic]
      exact hedge j hjr
    have hsev : severSystemLoop df st ic = .ok { st with
        sysInputs := st.sysInputs.set lc ((inputsOf st lc).erase lic),
        trail := [] } := by
      unfold severSystemLoop
      dsimp only []
      rw [hfs]
      simp only []
      rw [if_pos hlicmem]
      rfl
    refine ⟨?_, ?_, ?_⟩
    · intro hcon
      rw [hsev] at hcon
      cases hcon
    · rw [hsev]
      intro hcon
      cases hcon
    intro st1 h
    rw [hsev] at h
    injection h with h'
    have hndL : (st.trail.drop (st.trail.indexOf ic)).Nodup :=
      ht.1.sublist (List.drop_sublist _ _)
    have hchain : ∀ m, m ≤ j → ReachUT { st with
        sysInputs := st.sysInputs.set lc ((inputsOf st lc).erase lic),
        trail := [] } ic ((st.trail.drop (st.trail.indexOf ic)).getD m 0) := by
      intro m
      induction m with
      | zero =>
        intro _
        rw [hL0]
        refine ReachUT.refl ic ?_ ?_
        · show isUnmapped st ic = true
          exact ht.2.1 ic hic
        · exact List.not_mem_nil ic
      | succ m ihm =>
        intro hmj
        have hm1len : m + 1 < (st.trail.drop (st.trail.indexOf ic)).length := by
          omega
        refine ReachUT.tail ic _ _ (ihm (by omega)) ?_ ?_ ?_
        · have hedge0 := hpair m hm1len
          have hmne : (st.trail.drop (st.trail.indexOf ic)).getD m 0 ≠ lc := by
            intro hcon
            rw [hlc] at hcon
            have := nodup_getD_inj _ hndL m j (by omega) hjr hcon
            omega
          show _ ∈ inputsOf { st with
            sysInputs := st.sysInputs.set lc ((inputsOf st lc).erase lic),
            trail := [] } _
          rw [inputsOf_set_ne st lc _ _ hmne]
          exact hedge0
        · show isUnmapped st _ = true
          exact ht.2.1 _ (hmemL _ hm1len)
        · exact List.not_mem_nil _
    have hreach : ReachUT st1 ic lc := by
      rw [← h']
      have := hchain j le_rfl
      rw [← hlc] at this
      exact this
    refine ⟨lc, lic, ?_, ?_, ?_, hlicmem, h'.symm, hreach⟩
    · rw [hlc]; exact hmemL _ hjr
    · rw [hlic]; exact hmemLIA _ hjr
    · rw [hlic]; exact hdf

/-- The state after a successful severance satisfies the core postcondition
package, removes exactly one edge, and leaves every other input list alone. -/
theorem sever_post (df : List Bool) (n : ℕ) (st : OrgState) (lc lic : ℕ)
    (hw : WfSt n st) (ht : TrailInv st) (ho : OrderedInv n st)
    (hd : DoneInv n st) (hlc : lc ∈ st.trail) (hlic : lic ∈ st.trail)
    (hdf : df.getD lic true = false) (hmem : lic ∈ inputsOf st lc) :
    OrgCore df n st { st with
      sysInputs := st.sysInputs.set lc ((inputsOf st lc).erase lic),
      trail := [] } ∧
    totalEdges { st with
      sysInputs := st.sysInputs.set lc ((inputsOf st lc).erase lic),
      trail := [] } + 1 = totalEdges st ∧
    (∀ c, c ≠ lc → inputsOf { st with
      sysInputs := st.sysInputs.set lc ((inputsOf st lc).erase lic),
      trail := [] } c = inputsOf st c) ∧
    inputsOf { st with
      sysInputs := st.sysInputs.set lc ((inputsOf st lc).erase lic),
      trail := [] } lc = (inputsOf st lc).erase lic := by
  have hlcn : lc < n := hw.2.2.2.1 lc hlc
  have hlcs : lc < st.sysInputs.length := by rw [hw.1]; exact hlcn
  have hlen : ((inputsOf st lc).erase lic).length + 1
      = (inputsOf st lc).length := by
    rw [List.length_erase_of_mem hmem]
    have : 0 < (inputsOf st lc).length := List.length_pos.mpr
      (fun hnil => by rw [hnil] at hmem; cases hmem)
    omega
  have hself := inputsOf_set_self st lc ((inputsOf st lc).erase lic) hlcs
  have hne := fun c hc => inputsOf_set_ne st lc c ((inputsOf st lc).erase lic) hc
  have htot := totalEdges_set st lc ((inputsOf st lc).erase lic) hlcs
  refine ⟨?_, by omega, hne, hself⟩
  refine ⟨?_, ?_, ?_, ?_, ?_, ?_, ?_, ?_, ?_, ?_, ?_, ?_⟩
  · -- WfSt
    refine ⟨by simpa using hw.1, hw.2.1, ?_, ?_, hw.2.2.2.2⟩
    · intro l hl x hx
      show x < n
      rcases List.mem_or_eq_of_mem_set hl with h2 | h2
      · exact hw.2.2.1 l h2 x hx
      · subst h2
        exact hw.2.2.1 _ (by
          show inputsOf st lc ∈ st.sysInputs
          show st.sysInputs.getD lc [] ∈ st.sysInputs
          rw [List.getD_eq_getElem?_getD, List.getElem?_eq_getElem hlcs]
          exact List.getElem_mem _) x (List.mem_of_mem_erase hx)
    · intro t htr
      cases htr
  · exact ⟨List.nodup_nil, fun t htr => absurd htr (List.not_mem_nil t),
      fun j hj => absurd hj (by simp)⟩
  · exact ho
  · -- DoneInv
    intro m hm hmap v hv
    by_cases hc : m = lc
    · subst hc
      rw [hself] at hv
      exact hd m hm hmap v (List.mem_of_mem_erase hv)
    · rw [hne m hc] at hv
      exact hd m hm hmap v hv
  · exact fun c h => h
  · -- emono
    intro c x
    unfold edgeCnt
    by_cases hc : c = lc
    · subst hc
      rw [hself]
      exact List.Sublist.count_le (List.erase_sublist _ _) _
    · rw [hne c hc]
  · -- dfpres
    intro c x hx
    unfold edgeCnt
    by_cases hc : c = lc
    · subst hc
      rw [hself]
      have hxl : x ≠ lic := fun he => by rw [he, hdf] at hx; cases hx
      exact count_erase_ne_nat _ _ _ hxl
    · rw [hne c hc]
  · exact Or.inr ⟨rfl, by omega⟩
  · -- seve
    intro c x hcx
    by_cases hc : c = lc
    · subst hc
      by_cases hx : x = lic
      · subst hx
        exact ⟨Or.inr hlc, Or.inr hlic⟩
      · exfalso
        unfold edgeCnt at hcx
        rw [hself, count_erase_ne_nat _ _ _ hx] at hcx
        exact lt_irrefl _ hcx
    · exfalso
      unfold edgeCnt at hcx
      rw [hne c hc] at hcx
      exact lt_irrefl _ hcx
  · exact ⟨[], (List.append_nil _).symm⟩
  · simpa using rfl
  · -- lmono
    intro c
    by_cases hc : c = lc
    · subst hc
      rw [hself]
      omega
    · rw [hne c hc]

theorem inputsOf_bounded (n : ℕ) (st : OrgState) (hw : WfSt n st) :
    ∀ b x, x ∈ inputsOf st b → x < n := by
  intro b x hx
  show x < n
  by_cases hb : b < st.sysInputs.length
  · refine hw.2.2.1 (inputsOf st b) ?_ x hx
    show st.sysInputs.getD b [] ∈ st.sysInputs
    rw [List.getD_eq_getElem?_getD, List.getElem?_eq_getElem hb]
    exact List.getElem_mem _
  · exfalso
    have : inputsOf st b = [] := by
      show st.sysInputs.getD b [] = []
      rw [List.getD_eq_getElem?_getD, List.getElem?_eq_none (by omega)]
      rfl
    rw [this] at hx
    cases hx

theorem reachUT_bounded (n : ℕ) (st : OrgState) (hw : WfSt n st) :
    ∀ x y, ReachUT st x y → x < n → y < n := by
  intro x y hr
  induction hr with
  | refl hu ht => intro h; exact h
  | tail b c hab hbc hu htc ih =>
    intro hx
    exact inputsOf_bounded n st hw b c hbc

/-- Path closure: along a chain of entry-state edges through components that
are unmapped and off the entry trail, once the chain's start is mapped at
the end of a run satisfying the core postconditions, every chain node is
mapped: a surviving edge is closed by `DoneInv`, a severed one by the
severed-endpoint condition. -/
theorem reach_closure (df : List Bool) (n : ℕ) (st st' : OrgState)
    (hp : OrgCore df n st st') (hwst : WfSt n st) :
    ∀ x y, ReachUT st x y → x < n → isUnmapped st' x = false →
      isUnmapped st' y = false := by
  intro x y hr
  induction hr with
  | refl hu htz => intro _ h; exact h
  | tail b c hab hbc hu htc ih =>
    intro hx hmx
    have hb : isUnmapped st' b = false := ih hx hmx
    have hbn : b < n := reachUT_bounded n st hwst x b hab hx
    have hcnt : 1 ≤ edgeCnt st b c := List.count_pos_iff.mpr hbc
    by_cases hcnt2 : 1 ≤ edgeCnt st' b c
    · have hcmem : c ∈ inputsOf st' b :=
        List.count_pos_iff.mp hcnt2
      exact (hp.dinv b hbn hb c hcmem).1
    · have hdrop : edgeCnt st' b c < edgeCnt st b c := by omega
      rcases (hp.seve b c hdrop).2 with h2 | h2
      · exact h2
      · exact absurd h2 htc

theorem orgCore_trans (df : List Bool) (n : ℕ) (st st1 st2 : OrgState)
    (a : OrgCore df n st st1) (b : OrgCore df n st1 st2) :
    OrgCore df n st st2 where
  wf := b.wf
  tinv := b.tinv
  oinv := b.oinv
  dinv := b.dinv
  mono := fun c h => b.mono c (a.mono c h)
  emono := fun c x => le_trans (b.emono c x) (a.emono c x)
  dfpres := fun c x h => (b.dfpres c x h).trans (a.dfpres c x h)
  tshape := by
    have hE := totalEdges_mono st1 st2 b.slen b.lmono
    have hE0 := totalEdges_mono st st1 a.slen a.lmono
    rcases b.tshape with h2 | ⟨h2, h2e⟩
    · rcases a.tshape with h1 | ⟨h1, h1e⟩
      · exact Or.inl (h2.trans h1)
      · exact Or.inr ⟨h2.trans h1, by omega⟩
    · exact Or.inr ⟨h2, by omega⟩
  seve := by
    intro c x h
    by_cases h1 : edgeCnt st1 c x < edgeCnt st c x
    · obtain ⟨p1, p2⟩ := a.seve c x h1
      constructor
      · rcases p1 with p1 | p1
        · exact Or.inl (b.mono c p1)
        · exact Or.inr p1
      · rcases p2 with p2 | p2
        · exact Or.inl (b.mono x p2)
        · exact Or.inr p2
    · have heq : edgeCnt st1 c x = edgeCnt st c x := by
        have := a.emono c x
        omega
      have h2 : edgeCnt st2 c x < edgeCnt st1 c x := by omega
      obtain ⟨p1, p2⟩ := b.seve c x h2
      have htr : st1.trail = st.trail ∨ st1.trail = [] := by
        rcases a.tshape with h | ⟨h, _⟩
        · exact Or.inl h
        · exact Or.inr h
      constructor
      · rcases p1 with p1 | p1
        · exact Or.inl p1
        · rcases htr with htr | htr
          · exact Or.inr (htr ▸ p1)
          · rw [htr] at p1; cases p1
      · rcases p2 with p2 | p2
        · exact Or.inl p2
        · rcases htr with htr | htr
          · exact Or.inr (htr ▸ p2)
          · rw [htr] at p2; cases p2
  oext := by
    obtain ⟨a1, ha1⟩ := a.oext
    obtain ⟨a2, ha2⟩ := b.oext
    exact ⟨a1 ++ a2, by rw [ha2, ha1, List.append_assoc]⟩
  slen := b.slen.trans a.slen
  lmono := fun c => le_trans (b.lmono c) (a.lmono c)

theorem sever_ne_fuelOut (df : List Bool) (st : OrgState) (ic : ℕ) :
    severSystemLoop df st ic ≠ .fuelOut := by
  unfold severSystemLoop
  dsimp only []
  cases findSeverPair df (st.trail.drop (st.trail.indexOf ic)) with
  | none => intro h; cases h
  | some p =>
    obtain ⟨lc, lic⟩ := p
    simp only []
    by_cases hm : lic ∈ inputsOf st lc
    · rw [if_pos hm]
      intro h
      cases h
    · rw [if_neg hm]
      intro h
      cases h

theorem cycle_transport (st st1 : OrgState) (l : List ℕ)
    (hm : ∀ c x, edgeCnt st1 c x ≤ edgeCnt st c x)
    (hc : CycleSt st1 l) : CycleSt st l := by
  refine ⟨hc.1, ?_⟩
  intro j hj
  have h1 := hc.2 j hj
  have h2 : 1 ≤ edgeCnt st1 (l.getD j 0) (l.getD ((j + 1) % l.length) 0) :=
    List.count_pos_iff.mpr h1
  have h3 := hm (l.getD j 0) (l.getD ((j + 1) % l.length) 0)
  have h4 : 0 < edgeCnt st (l.getD j 0) (l.getD ((j + 1) % l.length) 0) := by
    omega
  exact List.count_pos_iff.mp h4

theorem get?_mem_nat (l : List ℕ) (i x : ℕ) (h : l.get? i = some x) :
    x ∈ l := by
  rw [List.get?_eq_getElem?] at h
  have hi : i < l.length := by
    by_cases hi : i < l.length
    · exact hi
    · rw [List.getElem?_eq_none (by omega)] at h
      cases h
  rw [List.getElem?_eq_getElem hi] at h
  injection h with h'
  rw [← h']
  exact List.getElem_mem _

theorem getD_append_lt (l l2 : List ℕ) (j : ℕ) (h : j < l.length) :
    (l ++ l2).getD j 0 = l.getD j 0 := by
  rw [List.getD_eq_getElem?_getD, List.getD_eq_getElem?_getD,
    List.getElem?_append_left h]

theorem getD_append_len (l : List ℕ) (x : ℕ) :
    (l ++ [x]).getD l.length 0 = x := by
  rw [List.getD_eq_getElem?_getD]
  rw [List.getElem?_append_right le_rfl]
  simp

theorem nodup_append_singleton {α : Type} (l : List α) (x : α)
    (hnd : l.Nodup) (hx : x ∉ l) : (l ++ [x]).Nodup := by
  simp [List.nodup_append, hnd, hx]

theorem indexOf_append_self_nat (l : List ℕ) (x : ℕ) (h : x ∉ l) :
    (l ++ [x]).indexOf x = l.length := by
  rw [List.indexOf_append_of_not_mem h]
  simp

theorem indexOf_append_mem_nat (l l2 : List ℕ) (x : ℕ) (h : x ∈ l) :
    (l ++ l2).indexOf x = l.indexOf x :=
  List.indexOf_append_of_mem h

/-- Core facts for the state that finishes a build: append to the order, mark
mapped, drop the component from the trail. -/
theorem build_finish_unmapped (df : List Bool) (n : ℕ) (st st1 : OrgState)
    (comp : ℕ)
    (hw : WfSt n st) (ht : TrailInv st)
    (hcn : comp < n) (hcu : isUnmapped st comp = true) (hct : comp ∉ st.trail)
    (post1 : OrgPost df n { st with trail := st.trail ++ [comp] } st1)
    (hu1 : isUnmapped st1 comp = true) (hAll : AllInputsMapped st1 comp) :
    OrgPost df n st { st1 with
      ordered := st1.ordered ++ [comp],
      unmapped := st1.unmapped.set comp false,
      trail := if comp ∈ st1.trail then st1.trail.erase comp
               else st1.trail } ∧
    isUnmapped { st1 with
      ordered := st1.ordered ++ [comp],
      unmapped := st1.unmapped.set comp false,
      trail := if comp ∈ st1.trail then st1.trail.erase comp
               else st1.trail } comp = false := by
  have hulen : st1.unmapped.length = n := post1.wf.2.1
  have hFcomp : isUnmapped { st1 with
      ordered := st1.ordered ++ [comp],
      unmapped := st1.unmapped.set comp false,
      trail := if comp ∈ st1.trail then st1.trail.erase comp
               else st1.trail } comp = false := by
    show (st1.unmapped.set comp false).getD comp false = false
    exact getD_set_self _ _ _ (by omega)
  have hFne : ∀ c, c ≠ comp → isUnmapped { st1 with
      ordered := st1.ordered ++ [comp],
      unmapped := st1.unmapped.set comp false,
      trail := if comp ∈ st1.trail then st1.trail.erase comp
               else st1.trail } c = isUnmapped st1 c := by
    intro c hc
    show (st1.unmapped.set comp false).getD c false = st1.unmapped.getD c false
    exact getD_set_ne _ _ _ _ hc
  have hFmono : ∀ c, isUnmapped st1 c = false → isUnmapped { st1 with
      ordered := st1.ordered ++ [comp],
      unmapped := st1.unmapped.set comp false,
      trail := if comp ∈ st1.trail then st1.trail.erase comp
               else st1.trail } c = false := by
    intro c hc
    by_cases hcc : c = comp
    · subst hcc
      exact hFcomp
    · rw [hFne c hcc]
      exact hc
  have hnotord : comp ∉ st1.ordered := by
    intro hmem
    rw [(post1.oinv.2 comp hcn).mp hmem] at hu1
    cases hu1
  have htrF : (if comp ∈ st1.trail then st1.trail.erase comp
      else st1.trail) = st.trail ∨
      ((if comp ∈ st1.trail then st1.trail.erase comp else st1.trail) = []
        ∧ totalEdges st1 < totalEdges st) := by
    rcases post1.tshape with hts | ⟨hts, htse⟩
    · left
      rw [hts]
      rw [if_pos (by exact List.mem_append_right _ (List.mem_singleton.mpr rfl))]
      exact erase_append_last st.trail comp hct
    · right
      refine ⟨?_, htse⟩
      rw [hts]
      rw [if_neg (List.not_mem_nil comp)]
  refine ⟨⟨⟨?_, ?_, ?_, ?_, ?_, ?_, ?_, ?_, ?_, ?_, ?_, ?_⟩, ?_⟩, hFcomp⟩
  · -- WfSt
    refine ⟨post1.wf.1, by simpa using hulen, post1.wf.2.2.1, ?_, ?_⟩
    · intro t htm
      rcases htrF with h2 | ⟨h2, _⟩
      · rw [h2] at htm
        exact hw.2.2.2.1 t htm
      · rw [h2] at htm
        cases htm
    · intro c hc
      rcases List.mem_append.mp hc with h2 | h2
      · exact post1.wf.2.2.2.2 c h2
      · rw [List.mem_singleton.mp h2]
        exact hcn
  · -- TrailInv
    rcases post1.tshape with hts | ⟨hts, _⟩
    · have hin : comp ∈ st1.trail := by
        rw [hts]
        exact List.mem_append_right _ (List.mem_singleton.mpr rfl)
      show TrailInv _
      have htrFeq : (if comp ∈ st1.trail then st1.trail.erase comp
          else st1.trail) = st.trail := by
        rw [if_pos hin, hts]
        exact erase_append_last st.trail comp hct
      refine ⟨?_, ?_, ?_⟩
      · show (if comp ∈ st1.trail then st1.trail.erase comp
          else st1.trail).Nodup
        rw [htrFeq]
        exact ht.1
      · intro t htm
        rw [htrFeq] at htm
        have htne : t ≠ comp := fun hc => hct (hc ▸ htm)
        rw [hFne t htne]
        refine post1.tinv.2.1 t ?_
        rw [hts]
        exact List.mem_append_left _ htm
      · intro j hj
        have hj2 : j + 1 < st.trail.length := by
          have hj3 : j + 1 < (if comp ∈ st1.trail then st1.trail.erase comp
              else st1.trail).length := hj
          rw [htrFeq] at hj3
          exact hj3
        have hp := post1.tinv.2.2 j (by
          rw [hts, List.length_append, List.length_singleton]
          omega)
        rw [hts] at hp
        rw [getD_append_lt _ _ _ (by omega), getD_append_lt _ _ _ (by omega)]
          at hp
        show (if comp ∈ st1.trail then st1.trail.erase comp
            else st1.trail).getD (j + 1) 0 ∈ inputsOf st1
          ((if comp ∈ st1.trail then st1.trail.erase comp
            else st1.trail).getD j 0)
        rw [htrFeq]
        exact hp
    · show TrailInv _
      have htrFeq : (if comp ∈ st1.trail then st1.trail.erase comp
          else st1.trail) = [] := by
        rw [hts]
        rw [if_neg (List.not_mem_nil comp)]
      refine ⟨?_, ?_, ?_⟩
      · show (if comp ∈ st1.trail then st1.trail.erase comp
          else st1.trail).Nodup
        rw [htrFeq]
        exact List.nodup_nil
      · intro t htm
        rw [htrFeq] at htm
        cases htm
      · intro j hj
        have hj3 : j + 1 < (if comp ∈ st1.trail then st1.trail.erase comp
            else st1.trail).length := hj
        rw [htrFeq] at hj3
        simp at hj3
  · -- OrderedInv
    refine ⟨nodup_append_singleton _ _ post1.oinv.1 hnotord, ?_⟩
    intro c hc
    by_cases hcc : c = comp
    · subst hcc
      constructor
      · intro _
        exact hFcomp
      · intro _
        exact List.mem_append_right _ (List.mem_singleton.mpr rfl)
    · rw [hFne c hcc]
      constructor
      · intro hmem
        rcases List.mem_append.mp hmem with h2 | h2
        · exact (post1.oinv.2 c hc).mp h2
        · exact absurd (List.mem_singleton.mp h2) hcc
      · intro hmap
        exact List.mem_append_left _ ((post1.oinv.2 c hc).mpr hmap)
  · -- DoneInv
    intro m hm hmap v hv
    have hvn : v < n := inputsOf_bounded n st1 post1.wf m v hv
    by_cases hmc : m = comp
    · have hvmap : isUnmapped st1 v = false := hAll v (hmc ▸ hv)
      have hvord : v ∈ st1.ordered := (post1.oinv.2 v hvn).mpr hvmap
      refine ⟨hFmono v hvmap, ?_⟩
      show (st1.ordered ++ [comp]).indexOf v < (st1.ordered ++ [comp]).indexOf m
      rw [hmc]
      rw [indexOf_append_mem_nat _ _ _ hvord, indexOf_append_self_nat _ _ hnotord]
      exact List.indexOf_lt_length.mpr hvord
    · have hmap1 : isUnmapped st1 m = false := by
        rw [hFne m hmc] at hmap
        exact hmap
      obtain ⟨hvmap, hidx⟩ := post1.dinv m hm hmap1 v hv
      have hvord : v ∈ st1.ordered := (post1.oinv.2 v hvn).mpr hvmap
      have hmord : m ∈ st1.ordered := (post1.oinv.2 m hm).mpr hmap1
      refine ⟨hFmono v hvmap, ?_⟩
      show (st1.ordered ++ [comp]).indexOf v < (st1.ordered ++ [comp]).indexOf m
      rw [indexOf_append_mem_nat _ _ _ hvord, indexOf_append_mem_nat _ _ _ hmord]
      exact hidx
  · -- mono
    intro c hc
    exact hFmono c (post1.mono c hc)
  · -- emono
    exact fun c x => post1.emono c x
  · -- dfpres
    exact fun c x h => post1.dfpres c x h
  · -- tshape
    rcases htrF with h2 | ⟨h2, h2e⟩
    · exact Or.inl h2
    · exact Or.inr ⟨h2, h2e⟩
  · -- seve
    intro c x hcx
    obtain ⟨p1, p2⟩ := post1.seve c x hcx
    constructor
    · rcases p1 with p1 | p1
      · exact Or.inl (hFmono c p1)
      · rcases List.mem_append.mp p1 with h2 | h2
        · exact Or.inr h2
        · rw [List.mem_singleton.mp h2]
          exact Or.inl hFcomp
    · rcases p2 with p2 | p2
      · exact Or.inl (hFmono x p2)
      · rcases List.mem_append.mp p2 with h2 | h2
        · exact Or.inr h2
        · rw [List.mem_singleton.mp h2]
          exact Or.inl hFcomp
  · -- oext
    obtain ⟨app, happ⟩ := post1.oext
    exact ⟨app ++ [comp], by
      show st1.ordered ++ [comp] = st.ordered ++ (app ++ [comp])
      rw [happ]
      rw [List.append_assoc]⟩
  · -- slen
    exact post1.slen
  · -- lmono
    exact fun c => post1.lmono c
  · -- chg
    intro c hc
    exact hFmono c (post1.chg c hc)

theorem build_finish_mapped (df : List Bool) (n : ℕ) (st st1 : OrgState)
    (comp : ℕ) (hct : comp ∉ st.trail)
    (post1 : OrgPost df n { st with trail := st.trail ++ [comp] } st1)
    (hu1 : isUnmapped st1 comp = false) :
    OrgPost df n st st1 := by
  have hts : st1.trail = [] ∧ totalEdges st1 < totalEdges st := by
    rcases post1.tshape with hts | ⟨hts, htse⟩
    · exfalso
      have hin : comp ∈ st1.trail := by
        rw [hts]
        exact List.mem_append_right _ (List.mem_singleton.mpr rfl)
      have := post1.tinv.2.1 comp hin
      rw [this] at hu1
      cases hu1
    · exact ⟨hts, htse⟩
  refine ⟨⟨post1.wf, post1.tinv, post1.oinv, post1.dinv,
    fun c hc => post1.mono c hc, fun c x => post1.emono c x,
    fun c x h => post1.dfpres c x h, Or.inr hts, ?_,
    post1.oext, post1.slen, fun c => post1.lmono c⟩,
    fun c hc => post1.chg c hc⟩
  intro c x hcx
  obtain ⟨p1, p2⟩ := post1.seve c x hcx
  constructor
  · rcases p1 with p1 | p1
    · exact Or.inl p1
    · rcases List.mem_append.mp p1 with h2 | h2
      · exact Or.inr h2
      · rw [List.mem_singleton.mp h2]
        exact Or.inl hu1
  · rcases p2 with p2 | p2
    · exact Or.inl p2
    · rcases List.mem_append.mp p2 with h2 | h2
      · exact Or.inr h2
      · rw [List.mem_singleton.mp h2]
        exact Or.inl hu1

theorem build_entry_invs (n : ℕ) (st : OrgState) (comp : ℕ)
    (hw : WfSt n st) (ht : TrailInv st)
    (hcn : comp < n) (hcu : isUnmapped st comp = true) (hct : comp ∉ st.trail)
    (hlink : st.trail = [] ∨ ∃ tl, st.trail.getLast? = some tl ∧
      comp ∈ inputsOf st tl) :
    WfSt n { st with trail := st.trail ++ [comp] } ∧
    TrailInv { st with trail := st.trail ++ [comp] } ∧
    (st.trail ++ [comp]).getLast? = some comp := by
  refine ⟨⟨hw.1, hw.2.1, hw.2.2.1, ?_, hw.2.2.2.2⟩, ⟨?_, ?_, ?_⟩, ?_⟩
  · intro t htm
    rcases List.mem_append.mp htm with h2 | h2
    · exact hw.2.2.2.1 t h2
    · rw [List.mem_singleton.mp h2]
      exact hcn
  · exact nodup_append_singleton _ _ ht.1 hct
  · intro t htm
    rcases List.mem_append.mp htm with h2 | h2
    · exact ht.2.1 t h2
    · show isUnmapped st t = true
      rw [List.mem_singleton.mp h2]
      exact hcu
  · intro j hj
    show (st.trail ++ [comp]).getD (j + 1) 0
      ∈ inputsOf st ((st.trail ++ [comp]).getD j 0)
    have hjlen : j + 1 < st.trail.length + 1 := by
      have hj0 : j + 1 < (st.trail ++ [comp]).length := hj
      have : (st.trail ++ [comp]).length = st.trail.length + 1 := by
        rw [List.length_append, List.length_singleton]
      omega
    by_cases hj2 : j + 1 < st.trail.length
    · rw [getD_append_lt _ _ _ hj2, getD_append_lt _ _ _ (by omega)]
      exact ht.2.2 j hj2
    · have hj3 : j + 1 = st.trail.length := by omega
      rcases hlink with hnil | ⟨tl, htl, hmem⟩
      · exfalso
        rw [hnil] at hj3
        simp at hj3
      · rw [hj3, getD_append_len]
        rw [getD_append_lt _ _ _ (by omega)]
        have : st.trail.getD j 0 = tl := by
          rw [List.getLast?_eq_getElem?] at htl
          rw [List.getD_eq_getElem?_getD]
          rw [show j = st.trail.length - 1 from by omega]
          rw [htl]
          rfl
        rw [this]
        exact hmem
  · rw [List.getLast?_eq_getElem?]
    rw [List.length_append, List.length_singleton]
    rw [show st.trail.length + 1 - 1 = st.trail.length + 0 from by omega]
    rw [List.getElem?_append_right (by omega)]
    simp

/-- The main induction over fuel: from a well-formed entry state,
`build_system_order` and its input loop never raise the `list.remove`
`ValueError`, raise the algebraic-loop `Exception` only when the entry state
carries an all-direct-feedthrough cycle, and on success establish the whole
postcondition package, with the built component mapped and the loop
transporting a mapped prefix to a fully mapped input list. -/
theorem org_induction (df : List Bool) (n : ℕ) : ∀ fuel : ℕ,
    (∀ comp st,
      WfSt n st → TrailInv st → OrderedInv n st → DoneInv n st →
      comp < n → isUnmapped st comp = true → comp ∉ st.trail →
      (st.trail = [] ∨ ∃ tl, st.trail.getLast? = some tl ∧
        comp ∈ inputsOf st tl) →
      buildSystemOrder df fuel comp st ≠ .removeMissing ∧
      (buildSystemOrder df fuel comp st = .algebraicLoop →
        ∃ l, CycleSt st l ∧ (∀ m ∈ l, df.getD m true = true)) ∧
      (∀ st', buildSystemOrder df fuel comp st = .ok st' →
        OrgPost df n st st' ∧ isUnmapped st' comp = false)) ∧
    (∀ comp i st,
      WfSt n st → TrailInv st → OrderedInv n st → DoneInv n st →
      comp < n →
      (st.trail = [] ∨ st.trail.getLast? = some comp) →
      procInputs df fuel comp i st ≠ .removeMissing ∧
      (procInputs df fuel comp i st = .algebraicLoop →
        ∃ l, CycleSt st l ∧ (∀ m ∈ l, df.getD m true = true)) ∧
      (∀ st', procInputs df fuel comp i st = .ok st' →
        OrgPost df n st st' ∧
        ((isUnmapped st comp = false ∨ PrefixMapped st comp i) →
          (isUnmapped st' comp = false ∨ AllInputsMapped st' comp)))) := by
  intro fuel
  induction fuel with
  | zero =>
    constructor
    · intro comp st _ _ _ _ _ _ _ _
      exact ⟨fun h => OrgRes.noConfusion h, fun h => OrgRes.noConfusion h,
        fun st' h => OrgRes.noConfusion h⟩
    · intro comp i st _ _ _ _ _ _
      exact ⟨fun h => OrgRes.noConfusion h, fun h => OrgRes.noConfusion h,
        fun st' h => OrgRes.noConfusion h⟩
  | succ fuel ih =>
    obtain ⟨ihB, ihP⟩ := ih
    constructor
    · -- build_system_order
      intro comp st hw ht ho hd hcn hcu hct hlink
      obtain ⟨hwIn, htIn, hlastIn⟩ :=
        build_entry_invs n st comp hw ht hcn hcu hct hlink
      obtain ⟨hPnm, hPal, hPok⟩ := ihP comp 0
        { st with trail := st.trail ++ [comp] } hwIn htIn ho hd hcn
        (Or.inr hlastIn)
      cases hres : procInputs df fuel comp 0
          { st with trail := st.trail ++ [comp] } with
      | fuelOut =>
        have heq : buildSystemOrder df (fuel + 1) comp st = .fuelOut := by
          conv_lhs => rw [buildSystemOrder]
          rw [hres]
        refine ⟨?_, ?_, ?_⟩
        · rw [heq]; exact fun h => OrgRes.noConfusion h
        · intro h; rw [heq] at h; exact OrgRes.noConfusion h
        · intro st' h; rw [heq] at h; exact OrgRes.noConfusion h
      | removeMissing => exact absurd hres hPnm
      | algebraicLoop =>
        have heq : buildSystemOrder df (fuel + 1) comp st = .algebraicLoop := by
          conv_lhs => rw [buildSystemOrder]
          rw [hres]
        refine ⟨?_, ?_, ?_⟩
        · rw [heq]; exact fun h => OrgRes.noConfusion h
        · intro _; exact hPal hres
        · intro st' h; rw [heq] at h; exact OrgRes.noConfusion h
      | ok st1 =>
        obtain ⟨post1, hPtrans⟩ := hPok st1 hres
        have hP0 : isUnmapped st1 comp = false ∨ AllInputsMapped st1 comp := by
          refine hPtrans (Or.inr ?_)
          intro x hx
          simp at hx
        cases hu1 : isUnmapped st1 comp with
        | true =>
          have hAll : AllInputsMapped st1 comp := by
            rcases hP0 with h2 | h2
            · rw [h2] at hu1; cases hu1
            · exact h2
          obtain ⟨postF, hm2⟩ := build_finish_unmapped df n st st1 comp hw ht
            hcn hcu hct post1 hu1 hAll
          have heq : buildSystemOrder df (fuel + 1) comp st = .ok { st1 with
              ordered := st1.ordered ++ [comp],
              unmapped := st1.unmapped.set comp false,
              trail := if comp ∈ st1.trail then st1.trail.erase comp
                       else st1.trail } := by
            conv_lhs => rw [buildSystemOrder]
            rw [hres]
            simp only []
            rw [if_pos hu1]
          refine ⟨?_, ?_, ?_⟩
          · rw [heq]; exact fun h => OrgRes.noConfusion h
          · intro h; rw [heq] at h; exact OrgRes.noConfusion h
          · intro st' h
            rw [heq] at h
            injection h with h2
            subst h2
            exact ⟨postF, hm2⟩
        | false =>
          have postM := build_finish_mapped df n st st1 comp hct post1 hu1
          have heq : buildSystemOrder df (fuel + 1) comp st = .ok st1 := by
            conv_lhs => rw [buildSystemOrder]
            rw [hres]
            simp only []
            rw [if_neg (by rw [hu1]; exact Bool.false_ne_true)]
          refine ⟨?_, ?_, ?_⟩
          · rw [heq]; exact fun h => OrgRes.noConfusion h
          · intro h; rw [heq] at h; exact OrgRes.noConfusion h
          · intro st' h
            rw [heq] at h
            injection h with h2
            subst h2
            exact ⟨postM, hu1⟩
    · -- the input loop
      intro comp i st hw ht ho hd hcn he1
      cases hget : (inputsOf st comp).get? i with
      | none =>
        have heq : procInputs df (fuel + 1) comp i st = .ok st := by
          conv_lhs => rw [procInputs]
          rw [hget]
        refine ⟨?_, ?_, ?_⟩
        · rw [heq]; exact fun h => OrgRes.noConfusion h
        · intro h; rw [heq] at h; exact OrgRes.noConfusion h
        · intro st' h
          rw [heq] at h
          injection h with h2
          subst h2
          refine ⟨orgPost_refl df n st hw ht ho hd, ?_⟩
          intro hA
          rcases hA with hA | hA
          · exact Or.inl hA
          · right
            intro x hx
            refine hA x ?_
            rw [take_of_get?_none _ _ hget]
            exact hx
      | some ic =>
        have hicmem : ic ∈ inputsOf st comp := get?_mem_nat _ _ _ hget
        have hicn : ic < n := inputsOf_bounded n st hw comp ic hicmem
        by_cases hintrail : ic ∈ st.trail
        · -- severance
          have hlast : st.trail.getLast? = some comp := by
            rcases he1 with h2 | h2
            · rw [h2] at hintrail; cases hintrail
            · exact h2
          obtain ⟨sAl, sNm, sOk⟩ := sever_char df st ic comp ht hintrail hlast
            hicmem
          cases hsev : severSystemLoop df st ic with
          | fuelOut => exact absurd hsev (sever_ne_fuelOut df st ic)
          | removeMissing => exact absurd hsev sNm
          | algebraicLoop =>
            have heq : procInputs df (fuel + 1) comp i st = .algebraicLoop := by
              conv_lhs => rw [procInputs]
              rw [hget]
              simp only []
              rw [if_pos hintrail, hsev]
            refine ⟨?_, ?_, ?_⟩
            · rw [heq]; exact fun h => OrgRes.noConfusion h
            · intro _
              obtain ⟨l, hl1, hl2, _⟩ := sAl hsev
              exact ⟨l, hl1, hl2⟩
            · intro st' h; rw [heq] at h; exact OrgRes.noConfusion h
          | ok st1 =>
            obtain ⟨lc, lic, hlc, hlic, hdfl, hmeml, hst1eq, hreach⟩ :=
              sOk st1 hsev
            subst hst1eq
            obtain ⟨score, htot1, hothers, hselfl⟩ :=
              sever_post df n st lc lic hw ht ho hd hlc hlic hdfl hmeml
            have hu1R : isUnmapped { st with
                sysInputs := st.sysInputs.set lc ((inputsOf st lc).erase lic),
                trail := [] } ic = true := ht.2.1 ic hintrail
            obtain ⟨bNm, bAl, bOk⟩ := ihB ic { st with
                sysInputs := st.sysInputs.set lc ((inputsOf st lc).erase lic),
                trail := [] } score.wf score.tinv score.oinv score.dinv hicn
              hu1R (List.not_mem_nil ic) (Or.inl rfl)
            cases hbuild : buildSystemOrder df fuel ic { st with
                sysInputs := st.sysInputs.set lc ((inputsOf st lc).erase lic),
                trail := [] } with
            | fuelOut =>
              have heq : procInputs df (fuel + 1) comp i st = .fuelOut := by
                conv_lhs => rw [procInputs]
                rw [hget]
                simp only []
                rw [if_pos hintrail, hsev]
                simp only []
                rw [if_pos hu1R, hbuild]
              refine ⟨?_, ?_, ?_⟩
              · rw [heq]; exact fun h => OrgRes.noConfusion h
              · intro h; rw [heq] at h; exact OrgRes.noConfusion h
              · intro st' h; rw [heq] at h; exact OrgRes.noConfusion h
            | removeMissing => exact absurd hbuild bNm
            | algebraicLoop =>
              have heq : procInputs df (fuel + 1) comp i st
                  = .algebraicLoop := by
                conv_lhs => rw [procInputs]
                rw [hget]
                simp only []
                rw [if_pos hintrail, hsev]
                simp only []
                rw [if_pos hu1R, hbuild]
              refine ⟨?_, ?_, ?_⟩
              · rw [heq]; exact fun h => OrgRes.noConfusion h
              · intro _
                obtain ⟨l, hl1, hl2⟩ := bAl hbuild
                exact ⟨l, cycle_transport st _ l score.emono hl1, hl2⟩
              · intro st' h; rw [heq] at h; exact OrgRes.noConfusion h
            | ok st2 =>
              obtain ⟨bpost, bm2⟩ := bOk st2 hbuild
              have hlcmapped : isUnmapped st2 lc = false :=
                reach_closure df n _ st2 bpost.toOrgCore score.wf ic lc hreach
                  hicn bm2
              have p02 : OrgPost df n st st2 :=
                { toOrgCore := orgCore_trans df n st _ st2 score bpost.toOrgCore,
                  chg := by
                    intro c hcch
                    by_cases hch1 : inputsOf st2 c = inputsOf { st with
                        sysInputs := st.sysInputs.set lc
                          ((inputsOf st lc).erase lic),
                        trail := [] } c
                    · by_cases hclc : c = lc
                      · subst hclc
                        exact hlcmapped
                      · exact absurd ((hch1.trans (hothers c hclc)))
                          hcch
                    · exact bpost.chg c hch1 }
              have hst2tr : st2.trail = [] := by
                rcases bpost.tshape with h2 | ⟨h2, _⟩
                · rw [h2]
                · exact h2
              obtain ⟨rNm, rAl, rOk⟩ := ihP comp (i + 1) st2 bpost.wf
                bpost.tinv bpost.oinv bpost.dinv hcn (Or.inl hst2tr)
              cases hrec : procInputs df fuel comp (i + 1) st2 with
              | fuelOut =>
                have heq : procInputs df (fuel + 1) comp i st = .fuelOut := by
                  conv_lhs => rw [procInputs]
                  rw [hget]
                  simp only []
                  rw [if_pos hintrail, hsev]
                  simp only []
                  rw [if_pos hu1R, hbuild]
                  simp only []
                  rw [hrec]
                refine ⟨?_, ?_, ?_⟩
                · rw [heq]; exact fun h => OrgRes.noConfusion h
                · intro h; rw [heq] at h; exact OrgRes.noConfusion h
                · intro st' h; rw [heq] at h; exact OrgRes.noConfusion h
              | removeMissing => exact absurd hrec rNm
              | algebraicLoop =>
                have heq : procInputs df (fuel + 1) comp i st
                    = .algebraicLoop := by
                  conv_lhs => rw [procInputs]
                  rw [hget]
                  simp only []
                  rw [if_pos hintrail, hsev]
                  simp only []
                  rw [if_pos hu1R, hbuild]
                  simp only []
                  rw [hrec]
                refine ⟨?_, ?_, ?_⟩
                · rw [heq]; exact fun h => OrgRes.noConfusion h
                · intro _
                  obtain ⟨l, hl1, hl2⟩ := rAl hrec
                  exact ⟨l, cycle_transport st st2 l p02.emono hl1, hl2⟩
                · intro st' h; rw [heq] at h; exact OrgRes.noConfusion h
              | ok stF =>
                obtain ⟨rpost, rP⟩ := rOk stF hrec
                have heq : procInputs df (fuel + 1) comp i st = .ok stF := by
                  conv_lhs => rw [procInputs]
                  rw [hget]
                  simp only []
                  rw [if_pos hintrail, hsev]
                  simp only []
                  rw [if_pos hu1R, hbuild]
                  simp only []
                  rw [hrec]
                refine ⟨?_, ?_, ?_⟩
                · rw [heq]; exact fun h => OrgRes.noConfusion h
                · intro h; rw [heq] at h; exact OrgRes.noConfusion h
                · intro st' h
                  rw [heq] at h
                  injection h with h2
                  subst h2
                  refine ⟨orgPost_trans df n st st2 _ p02 rpost, ?_⟩
                  intro hA
                  refine rP ?_
                  rcases hA with hA | hA
                  · exact Or.inl (p02.mono comp hA)
                  · by_cases hchc : inputsOf st2 comp = inputsOf st comp
                    · right
                      intro x hx
                      rw [hchc, take_succ_of_get? _ _ _ hget] at hx
                      rcases List.mem_append.mp hx with h2 | h2
                      · exact p02.mono x (hA x h2)
                      · rw [List.mem_singleton.mp h2]
                        exact bm2
                    · exact Or.inl (p02.chg comp hchc)
        · -- no severance
          cases hu1 : isUnmapped st ic with
          | false =>
            obtain ⟨rNm, rAl, rOk⟩ := ihP comp (i + 1) st hw ht ho hd hcn he1
            cases hrec : procInputs df fuel comp (i + 1) st with
            | fuelOut =>
              have heq : procInputs df (fuel + 1) comp i st = .fuelOut := by
                conv_lhs => rw [procInputs]
                rw [hget]
                simp only []
                rw [if_neg hintrail]
                simp only []
                rw [if_neg (by rw [hu1]; exact Bool.false_ne_true)]
                simp only []
                rw [hrec]
              refine ⟨?_, ?_, ?_⟩
              · rw [heq]; exact fun h => OrgRes.noConfusion h
              · intro h; rw [heq] at h; exact OrgRes.noConfusion h
              · intro st' h; rw [heq] at h; exact OrgRes.noConfusion h
            | removeMissing => exact absurd hrec rNm
            | algebraicLoop =>
              have heq : procInputs df (fuel + 1) comp i st
                  = .algebraicLoop := by
                conv_lhs => rw [procInputs]
                rw [hget]
                simp only []
                rw [if_neg hintrail]
                simp only []
                rw [if_neg (by rw [hu1]; exact Bool.false_ne_true)]
                simp only []
                rw [hrec]
              refine ⟨?_, ?_, ?_⟩
              · rw [heq]; exact fun h => OrgRes.noConfusion h
              · intro _
                exact rAl hrec
              · intro st' h; rw [heq] at h; exact OrgRes.noConfusion h
            | ok stF =>
              obtain ⟨rpost, rP⟩ := rOk stF hrec
              have heq : procInputs df (fuel + 1) comp i st = .ok stF := by
                conv_lhs => rw [procInputs]
                rw [hget]
                simp only []
                rw [if_neg hintrail]
                simp only []
                rw [if_neg (by rw [hu1]; exact Bool.false_ne_true)]
                simp only []
                rw [hrec]
              refine ⟨?_, ?_, ?_⟩
              · rw [heq]; exact fun h => OrgRes.noConfusion h
              · intro h; rw [heq] at h; exact OrgRes.noConfusion h
              · intro st' h
                rw [heq] at h
                injection h with h2
                subst h2
                refine ⟨rpost, ?_⟩
                intro hA
                refine rP ?_
                rcases hA with hA | hA
                · exact Or.inl hA
                · right
                  intro x hx
                  rw [take_succ_of_get? _ _ _ hget] at hx
                  rcases List.mem_append.mp hx with h2 | h2
                  · exact hA x h2
                  · rw [List.mem_singleton.mp h2]
                    exact hu1
          | true =>
            have hlink2 : st.trail = [] ∨ ∃ tl, st.trail.getLast? = some tl ∧
                ic ∈ inputsOf st tl := by
              rcases he1 with h2 | h2
              · exact Or.inl h2
              · exact Or.inr ⟨comp, h2, hicmem⟩
            obtain ⟨bNm, bAl, bOk⟩ := ihB ic st hw ht ho hd hicn hu1
              hintrail hlink2
            cases hbuild : buildSystemOrder df fuel ic st with
            | fuelOut =>
              have heq : procInputs df (fuel + 1) comp i st = .fuelOut := by
                conv_lhs => rw [procInputs]
                rw [hget]
                simp only []
                rw [if_neg hintrail]
                simp only []
                rw [if_pos hu1, hbuild]
              refine ⟨?_, ?_, ?_⟩
              · rw [heq]; exact fun h => OrgRes.noConfusion h
              · intro h; rw [heq] at h; exact OrgRes.noConfusion h
              · intro st' h; rw [heq] at h; exact OrgRes.noConfusion h
            | removeMissing => exact absurd hbuild bNm
            | algebraicLoop =>
              have heq : procInputs df (fuel + 1) comp i st
                  = .algebraicLoop := by
                conv_lhs => rw [procInputs]
                rw [hget]
                simp only []
                rw [if_neg hintrail]
                simp only []
                rw [if_pos hu1, hbuild]
              refine ⟨?_, ?_, ?_⟩
              · rw [heq]; exact fun h => OrgRes.noConfusion h
              · intro _
                exact bAl hbuild
              · intro st' h; rw [heq] at h; exact OrgRes.noConfusion h
            | ok st2 =>
              obtain ⟨bpost, bm2⟩ := bOk st2 hbuild
              have he1' : st2.trail = [] ∨ st2.trail.getLast? = some comp := by
                rcases bpost.tshape with h2 | ⟨h2, _⟩
                · rw [h2]; exact he1
                · exact Or.inl h2
              obtain ⟨rNm, rAl, rOk⟩ := ihP comp (i + 1) st2 bpost.wf
                bpost.tinv bpost.oinv bpost.dinv hcn he1'
              cases hrec : procInputs df fuel comp (i + 1) st2 with
              | fuelOut =>
                have heq : procInputs df (fuel + 1) comp i st = .fuelOut := by
                  conv_lhs => rw [procInputs]
                  rw [hget]
                  simp only []
                  rw [if_neg hintrail]
                  simp only []
                  rw [if_pos hu1, hbuild]
                  simp only []
                  rw [hrec]
                refine ⟨?_, ?_, ?_⟩
                · rw [heq]; exact fun h => OrgRes.noConfusion h
                · intro h; rw [heq] at h; exact OrgRes.noConfusion h
                · intro st' h; rw [heq] at h; exact OrgRes.noConfusion h
              | removeMissing => exact absurd hrec rNm
              | algebraicLoop =>
                have heq : procInputs df (fuel + 1) comp i st
                    = .algebraicLoop := by
                  conv_lhs => rw [procInputs]
                  rw [hget]
                  simp only []
                  rw [if_neg hintrail]
                  simp only []
                  rw [if_pos hu1, hbuild]
                  simp only []
                  rw [hrec]
                refine ⟨?_, ?_, ?_⟩
                · rw [heq]; exact fun h => OrgRes.noConfusion h
                · intro _
                  obtain ⟨l, hl1, hl2⟩ := rAl hrec
                  exact ⟨l, cycle_transport st st2 l bpost.emono hl1, hl2⟩
                · intro st' h; rw [heq] at h; exact OrgRes.noConfusion h
              | ok stF =>
                obtain ⟨rpost, rP⟩ := rOk stF hrec
                have heq : procInputs df (fuel + 1) comp i st = .ok stF := by
                  conv_lhs => rw [procInputs]
                  rw [hget]
                  simp only []
                  rw [if_neg hintrail]
                  simp only []
                  rw [if_pos hu1, hbuild]
                  simp only []
                  rw [hrec]
                refine ⟨?_, ?_, ?_⟩
                · rw [heq]; exact fun h => OrgRes.noConfusion h
                · intro h; rw [heq] at h; exact OrgRes.noConfusion h
                · intro st' h
                  rw [heq] at h
                  injection h with h2
                  subst h2
                  refine ⟨orgPost_trans df n st st2 _ bpost rpost, ?_⟩
                  intro hA
                  refine rP ?_
                  rcases hA with hA | hA
                  · exact Or.inl (bpost.mono comp hA)
                  · by_cases hchc : inputsOf st2 comp = inputsOf st comp
                    · right
                      intro x hx
                      rw [hchc, take_succ_of_get? _ _ _ hget] at hx
                      rcases List.mem_append.mp hx with h2 | h2
                      · exact bpost.mono x (hA x h2)
                      · rw [List.mem_singleton.mp h2]
                        exact bm2
                    · exact Or.inl (bpost.chg comp hchc)

/-- A pointwise-implied predicate with a falsified witness has strictly
smaller `countP`. -/
theorem countP_lt_of_witness (p q : ℕ → Bool) (l : List ℕ) (a : ℕ)
    (ha : a ∈ l) (hpa : p a = false) (hqa : q a = true)
    (himp : ∀ x ∈ l, p x = true → q x = true) :
    l.countP p < l.countP q := by
  induction l with
  | nil => cases ha
  | cons b t ih =>
    rw [List.countP_cons, List.countP_cons]
    rcases List.mem_cons.mp ha with hb | hb
    · subst hb
      have h1 : t.countP p ≤ t.countP q :=
        List.countP_mono_left (fun x hx => himp x (List.mem_cons_of_mem _ hx))
      have h3 : (if p a = true then (1 : ℕ) else 0) = 0 := by rw [hpa]; simp
      have h4 : (if q a = true then (1 : ℕ) else 0) = 1 := by rw [hqa]; simp
      omega
    · have h1 := ih hb (fun x hx => himp x (List.mem_cons_of_mem _ hx))
      have h2 : (if p b = true then 1 else 0) ≤
          (if q b = true then 1 else 0) := by
        cases hpb : p b with
        | false => simp
        | true =>
          rw [himp b (List.mem_cons_self b t) hpb]
      omega

/-- The middle measure coordinate is bounded by the component count. -/
theorem utCount_le (n : ℕ) (st : OrgState) : utCount n st ≤ n := by
  have h := List.countP_le_length
    (fun c => isUnmapped st c && !(st.trail.contains c)) (l := List.range n)
  rw [List.length_range] at h
  exact h

/-- Every working input list is at most the total edge count long. -/
theorem len_le_totalEdges (st : OrgState) (c : ℕ) :
    (inputsOf st c).length ≤ totalEdges st := by
  by_cases hc : c < st.sysInputs.length
  · have h1 : st.sysInputs.getD c [] ∈ st.sysInputs := by
      rw [List.getD_eq_getElem _ _ hc]
      exact List.getElem_mem hc
    have h2 : (st.sysInputs.getD c []).length ∈
        st.sysInputs.map List.length := List.mem_map_of_mem _ h1
    exact List.le_sum_of_mem h2
  · show (st.sysInputs.getD c []).length ≤ _
    rw [List.getD_eq_default _ _ (le_of_not_lt hc)]
    exact Nat.zero_le _

/-- Base-`B + 1` positional comparison: a smaller leading digit beats any
bounded trailing digit. -/
theorem base_lt (a b r s B : ℕ) (hab : a < b) (hr : r ≤ B) :
    a * (B + 1) + r < b * (B + 1) + s := by
  have h1 : (a + 1) * (B + 1) = a * (B + 1) + (B + 1) := by ring
  have h2 : (a + 1) * (B + 1) ≤ b * (B + 1) := Nat.mul_le_mul_right _ hab
  omega

/-- The edge-count digit dominates the unmapped-count digit. -/
theorem digit_lt (n E' U' E U : ℕ) (hE : E' < E) (hU : U' ≤ n) :
    E' * (n + 1) + U' < E * (n + 1) + U := by
  have h1 : (E' + 1) * (n + 1) = E' * (n + 1) + (n + 1) := by ring
  have h2 : (E' + 1) * (n + 1) ≤ E * (n + 1) := Nat.mul_le_mul_right _ hE
  omega

/-- Pushing an unmapped off-trail component onto the trail strictly lowers
the unmapped off-trail count. -/
theorem utCount_push (n : ℕ) (st : OrgState) (comp : ℕ) (hcn : comp < n)
    (hcu : isUnmapped st comp = true) (hct : comp ∉ st.trail) :
    utCount n { st with trail := st.trail ++ [comp] } < utCount n st := by
  refine countP_lt_of_witness _ _ (List.range n) comp
    (List.mem_range.mpr hcn) ?_ ?_ ?_
  · show (isUnmapped st comp && !((st.trail ++ [comp]).contains comp)) = false
    have h1 : (st.trail ++ [comp]).contains comp = true := by
      simp
    rw [h1]
    simp
  · show (isUnmapped st comp && !(st.trail.contains comp)) = true
    have h1 : st.trail.contains comp = false := by
      simp
      exact hct
    rw [hcu, h1]
    rfl
  · intro x _ hx
    show (isUnmapped st x && !(st.trail.contains x)) = true
    have hx' : (isUnmapped st x && !((st.trail ++ [comp]).contains x))
        = true := hx
    rcases (Bool.and_eq_true _ _).mp hx' with ⟨hu, hnc⟩
    have hx3 : x ∉ st.trail ++ [comp] := by
      cases hcc : (st.trail ++ [comp]).contains x
      · simpa using hcc
      · rw [hcc] at hnc; cases hnc
    have hx4 : x ∉ st.trail := fun hmem =>
      hx3 (List.mem_append.mpr (Or.inl hmem))
    have h1 : st.trail.contains x = false := by
      simp
      exact hx4
    rw [hu, h1]
    rfl

/-- If the trail is unchanged, the mapped set only grows, and some unmapped
off-trail component got mapped, the unmapped off-trail count strictly
drops. -/
theorem utCount_lt_of_mapped (n : ℕ) (st st' : OrgState)
    (htr : st'.trail = st.trail)
    (hmono : ∀ c, isUnmapped st c = false → isUnmapped st' c = false)
    (ic : ℕ) (hicn : ic < n) (hu : isUnmapped st ic = true)
    (hnt : ic ∉ st.trail) (hm : isUnmapped st' ic = false) :
    utCount n st' < utCount n st := by
  refine countP_lt_of_witness _ _ (List.range n) ic
    (List.mem_range.mpr hicn) ?_ ?_ ?_
  · show (isUnmapped st' ic && !(st'.trail.contains ic)) = false
    rw [hm]
    rfl
  · show (isUnmapped st ic && !(st.trail.contains ic)) = true
    have h1 : st.trail.contains ic = false := by
      simp
      exact hnt
    rw [hu, h1]
    rfl
  · intro x _ hx
    show (isUnmapped st x && !(st.trail.contains x)) = true
    have hx' : (isUnmapped st' x && !(st'.trail.contains x)) = true := hx
    rcases (Bool.and_eq_true _ _).mp hx' with ⟨hu2, hnc⟩
    have hu3 : isUnmapped st x = true := by
      cases hxx : isUnmapped st x
      · rw [hmono x hxx] at hu2; cases hu2
      · rfl
    rw [hu3, ← htr, hnc]
    rfl

/-- Fuel sufficiency: from a well-formed entry state whose edge count is
bounded by `E0`, the organizer cannot run out of fuel once the fuel exceeds
the scalar termination measure — every severance pays for its trail reset
with an edge, and every completed sub-build maps a new component. -/
theorem org_terminates (df : List Bool) (n E0 : ℕ) : ∀ fuel : ℕ,
    (∀ comp st,
      WfSt n st → TrailInv st → OrderedInv n st → DoneInv n st →
      comp < n → isUnmapped st comp = true → comp ∉ st.trail →
      (st.trail = [] ∨ ∃ tl, st.trail.getLast? = some tl ∧
        comp ∈ inputsOf st tl) →
      totalEdges st ≤ E0 → measB n E0 st < fuel →
      buildSystemOrder df fuel comp st ≠ .fuelOut) ∧
    (∀ comp i st,
      WfSt n st → TrailInv st → OrderedInv n st → DoneInv n st →
      comp < n → (st.trail = [] ∨ st.trail.getLast? = some comp) →
      totalEdges st ≤ E0 → measP n E0 st comp i < fuel →
      procInputs df fuel comp i st ≠ .fuelOut) := by
  intro fuel
  induction fuel with
  | zero =>
    constructor
    · intro comp st _ _ _ _ _ _ _ _ _ hm
      exact absurd hm (Nat.not_lt_zero _)
    · intro comp i st _ _ _ _ _ _ _ hm
      exact absurd hm (Nat.not_lt_zero _)
  | succ fuel ih =>
    obtain ⟨ihB, ihP⟩ := ih
    constructor
    · -- build_system_order
      intro comp st hw ht ho hd hcn hcu hct hlink hE0 hmeas
      obtain ⟨hwIn, htIn, hlastIn⟩ :=
        build_entry_invs n st comp hw ht hcn hcu hct hlink
      have hUIn := utCount_push n st comp hcn hcu hct
      have hlen0 : (inputsOf st comp).length ≤ E0 :=
        le_trans (len_le_totalEdges st comp) hE0
      have hmP : measP n E0 { st with trail := st.trail ++ [comp] } comp 0 <
          measB n E0 st := by
        have eIn : measP n E0 { st with trail := st.trail ++ [comp] } comp 0 =
            ((totalEdges st * (n + 1) +
              utCount n { st with trail := st.trail ++ [comp] }) * 2 + 1) *
              (E0 + 1) + (inputsOf st comp).length := rfl
        have eB : measB n E0 st =
            (totalEdges st * (n + 1) + utCount n st) * 2 * (E0 + 1) := rfl
        have h := base_lt ((totalEdges st * (n + 1) +
            utCount n { st with trail := st.trail ++ [comp] }) * 2 + 1)
          ((totalEdges st * (n + 1) + utCount n st) * 2)
          (inputsOf st comp).length 0 E0 (by omega) hlen0
        omega
      have hne := ihP comp 0 { st with trail := st.trail ++ [comp] }
        hwIn htIn ho hd hcn (Or.inr hlastIn)
        (show totalEdges { st with trail := st.trail ++ [comp] } ≤ E0 from hE0)
        (by omega)
      cases hres : procInputs df fuel comp 0
          { st with trail := st.trail ++ [comp] } with
      | fuelOut => exact absurd hres hne
      | removeMissing =>
        have heq : buildSystemOrder df (fuel + 1) comp st = .removeMissing := by
          conv_lhs => rw [buildSystemOrder]
          rw [hres]
        rw [heq]
        exact fun h => OrgRes.noConfusion h
      | algebraicLoop =>
        have heq : buildSystemOrder df (fuel + 1) comp st = .algebraicLoop := by
          conv_lhs => rw [buildSystemOrder]
          rw [hres]
        rw [heq]
        exact fun h => OrgRes.noConfusion h
      | ok st1 =>
        cases hu1 : isUnmapped st1 comp with
        | true =>
          have heq : buildSystemOrder df (fuel + 1) comp st = .ok { st1 with
              ordered := st1.ordered ++ [comp],
              unmapped := st1.unmapped.set comp false,
              trail := if comp ∈ st1.trail then st1.trail.erase comp
                       else st1.trail } := by
            conv_lhs => rw [buildSystemOrder]
            rw [hres]
            simp only []
            rw [if_pos hu1]
          rw [heq]
          exact fun h => OrgRes.noConfusion h
        | false =>
          have heq : buildSystemOrder df (fuel + 1) comp st = .ok st1 := by
            conv_lhs => rw [buildSystemOrder]
            rw [hres]
            simp only []
            rw [if_neg (by rw [hu1]; exact Bool.false_ne_true)]
          rw [heq]
          exact fun h => OrgRes.noConfusion h
    · -- the input loop
      intro comp i st hw ht ho hd hcn he1 hE0 hmeas
      have eP : measP n E0 st comp i =
          ((totalEdges st * (n + 1) + utCount n st) * 2 + 1) * (E0 + 1) +
            ((inputsOf st comp).length - i) := rfl
      cases hget : (inputsOf st comp).get? i with
      | none =>
        have heq : procInputs df (fuel + 1) comp i st = .ok st := by
          conv_lhs => rw [procInputs]
          rw [hget]
        rw [heq]
        exact fun h => OrgRes.noConfusion h
      | some ic =>
        have hicmem : ic ∈ inputsOf st comp := get?_mem_nat _ _ _ hget
        have hicn : ic < n := inputsOf_bounded n st hw comp ic hicmem
        have hilen : i < (inputsOf st comp).length :=
          (List.get?_eq_some.mp hget).1
        by_cases hintrail : ic ∈ st.trail
        · -- severance
          have hlast : st.trail.getLast? = some comp := by
            rcases he1 with h2 | h2
            · rw [h2] at hintrail; cases hintrail
            · exact h2
          obtain ⟨sAl, sNm, sOk⟩ := sever_char df st ic comp ht hintrail hlast
            hicmem
          cases hsev : severSystemLoop df st ic with
          | fuelOut => exact absurd hsev (sever_ne_fuelOut df st ic)
          | removeMissing => exact absurd hsev sNm
          | algebraicLoop =>
            have heq : procInputs df (fuel + 1) comp i st = .algebraicLoop := by
              conv_lhs => rw [procInputs]
              rw [hget]
              simp only []
              rw [if_pos hintrail, hsev]
            rw [heq]
            exact fun h => OrgRes.noConfusion h
          | ok st1 =>
            obtain ⟨lc, lic, hlc, hlic, hdfl, hmeml, hst1eq, hreach⟩ :=
              sOk st1 hsev
            subst hst1eq
            obtain ⟨score, htot1, hothers, hselfl⟩ :=
              sever_post df n st lc lic hw ht ho hd hlc hlic hdfl hmeml
            have hu1R : isUnmapped { st with
                sysInputs := st.sysInputs.set lc ((inputsOf st lc).erase lic),
                trail := [] } ic = true := ht.2.1 ic hintrail
            have hmB1 : measB n E0 { st with
                sysInputs := st.sysInputs.set lc ((inputsOf st lc).erase lic),
                trail := [] } < measP n E0 st comp i := by
              have eB1 : measB n E0 { st with
                  sysInputs := st.sysInputs.set lc
                    ((inputsOf st lc).erase lic), trail := [] } =
                  (totalEdges { st with
                    sysInputs := st.sysInputs.set lc
                      ((inputsOf st lc).erase lic), trail := [] } * (n + 1) +
                   utCount n { st with
                    sysInputs := st.sysInputs.set lc
                      ((inputsOf st lc).erase lic), trail := [] }) * 2 *
                    (E0 + 1) := rfl
              have hd1 := digit_lt n (totalEdges { st with
                  sysInputs := st.sysInputs.set lc
                    ((inputsOf st lc).erase lic), trail := [] })
                (utCount n { st with
                  sysInputs := st.sysInputs.set lc
                    ((inputsOf st lc).erase lic), trail := [] })
                (totalEdges st) (utCount n st) (by omega)
                (utCount_le n _)
              have h := base_lt ((totalEdges { st with
                  sysInputs := st.sysInputs.set lc
                    ((inputsOf st lc).erase lic), trail := [] } * (n + 1) +
                  utCount n { st with
                  sysInputs := st.sysInputs.set lc
                    ((inputsOf st lc).erase lic), trail := [] }) * 2)
                ((totalEdges st * (n + 1) + utCount n st) * 2 + 1) 0
                ((inputsOf st comp).length - i) E0 (by omega) (Nat.zero_le E0)
              omega
            have hbne := ihB ic { st with
                sysInputs := st.sysInputs.set lc ((inputsOf st lc).erase lic),
                trail := [] } score.wf score.tinv score.oinv score.dinv hicn
              hu1R (List.not_mem_nil ic) (Or.inl rfl) (by omega) (by omega)
            cases hbuild : buildSystemOrder df fuel ic { st with
                sysInputs := st.sysInputs.set lc ((inputsOf st lc).erase lic),
                trail := [] } with
            | fuelOut => exact absurd hbuild hbne
            | removeMissing =>
              have heq : procInputs df (fuel + 1) comp i st
                  = .removeMissing := by
                conv_lhs => rw [procInputs]
                rw [hget]
                simp only []
                rw [if_pos hintrail, hsev]
                simp only []
                rw [if_pos hu1R, hbuild]
              rw [heq]
              exact fun h => OrgRes.noConfusion h
            | algebraicLoop =>
              have heq : procInputs df (fuel + 1) comp i st
                  = .algebraicLoop := by
                conv_lhs => rw [procInputs]
                rw [hget]
                simp only []
                rw [if_pos hintrail, hsev]
                simp only []
                rw [if_pos hu1R, hbuild]
              rw [heq]
              exact fun h => OrgRes.noConfusion h
            | ok st2 =>
              obtain ⟨bNm2, bAl2, bOk⟩ := (org_induction df n fuel).1 ic
                { st with
                  sysInputs := st.sysInputs.set lc
                    ((inputsOf st lc).erase lic), trail := [] }
                score.wf score.tinv score.oinv score.dinv hicn hu1R
                (List.not_mem_nil ic) (Or.inl rfl)
              obtain ⟨bpost, bm2⟩ := bOk st2 hbuild
              have hE2 : totalEdges st2 ≤ totalEdges { st with
                  sysInputs := st.sysInputs.set lc
                    ((inputsOf st lc).erase lic), trail := [] } :=
                totalEdges_mono _ st2 bpost.slen bpost.lmono
              have hst2tr : st2.trail = [] := by
                rcases bpost.tshape with h2 | ⟨h2, _⟩
                · rw [h2]
                · exact h2
              have hmP2 : measP n E0 st2 comp (i + 1) <
                  measP n E0 st comp i := by
                have eP2 : measP n E0 st2 comp (i + 1) =
                    ((totalEdges st2 * (n + 1) + utCount n st2) * 2 + 1) *
                      (E0 + 1) + ((inputsOf st2 comp).length - (i + 1)) := rfl
                have hd1 := digit_lt n (totalEdges st2) (utCount n st2)
                  (totalEdges st) (utCount n st) (by omega) (utCount_le n st2)
                have hr2 : (inputsOf st2 comp).length - (i + 1) ≤ E0 := by
                  have := len_le_totalEdges st2 comp
                  omega
                have h := base_lt
                  ((totalEdges st2 * (n + 1) + utCount n st2) * 2 + 1)
                  ((totalEdges st * (n + 1) + utCount n st) * 2 + 1)
                  ((inputsOf st2 comp).length - (i + 1))
                  ((inputsOf st comp).length - i) E0 (by omega) hr2
                omega
              have hrne := ihP comp (i + 1) st2 bpost.wf bpost.tinv bpost.oinv
                bpost.dinv hcn (Or.inl hst2tr) (by omega) (by omega)
              have heq : procInputs df (fuel + 1) comp i st =
                  procInputs df fuel comp (i + 1) st2 := by
                conv_lhs => rw [procInputs]
                rw [hget]
                simp only []
                rw [if_pos hintrail, hsev]
                simp only []
                rw [if_pos hu1R, hbuild]
              rw [heq]
              exact hrne
        · -- no severance
          cases hu1 : isUnmapped st ic with
          | false =>
            have hmP2 : measP n E0 st comp (i + 1) < measP n E0 st comp i := by
              have eP2 : measP n E0 st comp (i + 1) =
                  ((totalEdges st * (n + 1) + utCount n st) * 2 + 1) *
                    (E0 + 1) + ((inputsOf st comp).length - (i + 1)) := rfl
              omega
            have hrne := ihP comp (i + 1) st hw ht ho hd hcn he1 hE0 (by omega)
            have heq : procInputs df (fuel + 1) comp i st =
                procInputs df fuel comp (i + 1) st := by
              conv_lhs => rw [procInputs]
              rw [hget]
              simp only []
              rw [if_neg hintrail]
              simp only []
              rw [if_neg (by rw [hu1]; exact Bool.false_ne_true)]
            rw [heq]
            exact hrne
          | true =>
            have hlink2 : st.trail = [] ∨ ∃ tl, st.trail.getLast? = some tl ∧
                ic ∈ inputsOf st tl := by
              rcases he1 with h2 | h2
              · exact Or.inl h2
              · exact Or.inr ⟨comp, h2, hicmem⟩
            have hmB1 : measB n E0 st < measP n E0 st comp i := by
              have eB1 : measB n E0 st =
                  (totalEdges st * (n + 1) + utCount n st) * 2 * (E0 + 1) := rfl
              have h := base_lt ((totalEdges st * (n + 1) + utCount n st) * 2)
                ((totalEdges st * (n + 1) + utCount n st) * 2 + 1) 0
                ((inputsOf st comp).length - i) E0 (by omega) (Nat.zero_le E0)
              omega
            have hbne := ihB ic st hw ht ho hd hicn hu1 hintrail hlink2 hE0
              (by omega)
            cases hbuild : buildSystemOrder df fuel ic st with
            | fuelOut => exact absurd hbuild hbne
            | removeMissing =>
              have heq : procInputs df (fuel + 1) comp i st
                  = .removeMissing := by
                conv_lhs => rw [procInputs]
                rw [hget]
                simp only []
                rw [if_neg hintrail]
                simp only []
                rw [if_pos hu1, hbuild]
              rw [heq]
              exact fun h => OrgRes.noConfusion h
            | algebraicLoop =>
              have heq : procInputs df (fuel + 1) comp i st
                  = .algebraicLoop := by
                conv_lhs => rw [procInputs]
                rw [hget]
                simp only []
                rw [if_neg hintrail]
                simp only []
                rw [if_pos hu1, hbuild]
              rw [heq]
              exact fun h => OrgRes.noConfusion h
            | ok st2 =>
              obtain ⟨bNm2, bAl2, bOk⟩ := (org_induction df n fuel).1 ic st
                hw ht ho hd hicn hu1 hintrail hlink2
              obtain ⟨bpost, bm2⟩ := bOk st2 hbuild
              have hE2 : totalEdges st2 ≤ totalEdges st :=
                totalEdges_mono st st2 bpost.slen bpost.lmono
              have he1' : st2.trail = [] ∨ st2.trail.getLast? = some comp := by
                rcases bpost.tshape with h2 | ⟨h2, _⟩
                · rw [h2]; exact he1
                · exact Or.inl h2
              have hdig : totalEdges st2 * (n + 1) + utCount n st2 <
                  totalEdges st * (n + 1) + utCount n st := by
                rcases bpost.tshape with h2 | ⟨_, h3⟩
                · have hU2 : utCount n st2 < utCount n st :=
                    utCount_lt_of_mapped n st st2 h2 bpost.mono ic hicn hu1
                      hintrail bm2
                  rcases Nat.lt_or_ge (totalEdges st2) (totalEdges st) with
                    h4 | h4
                  · exact digit_lt n _ _ _ _ h4 (utCount_le n st2)
                  · have h5 : totalEdges st2 = totalEdges st :=
                      le_antisymm hE2 h4
                    rw [h5]
                    omega
                · exact digit_lt n _ _ _ _ h3 (utCount_le n st2)
              have hmP2 : measP n E0 st2 comp (i + 1) <
                  measP n E0 st comp i := by
                have eP2 : measP n E0 st2 comp (i + 1) =
                    ((totalEdges st2 * (n + 1) + utCount n st2) * 2 + 1) *
                      (E0 + 1) + ((inputsOf st2 comp).length - (i + 1)) := rfl
                have hr2 : (inputsOf st2 comp).length - (i + 1) ≤ E0 := by
                  have := len_le_totalEdges st2 comp
                  omega
                have h := base_lt
                  ((totalEdges st2 * (n + 1) + utCount n st2) * 2 + 1)
                  ((totalEdges st * (n + 1) + utCount n st) * 2 + 1)
                  ((inputsOf st2 comp).length - (i + 1))
                  ((inputsOf st comp).length - i) E0 (by omega) hr2
                omega
              have hrne := ihP comp (i + 1) st2 bpost.wf bpost.tinv bpost.oinv
                bpost.dinv hcn he1' (by omega) (by omega)
              have heq : procInputs df (fuel + 1) comp i st =
                  procInputs df fuel comp (i + 1) st2 := by
                conv_lhs => rw [procInputs]
                rw [hget]
                simp only []
                rw [if_neg hintrail]
                simp only []
                rw [if_pos hu1, hbuild]
              rw [heq]
              exact hrne

/-- Each successful severance removes exactly one working edge. -/
theorem sever_decreases (df : List Bool) (st : OrgState) (ic : ℕ)
    (st1 : OrgState) (h : severSystemLoop df st ic = .ok st1) :
    totalEdges st1 + 1 = totalEdges st := by
  have hdd : severSystemLoop df st ic =
      match findSeverPair df (st.trail.drop (st.trail.indexOf ic)) with
      | none => .algebraicLoop
      | some (lc, lic) =>
        if lic ∈ inputsOf st lc then
          .ok { (setInputs st lc ((inputsOf st lc).erase lic))
                with trail := [] }
        else .removeMissing := rfl
  rw [hdd] at h
  cases hfind : findSeverPair df (st.trail.drop (st.trail.indexOf ic)) with
  | none => rw [hfind] at h; exact OrgRes.noConfusion h
  | some pr =>
    obtain ⟨lc, lic⟩ := pr
    rw [hfind] at h
    simp only [] at h
    by_cases hmem : lic ∈ inputsOf st lc
    · rw [if_pos hmem] at h
      injection h with h2
      subst h2
      have hrange : lc < st.sysInputs.length := by
        by_contra hnr
        have h3 : inputsOf st lc = [] := by
          show st.sysInputs.getD lc [] = []
          exact List.getD_eq_default _ _ (le_of_not_lt hnr)
        rw [h3] at hmem
        cases hmem
      have hts := totalEdges_set st lc ((inputsOf st lc).erase lic) hrange
      have hpos : 0 < (inputsOf st lc).length := List.length_pos.mpr
        (by intro hh; rw [hh] at hmem; cases hmem)
      have hel : ((inputsOf st lc).erase lic).length + 1
          = (inputsOf st lc).length := by
        rw [List.length_erase_of_mem hmem]
        omega
      show totalEdges { st with
        sysInputs := st.sysInputs.set lc ((inputsOf st lc).erase lic),
        trail := [] } + 1 = totalEdges st
      omega
    · rw [if_neg hmem] at h
      exact OrgRes.noConfusion h

/-- A component that is already mapped is skipped by the input loop: no
severance and no recursive `build_system_order` call. -/
theorem mapped_input_no_recursion (df : List Bool) (fuel : ℕ)
    (st : OrgState) (comp i ic : ℕ) (ht : TrailInv st)
    (hget : (inputsOf st comp).get? i = some ic)
    (hu : isUnmapped st ic = false) :
    procInputs df (fuel + 1) comp i st
      = procInputs df fuel comp (i + 1) st := by
  have hintrail : ic ∉ st.trail := by
    intro hmem
    rw [ht.2.1 ic hmem] at hu
    cases hu
  conv_lhs => rw [procInputs]
  rw [hget]
  simp only []
  rw [if_neg hintrail]
  simp only []
  rw [if_neg (by rw [hu]; exact Bool.false_ne_true)]

/-- With an unchanged trail and a shrinking unmapped set, the unmapped
off-trail count does not grow. -/
theorem utCount_mono (n : ℕ) (st st' : OrgState) (htr : st'.trail = st.trail)
    (hmono : ∀ c, isUnmapped st c = false → isUnmapped st' c = false) :
    utCount n st' ≤ utCount n st := by
  refine List.countP_mono_left ?_
  intro x _ hx
  show (isUnmapped st x && !(st.trail.contains x)) = true
  have hx' : (isUnmapped st' x && !(st'.trail.contains x)) = true := hx
  rcases (Bool.and_eq_true _ _).mp hx' with ⟨hu2, hnc⟩
  have hu3 : isUnmapped st x = true := by
    cases hxx : isUnmapped st x
    · rw [hmono x hxx] at hu2; cases hu2
    · rfl
  rw [hu3, ← htr, hnc]
  rfl

/-- The build measure is monotone in its two coordinates. -/
theorem measB_mono (n E0 : ℕ) (st st' : OrgState)
    (hE : totalEdges st' ≤ totalEdges st)
    (hU : utCount n st' ≤ utCount n st) :
    measB n E0 st' ≤ measB n E0 st := by
  have h1 : totalEdges st' * (n + 1) + utCount n st' ≤
      totalEdges st * (n + 1) + utCount n st :=
    Nat.add_le_add (Nat.mul_le_mul_right _ hE) hU
  show (totalEdges st' * (n + 1) + utCount n st') * 2 * (E0 + 1) ≤
    (totalEdges st * (n + 1) + utCount n st) * 2 * (E0 + 1)
  exact Nat.mul_le_mul_right _ (Nat.mul_le_mul_right _ h1)

/-- Soundness of the component-sweep driver: no `list.remove` error, an
algebraic-loop abort only with an all-direct-feedthrough working cycle at
entry, and on success the postcondition package with every swept component
mapped. -/
theorem organize_all_sound (df : List Bool) (n fuel : ℕ) :
    ∀ comps st, WfSt n st → TrailInv st → OrderedInv n st → DoneInv n st →
    st.trail = [] → (∀ c ∈ comps, c < n) →
    organizeAll df fuel comps st ≠ .removeMissing ∧
    (organizeAll df fuel comps st = .algebraicLoop →
      ∃ l, CycleSt st l ∧ ∀ m ∈ l, df.getD m true = true) ∧
    (∀ st', organizeAll df fuel comps st = .ok st' →
      OrgPost df n st st' ∧ st'.trail = [] ∧
      ∀ c ∈ comps, isUnmapped st' c = false) := by
  intro comps
  induction comps with
  | nil =>
    intro st hw ht ho hd htr _
    refine ⟨fun h => OrgRes.noConfusion h, fun h => OrgRes.noConfusion h, ?_⟩
    intro st' h
    have h' : OrgRes.ok st = .ok st' := h
    injection h' with h2
    subst h2
    exact ⟨orgPost_refl df n st hw ht ho hd, htr,
      fun c hc => absurd hc (List.not_mem_nil c)⟩
  | cons comp rest ihr =>
    intro st hw ht ho hd htr hbd
    have hcn : comp < n := hbd comp (List.mem_cons_self _ _)
    cases hu : isUnmapped st comp with
    | false =>
      have heq : organizeAll df fuel (comp :: rest) st
          = organizeAll df fuel rest st := by
        conv_lhs => rw [organizeAll]
        rw [if_neg (by rw [hu]; exact Bool.false_ne_true)]
      obtain ⟨rNm, rAl, rOk⟩ := ihr st hw ht ho hd htr
        (fun c hc => hbd c (List.mem_cons_of_mem _ hc))
      refine ⟨?_, ?_, ?_⟩
      · rw [heq]; exact rNm
      · rw [heq]; exact rAl
      · intro st' h
        rw [heq] at h
        obtain ⟨rp, rtr, rall⟩ := rOk st' h
        refine ⟨rp, rtr, ?_⟩
        intro c hc
        rcases List.mem_cons.mp hc with h2 | h2
        · rw [h2]; exact rp.mono comp hu
        · exact rall c h2
    | true =>
      obtain ⟨bNm, bAl, bOk⟩ := (org_induction df n fuel).1 comp st hw ht ho
        hd hcn hu (by rw [htr]; exact List.not_mem_nil comp) (Or.inl htr)
      cases hbuild : buildSystemOrder df fuel comp st with
      | fuelOut =>
        have heq : organizeAll df fuel (comp :: rest) st = .fuelOut := by
          conv_lhs => rw [organizeAll]
          rw [if_pos hu, hbuild]
        refine ⟨?_, ?_, ?_⟩
        · rw [heq]; exact fun h => OrgRes.noConfusion h
        · intro h; rw [heq] at h; exact OrgRes.noConfusion h
        · intro st' h; rw [heq] at h; exact OrgRes.noConfusion h
      | removeMissing => exact absurd hbuild bNm
      | algebraicLoop =>
        have heq : organizeAll df fuel (comp :: rest) st = .algebraicLoop := by
          conv_lhs => rw [organizeAll]
          rw [if_pos hu, hbuild]
        refine ⟨?_, ?_, ?_⟩
        · rw [heq]; exact fun h => OrgRes.noConfusion h
        · intro _
          exact bAl hbuild
        · intro st' h; rw [heq] at h; exact OrgRes.noConfusion h
      | ok st1 =>
        obtain ⟨bpost, bm1⟩ := bOk st1 hbuild
        have htr1 : st1.trail = [] := by
          rcases bpost.tshape with h2 | ⟨h2, _⟩
          · rw [h2]; exact htr
          · exact h2
        obtain ⟨rNm, rAl, rOk⟩ := ihr st1 bpost.wf bpost.tinv bpost.oinv
          bpost.dinv htr1 (fun c hc => hbd c (List.mem_cons_of_mem _ hc))
        have heq : organizeAll df fuel (comp :: rest) st
            = organizeAll df fuel rest st1 := by
          conv_lhs => rw [organizeAll]
          rw [if_pos hu, hbuild]
        refine ⟨?_, ?_, ?_⟩
        · rw [heq]; exact rNm
        · rw [heq]
          intro h
          obtain ⟨l, hl1, hl2⟩ := rAl h
          exact ⟨l, cycle_transport st st1 l bpost.emono hl1, hl2⟩
        · intro st' h
          rw [heq] at h
          obtain ⟨rp, rtr, rall⟩ := rOk st' h
          refine ⟨orgPost_trans df n st st1 st' bpost rp, rtr, ?_⟩
          intro c hc
          rcases List.mem_cons.mp hc with h2 | h2
          · rw [h2]; exact rp.mono comp bm1
          · exact rall c h2

/-- Fuel sufficiency for the driver sweep. -/
theorem organize_all_fuel (df : List Bool) (n E0 fuel : ℕ) :
    ∀ comps st, WfSt n st → TrailInv st → OrderedInv n st → DoneInv n st →
    st.trail = [] → (∀ c ∈ comps, c < n) → totalEdges st ≤ E0 →
    measB n E0 st < fuel →
    organizeAll df fuel comps st ≠ .fuelOut := by
  intro comps
  induction comps with
  | nil =>
    intro st _ _ _ _ _ _ _ _
    exact fun h => OrgRes.noConfusion h
  | cons comp rest ihr =>
    intro st hw ht ho hd htr hbd hE0 hmeas
    have hcn : comp < n := hbd comp (List.mem_cons_self _ _)
    cases hu : isUnmapped st comp with
    | false =>
      have heq : organizeAll df fuel (comp :: rest) st
          = organizeAll df fuel rest st := by
        conv_lhs => rw [organizeAll]
        rw [if_neg (by rw [hu]; exact Bool.false_ne_true)]
      rw [heq]
      exact ihr st hw ht ho hd htr
        (fun c hc => hbd c (List.mem_cons_of_mem _ hc)) hE0 hmeas
    | true =>
      have hbne := (org_terminates df n E0 fuel).1 comp st hw ht ho hd hcn hu
        (by rw [htr]; exact List.not_mem_nil comp) (Or.inl htr) hE0 hmeas
      obtain ⟨bNm, bAl, bOk⟩ := (org_induction df n fuel).1 comp st hw ht ho
        hd hcn hu (by rw [htr]; exact List.not_mem_nil comp) (Or.inl htr)
      cases hbuild : buildSystemOrder df fuel comp st with
      | fuelOut => exact absurd hbuild hbne
      | removeMissing =>
        have heq : organizeAll df fuel (comp :: rest) st = .removeMissing := by
          conv_lhs => rw [organizeAll]
          rw [if_pos hu, hbuild]
        rw [heq]
        exact fun h => OrgRes.noConfusion h
      | algebraicLoop =>
        have heq : organizeAll df fuel (comp :: rest) st = .algebraicLoop := by
          conv_lhs => rw [organizeAll]
          rw [if_pos hu, hbuild]
        rw [heq]
        exact fun h => OrgRes.noConfusion h
      | ok st1 =>
        obtain ⟨bpost, bm1⟩ := bOk st1 hbuild
        have htr1 : st1.trail = [] := by
          rcases bpost.tshape with h2 | ⟨h2, _⟩
          · rw [h2]; exact htr
          · exact h2
        have hE1 : totalEdges st1 ≤ totalEdges st :=
          totalEdges_mono st st1 bpost.slen bpost.lmono
        have hU1 : utCount n st1 ≤ utCount n st := by
          refine utCount_mono n st st1 ?_ bpost.mono
          rw [htr1, htr]
        have hm1 : measB n E0 st1 ≤ measB n E0 st := measB_mono n E0 st st1
          hE1 hU1
        have heq : organizeAll df fuel (comp :: rest) st
            = organizeAll df fuel rest st1 := by
          conv_lhs => rw [organizeAll]
          rw [if_pos hu, hbuild]
        rw [heq]
        exact ihr st1 bpost.wf bpost.tinv bpost.oinv bpost.dinv htr1
          (fun c hc => hbd c (List.mem_cons_of_mem _ hc)) (by omega) (by omega)

/-- Every member of a working-edge cycle is a valid component index. -/
theorem cycleSt_members_lt (n : ℕ) (st : OrgState) (hw : WfSt n st)
    (l : List ℕ) (hc : CycleSt st l) : ∀ m ∈ l, m < n := by
  intro m hm
  obtain ⟨k, hk, hkm⟩ := List.getElem_of_mem hm
  have hlp : 0 < l.length := List.length_pos.mpr hc.1
  obtain ⟨j, hj, hjk⟩ : ∃ j, j < l.length ∧ (j + 1) % l.length = k := by
    cases k with
    | zero =>
      refine ⟨l.length - 1, by omega, ?_⟩
      rw [Nat.sub_add_cancel hlp, Nat.mod_self]
    | succ k' =>
      refine ⟨k', by omega, ?_⟩
      exact Nat.mod_eq_of_lt hk
  have h1 := hc.2 j hj
  rw [hjk] at h1
  have h2 : l.getD k 0 = m := by
    rw [List.getD_eq_getElem _ _ hk]
    exact hkm
  rw [h2] at h1
  exact inputsOf_bounded n st hw _ m h1

/-- A cycle all of whose members are direct-feedthrough survives any run
that preserves direct-feedthrough edges. -/
theorem cycle_persist (df : List Bool) (st st' : OrgState)
    (hdfp : ∀ c x, df.getD x true = true → edgeCnt st' c x = edgeCnt st c x)
    (l : List ℕ) (hc : CycleSt st l)
    (hdf : ∀ m ∈ l, df.getD m true = true) : CycleSt st' l := by
  refine ⟨hc.1, ?_⟩
  intro j hj
  have hlp : 0 < l.length := List.length_pos.mpr hc.1
  have h1 := hc.2 j hj
  have hlt : (j + 1) % l.length < l.length := Nat.mod_lt _ hlp
  have hsucc : l.getD ((j + 1) % l.length) 0 ∈ l := by
    rw [List.getD_eq_getElem _ _ hlt]
    exact List.getElem_mem hlt
  have h2 := hdfp (l.getD j 0) (l.getD ((j + 1) % l.length) 0) (hdf _ hsucc)
  have h3 : 0 < edgeCnt st (l.getD j 0) (l.getD ((j + 1) % l.length) 0) :=
    List.count_pos_iff.mpr h1
  have h4 : 0 < edgeCnt st' (l.getD j 0) (l.getD ((j + 1) % l.length) 0) := by
    omega
  exact List.count_pos_iff.mp h4

/-- For an in-range index the two `getD` defaults agree. -/
theorem getD_df_eq (df : List Bool) (m : ℕ) (hm : m < df.length) :
    df.getD m false = df.getD m true := by
  rw [List.getD_eq_getElem _ _ hm, List.getD_eq_getElem _ _ hm]

/-- No state satisfying the done-invariant maps every member of a cycle of
its current edges: the cyclic chain of index decreases is impossible. -/
theorem cycle_not_done (n : ℕ) (st : OrgState) (hd : DoneInv n st)
    (l : List ℕ) (hc : CycleSt st l) (hn : ∀ m ∈ l, m < n)
    (hm : ∀ m ∈ l, isUnmapped st m = false) : False := by
  have hlp : 0 < l.length := List.length_pos.mpr hc.1
  have hstep : ∀ j, j < l.length →
      st.ordered.indexOf (l.getD ((j + 1) % l.length) 0) <
      st.ordered.indexOf (l.getD j 0) := by
    intro j hj
    have h1 := hc.2 j hj
    have hmemj : l.getD j 0 ∈ l := by
      rw [List.getD_eq_getElem _ _ hj]
      exact List.getElem_mem hj
    exact (hd (l.getD j 0) (hn _ hmemj) (hm _ hmemj) _ h1).2
  have hF : ∀ k : ℕ, st.ordered.indexOf (l.getD (k % l.length) 0) + k ≤
      st.ordered.indexOf (l.getD (0 % l.length) 0) := by
    intro k
    induction k with
    | zero => omega
    | succ k ihk =>
      have h1 := hstep (k % l.length) (Nat.mod_lt _ hlp)
      have h2 : (k % l.length + 1) % l.length = (k + 1) % l.length := by
        conv_rhs => rw [Nat.add_mod]
        conv_lhs => rw [Nat.add_mod]
        rw [Nat.mod_mod_of_dvd _ (dvd_refl _)]
      rw [h2] at h1
      omega
  have := hF (st.ordered.indexOf (l.getD (0 % l.length) 0) + 1)
  omega

/-- The initial organizer state satisfies all four invariants whenever the
input data stays within the component range. -/
theorem init_invs (inputsData : List (List ℕ))
    (hbd : ∀ l ∈ inputsData, ∀ x ∈ l, x < inputsData.length) :
    WfSt inputsData.length (initOrgState inputsData) ∧
    TrailInv (initOrgState inputsData) ∧
    OrderedInv inputsData.length (initOrgState inputsData) ∧
    DoneInv inputsData.length (initOrgState inputsData) := by
  have humap : ∀ c, c < inputsData.length →
      isUnmapped (initOrgState inputsData) c = true := by
    intro c hc
    show (inputsData.map (fun _ => true)).getD c false = true
    rw [List.getD_eq_getElem _ _ (by rw [List.length_map]; exact hc)]
    simp
  refine ⟨⟨rfl, by simp [initOrgState], hbd, ?_, ?_⟩,
    ⟨List.nodup_nil, ?_, ?_⟩, ⟨List.nodup_nil, ?_⟩, ?_⟩
  · intro t ht
    exact absurd ht (List.not_mem_nil t)
  · intro c hcm
    exact absurd hcm (List.not_mem_nil c)
  · intro t ht
    exact absurd ht (List.not_mem_nil t)
  · intro j hj
    have hj' : j + 1 < 0 := hj
    omega
  · intro c hc
    constructor
    · intro hcm
      exact absurd hcm (List.not_mem_nil c)
    · intro hmap
      rw [humap c hc] at hmap
      exact Bool.noConfusion hmap
  · intro m hm hmap
    rw [humap m hm] at hmap
    exact Bool.noConfusion hmap

/-- With an all-direct-feedthrough dependency cycle in the data, no fuel
gives a successful order resolution. -/
theorem no_ok_of_alldf_cycle (df : List Bool) (inputsData : List (List ℕ))
    (hbd : ∀ l ∈ inputsData, ∀ x ∈ l, x < inputsData.length)
    (l : List ℕ) (hcyc : CycleIn inputsData l)
    (hdf : ∀ m ∈ l, df.getD m true = true) :
    ∀ fuel st', runDiagram df inputsData fuel ≠ .ok st' := by
  intro fuel st' h
  obtain ⟨hw0, ht0, ho0, hd0⟩ := init_invs inputsData hbd
  obtain ⟨_, _, rOk⟩ := organize_all_sound df inputsData.length fuel
    (List.range inputsData.length) (initOrgState inputsData) hw0 ht0 ho0 hd0
    rfl (fun c hc => List.mem_range.mp hc)
  obtain ⟨rp, _, rall⟩ := rOk st' h
  have hcyc0 : CycleSt (initOrgState inputsData) l := hcyc
  have hmem_lt := cycleSt_members_lt inputsData.length _ hw0 l hcyc0
  have hcyc' : CycleSt st' l := cycle_persist df _ st' rp.dfpres l hcyc0 hdf
  refine cycle_not_done inputsData.length st' rp.dinv l hcyc' hmem_lt ?_
  intro m hm
  exact rall m (List.mem_range.mpr (hmem_lt m hm))

/-- With enough fuel the run either succeeds with all components mapped,
or aborts with the algebraic-loop `Exception` and exhibits an
all-direct-feedthrough cycle of the input data. -/
theorem run_dichotomy (df : List Bool) (inputsData : List (List ℕ))
    (hbd : ∀ l ∈ inputsData, ∀ x ∈ l, x < inputsData.length) (fuel : ℕ)
    (hfuel : measB inputsData.length (totalEdges (initOrgState inputsData))
      (initOrgState inputsData) < fuel) :
    (∃ st', runDiagram df inputsData fuel = .ok st' ∧
      OrgPost df inputsData.length (initOrgState inputsData) st' ∧
      ∀ c, c < inputsData.length → isUnmapped st' c = false) ∨
    (runDiagram df inputsData fuel = .algebraicLoop ∧
      ∃ l, CycleIn inputsData l ∧ ∀ m ∈ l, df.getD m true = true) := by
  obtain ⟨hw0, ht0, ho0, hd0⟩ := init_invs inputsData hbd
  obtain ⟨rNm, rAl, rOk⟩ := organize_all_sound df inputsData.length fuel
    (List.range inputsData.length) (initOrgState inputsData) hw0 ht0 ho0 hd0
    rfl (fun c hc => List.mem_range.mp hc)
  have rFu := organize_all_fuel df inputsData.length
    (totalEdges (initOrgState inputsData)) fuel
    (List.range inputsData.length) (initOrgState inputsData) hw0 ht0 ho0 hd0
    rfl (fun c hc => List.mem_range.mp hc) (le_refl _) hfuel
  cases hres : runDiagram df inputsData fuel with
  | fuelOut => exact absurd hres rFu
  | removeMissing => exact absurd hres rNm
  | algebraicLoop =>
    right
    refine ⟨rfl, ?_⟩
    obtain ⟨l, hl1, hl2⟩ := rAl hres
    exact ⟨l, hl1, hl2⟩
  | ok st' =>
    left
    obtain ⟨rp, _, rall⟩ := rOk st' hres
    exact ⟨st', rfl, rp, fun c hc => rall c (List.mem_range.mpr hc)⟩

/-- **C3.** For every diagram over a finite component set with finitely many
dependency edges, `build_system_order` terminates: each loop severance
strictly reduces the finite working edge set (by exactly one edge), some
fuel bound suffices for the whole run — and any larger fuel too — the input
loop never severs or recurses on an already-mapped component (it just moves
on), and consequently a successful order lists no component twice. -/
theorem build_terminates (df : List Bool) (inputsData : List (List ℕ))
    (hbd : ∀ l ∈ inputsData, ∀ x ∈ l, x < inputsData.length) :
    (∀ st ic st1, severSystemLoop df st ic = .ok st1 →
      totalEdges st1 + 1 = totalEdges st) ∧
    (∃ fuel, ∀ fuel', fuel ≤ fuel' →
      runDiagram df inputsData fuel' ≠ .fuelOut) ∧
    (∀ fuel st comp i ic, TrailInv st →
      (inputsOf st comp).get? i = some ic → isUnmapped st ic = false →
      procInputs df (fuel + 1) comp i st
        = procInputs df fuel comp (i + 1) st) ∧
    (∀ fuel st', runDiagram df inputsData fuel = .ok st' →
      st'.ordered.Nodup) := by
  refine ⟨fun st ic st1 h => sever_decreases df st ic st1 h, ?_, ?_, ?_⟩
  · refine ⟨measB inputsData.length (totalEdges (initOrgState inputsData))
      (initOrgState inputsData) + 1, ?_⟩
    intro fuel' hf
    obtain ⟨hw0, ht0, ho0, hd0⟩ := init_invs inputsData hbd
    exact organize_all_fuel df inputsData.length
      (totalEdges (initOrgState inputsData)) fuel'
      (List.range inputsData.length) (initOrgState inputsData) hw0 ht0 ho0
      hd0 rfl (fun c hc => List.mem_range.mp hc) (le_refl _) (by omega)
  · intro fuel st comp i ic ht hget hu
    exact mapped_input_no_recursion df fuel st comp i ic ht hget hu
  · intro fuel st' h
    obtain ⟨hw0, ht0, ho0, hd0⟩ := init_invs inputsData hbd
    obtain ⟨_, _, rOk⟩ := organize_all_sound df inputsData.length fuel
      (List.range inputsData.length) (initOrgState inputsData) hw0 ht0 ho0
      hd0 rfl (fun c hc => List.mem_range.mp hc)
    obtain ⟨rp, _, _⟩ := rOk st' h
    exact rp.oinv.1

/-- Concrete instance of the termination theorem for a two-component
feedback diagram. -/
theorem build_terminates_witness :
    (∀ st ic st1, severSystemLoop [true, false] st ic = .ok st1 →
      totalEdges st1 + 1 = totalEdges st) ∧
    (∃ fuel, ∀ fuel', fuel ≤ fuel' →
      runDiagram [true, false] [[1], [0]] fuel' ≠ .fuelOut) ∧
    (∀ fuel st comp i ic, TrailInv st →
      (inputsOf st comp).get? i = some ic → isUnmapped st ic = false →
      procInputs [true, false] (fuel + 1) comp i st
        = procInputs [true, false] fuel comp (i + 1) st) ∧
    (∀ fuel st', runDiagram [true, false] [[1], [0]] fuel = .ok st' →
      st'.ordered.Nodup) :=
  build_terminates [true, false] [[1], [0]] (by decide)

/-- **C2.** A dependency cycle in which every member is direct-feedthrough
makes order resolution fail with the algebraic-loop `Exception`: no amount
of fuel can make the run succeed (the failure is unrecoverable for the
diagram), and with enough fuel the run aborts with exactly that
`Exception`. -/
theorem algebraic_loop_unrecoverable (df : List Bool)
    (inputsData : List (List ℕ))
    (hbd : ∀ l ∈ inputsData, ∀ x ∈ l, x < inputsData.length)
    (l : List ℕ) (hcyc : CycleIn inputsData l) (hdf : AllDf df l) :
    (∀ fuel st', runDiagram df inputsData fuel ≠ .ok st') ∧
    (∃ fuel, runDiagram df inputsData fuel = .algebraicLoop) := by
  have hdf' : ∀ m ∈ l, df.getD m true = true := by
    intro m hm
    have h1 := hdf m hm
    by_cases h2 : m < df.length
    · rw [← getD_df_eq df m h2]
      exact h1
    · rw [List.getD_eq_default _ _ (le_of_not_lt h2)] at h1
      exact Bool.noConfusion h1
  refine ⟨no_ok_of_alldf_cycle df inputsData hbd l hcyc hdf', ?_⟩
  refine ⟨measB inputsData.length (totalEdges (initOrgState inputsData))
    (initOrgState inputsData) + 1, ?_⟩
  rcases run_dichotomy df inputsData hbd
    (measB inputsData.length (totalEdges (initOrgState inputsData))
      (initOrgState inputsData) + 1) (by omega) with
    ⟨st', hok, _, _⟩ | ⟨halg, _⟩
  · exact absurd hok
      (no_ok_of_alldf_cycle df inputsData hbd l hcyc hdf' _ st')
  · exact halg

/-- Concrete instance: a two-component all-direct-feedthrough loop aborts
with the algebraic-loop `Exception` and can never succeed. -/
theorem algebraic_loop_unrecoverable_witness :
    (∀ fuel st', runDiagram [true, true] [[1], [0]] fuel ≠ .ok st') ∧
    (∃ fuel, runDiagram [true, true] [[1], [0]] fuel = .algebraicLoop) :=
  algebraic_loop_unrecoverable [true, true] [[1], [0]] (by decide) [0, 1]
    ⟨by decide, by decide⟩
    (by decide : ∀ m ∈ ([0, 1] : List ℕ),
      ([true, true] : List Bool).getD m false = true)

/-- A four-component diagram with two feedback loops — one with a
non-direct-feedthrough member, one all-direct-feedthrough: the claimed
guarantee fails because the other loop aborts the whole build. -/
theorem build_order_counterexample :
    CycleIn [[1], [0], [3], [2]] [0, 1] ∧
    (∃ m, m ∈ [0, 1] ∧
      ([true, false, true, true] : List Bool).getD m false = false) ∧
    (∀ fuel st',
      runDiagram [true, false, true, true] [[1], [0], [3], [2]] fuel
        ≠ .ok st') ∧
    runDiagram [true, false, true, true] [[1], [0], [3], [2]] 100
      = .algebraicLoop := by
  refine ⟨⟨by decide, by decide⟩, ⟨1, by decide, by decide⟩, ?_, by rfl⟩
  exact no_ok_of_alldf_cycle [true, false, true, true] [[1], [0], [3], [2]]
    (by decide) [2, 3] ⟨by decide, by decide⟩ (by decide)

/-- The claim's three-component example has no all-direct-feedthrough
working cycle. -/
theorem no_alldf_cycle_abc :
    ¬ ∃ l, CycleIn [[2], [0], [1]] l ∧
      ∀ m ∈ l, ([true, true, false] : List Bool).getD m true = true := by
  rintro ⟨l, ⟨hne, hcyc⟩, hdf⟩
  have hlp : 0 < l.length := List.length_pos.mpr hne
  have hmem0 : l.getD 0 0 ∈ l := by
    rw [List.getD_eq_getElem _ _ hlp]
    exact List.getElem_mem hlp
  have hn2 : ∀ m ∈ l, m ≠ 2 := by
    intro m hm hm2
    have h2 := hdf m hm
    rw [hm2] at h2
    exact Bool.noConfusion h2
  have hzero : ∀ j, j < l.length → l.getD j 0 = 0 → False := by
    intro j hj h0
    have h1 := hcyc j hj
    rw [h0] at h1
    have h2 : l.getD ((j + 1) % l.length) 0 = 2 := List.mem_singleton.mp h1
    have h4 : l.getD ((j + 1) % l.length) 0 ∈ l := by
      have hlt : (j + 1) % l.length < l.length := Nat.mod_lt _ hlp
      rw [List.getD_eq_getElem _ _ hlt]
      exact List.getElem_mem hlt
    exact hn2 _ h4 h2
  have h1 := hcyc 0 hlp
  rcases hcase : l.getD 0 0 with _ | (_ | (_ | k))
  · exact hzero 0 hlp hcase
  · rw [hcase] at h1
    have h2 : l.getD ((0 + 1) % l.length) 0 = 0 := List.mem_singleton.mp h1
    exact hzero _ (Nat.mod_lt _ hlp) h2
  · exact hn2 _ hmem0 hcase
  · rw [hcase] at h1
    exact absurd h1 (List.not_mem_nil _)

/-- **C1 (amended).** When the dependency data carries no
all-direct-feedthrough cycle, `build_system_order` driven over all
components terminates and succeeds with enough fuel, the resulting order
holds exactly the diagram's components, each exactly once, and every
component's surviving (non-severed) working input dependencies and their
order precede it; the claim's three-component loop A→B→C→A with C
non-direct-feedthrough yields the order A, B, C with A's severed dependency
on C removed from the working inputs. -/
theorem build_order_amended (df : List Bool) (inputsData : List (List ℕ))
    (hbd : ∀ l ∈ inputsData, ∀ x ∈ l, x < inputsData.length)
    (hnc : ¬ ∃ l, CycleIn inputsData l ∧
      ∀ m ∈ l, df.getD m true = true) :
    (∃ fuel st', runDiagram df inputsData fuel = .ok st' ∧
      st'.ordered.Nodup ∧
      (∀ c, c ∈ st'.ordered ↔ c < inputsData.length) ∧
      DoneInv inputsData.length st') ∧
    runDiagram [true, true, false] [[2], [0], [1]] 100 =
      .ok { sysInputs := [[], [0], [1]], trail := [], ordered := [0, 1, 2],
            unmapped := [false, false, false] } := by
  constructor
  · rcases run_dichotomy df inputsData hbd
      (measB inputsData.length (totalEdges (initOrgState inputsData))
        (initOrgState inputsData) + 1) (by omega) with
      ⟨st', hok, rp, rall⟩ | ⟨_, hcyc⟩
    · refine ⟨_, st', hok, rp.oinv.1, ?_, rp.dinv⟩
      intro c
      constructor
      · intro hc
        exact rp.wf.2.2.2.2 c hc
      · intro hc
        exact (rp.oinv.2 c hc).mpr (rall c hc)
    · exact absurd hcyc hnc
  · rfl

/-- Concrete instance: the claim's A→B→C→A example resolves to the order
A, B, C with the C→A-derived dependency severed. -/
theorem build_order_amended_witness :
    (∃ fuel st',
      runDiagram [true, true, false] [[2], [0], [1]] fuel = .ok st' ∧
      st'.ordered.Nodup ∧ (∀ c, c ∈ st'.ordered ↔ c < 3) ∧
      DoneInv 3 st') ∧
    runDiagram [true, true, false] [[2], [0], [1]] 100 =
      .ok { sysInputs := [[], [0], [1]], trail := [], ordered := [0, 1, 2],
            unmapped := [false, false, false] } :=
  build_order_amended [true, true, false] [[2], [0], [1]] (by decide)
    no_alldf_cycle_abc
